import Mathlib

/-! BitArray: a word-packed bit vector (`bitarray.h`, `bitarray.cpp`).

Shallow embedding of the class `BitArray` and proofs about its operations.

Modelling conventions.

* `W` stands for `BITS_PER_WORD = sizeof(unsigned long) * CHAR_BIT`, a constant of the
  platform; every definition takes it as its first argument and the theorems hold for
  every `W > 0`.
* An `unsigned long` is a natural number below `2 ^ W`; the operations that can leave
  that range in C++ (`<<`, `- 1`, `~`) are reduced modulo `2 ^ W` explicitly.
* The buffer `data` is the list of its words, least significant word first; a null or
  empty buffer is the empty list.
* An `int` is 32 bits wide. An `int` argument that the source tests for negativity is an
  `Int`; the fields `num_bits` and `capacity`, which the class never makes negative, are
  natural numbers. The `int` sums that can leave the range of `int` (the rounding sum of
  `words_needed`, the product that gives `capacity`, `num_bits + 1` in `push_back`) wrap
  around modulo `2 ^ 32` (`wrap_int`), as they do on two's complement hardware; the C++
  standard leaves the overflow of a signed sum undefined. `/` on `int` truncates toward
  zero.
* A `new unsigned long[words]()` with a negative `words` throws
  `std::bad_array_new_length`; running out of memory is not modelled.
* A thrown exception is an `Except.error` carrying the exception class and its message.
* A member function that changes its receiver is a function to a `Call`: the receiver as
  the call leaves it, together with the exception the call throws, if it throws. The
  function that carries the source's name gives what the caller gets from that call:
  the receiver, or the exception.
* A `for` loop is one of the two combinators `for_up` and `for_down` applied to its body;
  a loop that returns from inside its body is a recursive function of its own.
-/

namespace BitArray

/-- The exceptions a call can end in: the two classes the source throws, with the message
they carry, and the `std::bad_array_new_length` of a `new[]` with a negative length. -/
inductive Error where
  | invalid_argument (what : String)
  | out_of_range (what : String)
  | bad_array_new_length
deriving DecidableEq

end BitArray

/-- The private fields of `class BitArray`. -/
structure BitArray where
  data : List Nat
  num_bits : Nat
  capacity : Nat
deriving DecidableEq

namespace BitArray

/-- The outcome of a call of a member function that changes its receiver: the receiver as
the call leaves it, and the exception the call throws, if it throws. -/
structure Call where
  self : BitArray
  thrown : Option Error

/-- What the caller gets from a call: the receiver, or the exception thrown. -/
def Call.result (c : Call) : Except Error BitArray :=
  match c.thrown with
  | some e => .error e
  | none => .ok c.self

/-- Two statements on the receiver in sequence: when the first throws, the second is not
run and the exception leaves the function. -/
def Call.and_then (c : Call) (next : BitArray → Call) : Call :=
  match c.thrown with
  | some e => ⟨c.self, some e⟩
  | none => next c.self

/-! ## Loops -/

/-- The loop `for (int i = lo; i < lo + n; ++i) body(i)`. -/
def for_up {σ : Type} (body : Nat → σ → σ) : Nat → Nat → σ → σ
  | _, 0, s => s
  | lo, n + 1, s => for_up body (lo + 1) n (body lo s)

/-- The loop `for (int i = lo + n - 1; i >= lo; --i) body(i)`. -/
def for_down {σ : Type} (body : Nat → σ → σ) (lo : Nat) : Nat → σ → σ
  | 0, s => s
  | n + 1, s => for_down body lo n (body (lo + n) s)

/-! ## Words -/

/-- The word `~0UL`. -/
def ALL_ONES (W : Nat) : Nat := 2 ^ W - 1

/-- The expression `x << k` on `unsigned long`. -/
def wshl (W x k : Nat) : Nat := (x <<< k) % 2 ^ W

/-- The expression `x >> k` on `unsigned long`. -/
def wshr (x k : Nat) : Nat := x >>> k

/-- The expression `~x` on `unsigned long`. -/
def wnot (W x : Nat) : Nat := ALL_ONES W ^^^ x

/-- The expression `(1UL << k) - 1`, the subtraction taken modulo `2 ^ W`. -/
def low_mask (W k : Nat) : Nat := (wshl W 1 k + (2 ^ W - 1)) % 2 ^ W

/-- The call `std::memset(data, 0, words * sizeof(unsigned long))`. -/
def memset_zero (data : List Nat) (words : Nat) : List Nat :=
  List.replicate words 0 ++ data.drop words

/-- The call `std::memset(data, 0xFF, words * sizeof(unsigned long))`. -/
def memset_ones (W : Nat) (data : List Nat) (words : Nat) : List Nat :=
  List.replicate words (ALL_ONES W) ++ data.drop words

/-- The call `std::memcpy(dst, src, words * sizeof(unsigned long))`. -/
def memcpy (dst src : List Nat) (words : Nat) : List Nat :=
  src.take words ++ dst.drop words

/-- The statement `data[i] = x`. -/
def store (data : List Nat) (i x : Nat) : List Nat := data.set i x

/-- The expression `data[i]`. -/
def load (data : List Nat) (i : Nat) : Nat := data.getD i 0

/-! ## Construction -/

/-- The largest `int`. -/
def INT_MAX : Int := 2147483647

/-- The `int` that a sum or product of `int`s with the exact value `x` yields: `x` reduced
modulo `2 ^ 32` into the range of `int`. -/
def wrap_int (x : Int) : Int := (x + 2147483648) % 4294967296 - 2147483648

/-- `BitArray::words_needed`: the sum is an `int` sum and the quotient truncates. -/
def words_needed (W : Nat) (bits : Int) : Int :=
  Int.tdiv (wrap_int (bits + (W : Int) - 1)) (W : Int)

/-- The value of `words_needed(bits)` where the source uses it as a count of words, for a
loop bound or a number of elements: no word when it is negative. -/
def words (W bits : Nat) : Nat := (words_needed W (bits : Int)).toNat

/-- `BitArray::BitArray()`. -/
def empty_array : BitArray := { data := [], num_bits := 0, capacity := 0 }

/-- The fields `BitArray::allocate` assigns once its `new[]` has succeeded: a
zero-initialised buffer of `words_needed(bits)` words. -/
def alloc (W bits : Nat) : BitArray :=
  let words := words_needed W (bits : Int)
  { data := List.replicate words.toNat 0, num_bits := bits,
    capacity := (wrap_int (words * (W : Int))).toNat }

/-- `BitArray::allocate`: it throws on a negative length, its `new[]` throws on a negative
number of words, and only then does it assign the fields. -/
def allocate (W : Nat) (bits : Int) : Except Error BitArray :=
  if bits < 0 then
    .error (.invalid_argument "bits must be non-negative")
  else if words_needed W bits < 0 then
    .error .bad_array_new_length
  else
    .ok (alloc W bits.toNat)

/-- `BitArray::BitArray(int num_bits, unsigned long value)`. -/
def create (W : Nat) (num_bits : Int) (value : Nat) : Except Error BitArray :=
  if num_bits < 0 then
    .error (.invalid_argument "num_bits must be non-negative")
  else
    match allocate W num_bits with
    | .error e => .error e
    | .ok b =>
      if num_bits > 0 then
        let init_bits : Nat := if num_bits < (W : Int) then num_bits.toNat else W
        let mask := if init_bits = W then ALL_ONES W else low_mask W init_bits
        .ok { b with data := store b.data 0 (value &&& mask) }
      else
        .ok b

/-- `BitArray::BitArray(const BitArray& b)`. Its `allocate(b.num_bits)` does not throw on
a vector that satisfies the class invariant, whose length `allocate` has accepted before
(`allocate_of_WF`); the copy is given the fields that call assigns. -/
def copy (W : Nat) (b : BitArray) : BitArray :=
  let t := alloc W b.num_bits
  if b.num_bits > 0 then
    { t with data := memcpy t.data b.data (words W b.num_bits) }
  else
    t

/-- `BitArray::operator=`: a copy of `b` is swapped into the receiver. A self-assignment
leaves the receiver as it is in the source, and is a copy of it here. -/
def assign (W : Nat) (_self b : BitArray) : BitArray := copy W b

/-- `BitArray::deallocate`, which is all `BitArray::clear` does. -/
def clear (_self : BitArray) : BitArray := { data := [], num_bits := 0, capacity := 0 }

/-! ## Single bits -/

/-- The call `v.set(n, val)` of `BitArray::set(int n, bool val)`. -/
def set_call (W : Nat) (v : BitArray) (n : Int) (val : Bool) : Call :=
  if n < 0 ∨ n ≥ (v.num_bits : Int) then
    ⟨v, some (.out_of_range "Bit index out of range")⟩
  else
    let word := n.toNat / W
    let bit := n.toNat % W
    if val then
      ⟨{ v with data := store v.data word (load v.data word ||| wshl W 1 bit) }, none⟩
    else
      ⟨{ v with data := store v.data word (load v.data word &&& wnot W (wshl W 1 bit)) },
        none⟩

/-- `BitArray::set(int n, bool val)`. -/
def set (W : Nat) (v : BitArray) (n : Int) (val : Bool) : Except Error BitArray :=
  (set_call W v n val).result

/-- The call `v.reset(n)` of `BitArray::reset(int n)`. -/
def reset_call (W : Nat) (v : BitArray) (n : Int) : Call := set_call W v n false

/-- `BitArray::reset(int n)`. -/
def reset (W : Nat) (v : BitArray) (n : Int) : Except Error BitArray :=
  (reset_call W v n).result

/-- `BitArray::operator[]`. -/
def op_index (W : Nat) (v : BitArray) (i : Int) : Except Error Bool :=
  if i < 0 ∨ i ≥ (v.num_bits : Int) then
    .error (.out_of_range "Bit index out of range")
  else
    let word := i.toNat / W
    let bit := i.toNat % W
    .ok (wshr (load v.data word) bit &&& 1 != 0)

/-- `BitArray::size`. -/
def size (v : BitArray) : Nat := v.num_bits

/-- `BitArray::empty`. -/
def empty (v : BitArray) : Bool := v.num_bits == 0

/-! ## Resizing -/

/-- The loop of `resize` that calls `set(i, true)` for `i = lo, ..., lo + n - 1`; an
exception of `set` ends it with the receiver as that call left it. -/
def fill_loop (W : Nat) : Nat → Nat → BitArray → Call
  | _, 0, v => ⟨v, none⟩
  | lo, n + 1, v =>
    match (set_call W v lo true).thrown with
    | some e => ⟨(set_call W v lo true).self, some e⟩
    | none => fill_loop W (lo + 1) n (set_call W v lo true).self

/-- The mask that `resize`, `set()` and `operator~` apply to the last word when
`excess > 0`: computed first as `(1UL << (W - excess % W)) - 1`, then replaced by
`~0UL` when `excess % W == 0`. -/
def tail_mask (W excess : Nat) : Nat :=
  let mask := low_mask W (W - excess % W)
  if excess % W = 0 then ALL_ONES W else mask

/-- The call `v.resize(num_bits, value)` of `BitArray::resize`. An exception of
`allocate` leaves the receiver as it was: `allocate` assigns no field before its `new[]`
has succeeded. -/
def resize_call (W : Nat) (v : BitArray) (num_bits : Int) (value : Bool) : Call :=
  if num_bits < 0 then
    ⟨v, some (.invalid_argument "num_bits must be non-negative")⟩
  else if num_bits = (v.num_bits : Int) then
    ⟨v, none⟩
  else
    let old_size := v.num_bits
    let old_data := v.data
    let old_words := words W old_size
    match allocate W num_bits with
    | .error e => ⟨v, some e⟩
    | .ok a =>
      let b : BitArray :=
        if old_size > 0 then
          let words_to_copy := min old_words (words W num_bits.toNat)
          let d := memcpy a.data old_data words_to_copy
          if num_bits < (old_size : Int) then
            let excess := a.capacity - num_bits.toNat
            if excess > 0 then
              let last := words W num_bits.toNat - 1
              { a with data := store d last (load d last &&& tail_mask W excess) }
            else
              { a with data := d }
          else
            { a with data := d }
        else
          a
      if value = true ∧ num_bits > (old_size : Int) then
        fill_loop W old_size (num_bits.toNat - old_size) b
      else
        ⟨b, none⟩

/-- `BitArray::resize`. -/
def resize (W : Nat) (v : BitArray) (num_bits : Int) (value : Bool) :
    Except Error BitArray :=
  (resize_call W v num_bits value).result

/-- The call `v.push_back(bit)` of `BitArray::push_back`; `num_bits + 1` is an `int`
sum. -/
def push_back_call (W : Nat) (v : BitArray) (bit : Bool) : Call :=
  (resize_call W v (wrap_int ((v.num_bits : Int) + 1)) false).and_then fun v1 =>
    if bit then set_call W v1 ((v1.num_bits : Int) - 1) true else ⟨v1, none⟩

/-- `BitArray::push_back`. -/
def push_back (W : Nat) (v : BitArray) (bit : Bool) : Except Error BitArray :=
  (push_back_call W v bit).result

/-! ## Bitwise operations -/

/-- The message of the exception thrown on operands of different sizes. -/
def size_mismatch : Error :=
  .invalid_argument "BitArray sizes must match for bitwise operations"

/-- The call `a &= b` of `BitArray::operator&=`. -/
def op_and_assign_call (W : Nat) (a b : BitArray) : Call :=
  if a.num_bits ≠ b.num_bits then
    ⟨a, some size_mismatch⟩
  else
    let words := words W a.num_bits
    let d := for_up (fun i d => store d i (load d i &&& load b.data i)) 0 words a.data
    ⟨{ a with data := d }, none⟩

/-- `BitArray::operator&=`. -/
def op_and_assign (W : Nat) (a b : BitArray) : Except Error BitArray :=
  (op_and_assign_call W a b).result

/-- The call `a |= b` of `BitArray::operator|=`. -/
def op_or_assign_call (W : Nat) (a b : BitArray) : Call :=
  if a.num_bits ≠ b.num_bits then
    ⟨a, some size_mismatch⟩
  else
    let words := words W a.num_bits
    let d := for_up (fun i d => store d i (load d i ||| load b.data i)) 0 words a.data
    ⟨{ a with data := d }, none⟩

/-- `BitArray::operator|=`. -/
def op_or_assign (W : Nat) (a b : BitArray) : Except Error BitArray :=
  (op_or_assign_call W a b).result

/-- The call `a ^= b` of `BitArray::operator^=`. -/
def op_xor_assign_call (W : Nat) (a b : BitArray) : Call :=
  if a.num_bits ≠ b.num_bits then
    ⟨a, some size_mismatch⟩
  else
    let words := words W a.num_bits
    let d := for_up (fun i d => store d i (load d i ^^^ load b.data i)) 0 words a.data
    ⟨{ a with data := d }, none⟩

/-- `BitArray::operator^=`. -/
def op_xor_assign (W : Nat) (a b : BitArray) : Except Error BitArray :=
  (op_xor_assign_call W a b).result

/-- The free function `operator&`. -/
def op_and (W : Nat) (b1 b2 : BitArray) : Except Error BitArray :=
  op_and_assign W (copy W b1) b2

/-- The free function `operator|`. -/
def op_or (W : Nat) (b1 b2 : BitArray) : Except Error BitArray :=
  op_or_assign W (copy W b1) b2

/-- The free function `operator^`. -/
def op_xor (W : Nat) (b1 b2 : BitArray) : Except Error BitArray :=
  op_xor_assign W (copy W b1) b2

/-! ## Shifts -/

/-- The body of the word loop of `operator<<=`. -/
def shl_body (W word_shift bit_shift : Nat) (i : Nat) (data : List Nat) : List Nat :=
  let d := store data i (wshl W (load data (i - word_shift)) bit_shift)
  if bit_shift ≠ 0 ∧ word_shift + 1 ≤ i then
    store d i (load d i ||| wshr (load d (i - word_shift - 1)) (W - bit_shift))
  else
    d

/-- `BitArray::operator<<=`. -/
def op_shl_assign (W : Nat) (v : BitArray) (n : Int) : BitArray :=
  if n < 0 then v
  else if n ≥ (v.num_bits : Int) then
    { v with data := memset_zero v.data (words W v.num_bits) }
  else if n = 0 then v
  else
    let word_shift := n.toNat / W
    let bit_shift := n.toNat % W
    let total_words := words W v.num_bits
    let d1 := for_down (shl_body W word_shift bit_shift) word_shift
      (total_words - word_shift) v.data
    let d2 := for_up (fun i d => store d i 0) 0 word_shift d1
    let excess := total_words * W - v.num_bits
    if excess > 0 then
      let mask := low_mask W (W - excess)
      { v with data := store d2 (total_words - 1) (load d2 (total_words - 1) &&& mask) }
    else
      { v with data := d2 }

/-- The body of the word loop of `operator>>=`. -/
def shr_body (W word_shift bit_shift total_words : Nat) (i : Nat) (data : List Nat) :
    List Nat :=
  let d := store data i (wshr (load data (i + word_shift)) bit_shift)
  if bit_shift ≠ 0 ∧ i + word_shift + 1 < total_words then
    store d i (load d i ||| wshl W (load d (i + word_shift + 1)) (W - bit_shift))
  else
    d

/-- `BitArray::operator>>=`. -/
def op_shr_assign (W : Nat) (v : BitArray) (n : Int) : BitArray :=
  if n < 0 then v
  else if n ≥ (v.num_bits : Int) then
    { v with data := memset_zero v.data (words W v.num_bits) }
  else if n = 0 then v
  else
    let word_shift := n.toNat / W
    let bit_shift := n.toNat % W
    let total_words := words W v.num_bits
    let d1 := for_up (shr_body W word_shift bit_shift total_words) 0
      (total_words - word_shift) v.data
    let d2 := for_up (fun i d => store d i 0) (total_words - word_shift)
      (total_words - (total_words - word_shift)) d1
    { v with data := d2 }

/-- `BitArray::operator<<`. -/
def op_shl (W : Nat) (v : BitArray) (n : Int) : BitArray := op_shl_assign W (copy W v) n

/-- `BitArray::operator>>`. -/
def op_shr (W : Nat) (v : BitArray) (n : Int) : BitArray := op_shr_assign W (copy W v) n

/-! ## Whole-vector operations and queries -/

/-- `BitArray::set()`. -/
def set_all (W : Nat) (v : BitArray) : BitArray :=
  let d := memset_ones W v.data (words W v.num_bits)
  let excess := v.capacity - v.num_bits
  if excess > 0 then
    let last := words W v.num_bits - 1
    { v with data := store d last (load d last &&& tail_mask W excess) }
  else
    { v with data := d }

/-- `BitArray::reset()`. -/
def reset_all (W : Nat) (v : BitArray) : BitArray :=
  { v with data := memset_zero v.data (words W v.num_bits) }

/-- The loop of `BitArray::any`, from word `i` on, `n` words left. -/
def any_loop (data : List Nat) : Nat → Nat → Bool
  | _, 0 => false
  | i, n + 1 => if load data i ≠ 0 then true else any_loop data (i + 1) n

/-- `BitArray::any`. -/
def any (W : Nat) (v : BitArray) : Bool := any_loop v.data 0 (words W v.num_bits)

/-- `BitArray::none`. -/
def none (W : Nat) (v : BitArray) : Bool := !any W v

/-- `BitArray::operator~`. -/
def op_not (W : Nat) (v : BitArray) : BitArray :=
  let tmp := copy W v
  let words := words W v.num_bits
  let d := for_up (fun i d => store d i (wnot W (load v.data i))) 0 words tmp.data
  let excess := tmp.capacity - tmp.num_bits
  if excess > 0 then
    let last_word := words - 1
    { tmp with data := store d last_word (load d last_word &&& tail_mask W excess) }
  else
    { tmp with data := d }

/-- The loop `while (w) { cnt += w & 1; w >>= 1; }` of `BitArray::count`. -/
def count_word (w cnt : Nat) : Nat :=
  if h : w = 0 then cnt else count_word (wshr w 1) (cnt + (w &&& 1))
termination_by w
decreasing_by
  simp only [wshr, Nat.shiftRight_eq_div_pow, Nat.pow_one]
  omega

/-- `BitArray::count`. -/
def count (W : Nat) (v : BitArray) : Nat :=
  if v.num_bits = 0 then 0
  else
    let full_words := v.num_bits / W
    let last_bits := v.num_bits % W
    let cnt := for_up (fun i cnt => count_word (load v.data i) cnt) 0 full_words 0
    if last_bits > 0 then
      let w := load v.data full_words
      for_up (fun i cnt => cnt + (wshr w i &&& 1)) 0 last_bits cnt
    else
      cnt

/-- The loop of `BitArray::to_string`: indices `n - 1` down to `0` are appended to `s`. -/
def to_string_loop (W : Nat) (v : BitArray) : Nat → List Char → Except Error (List Char)
  | 0, s => .ok s
  | n + 1, s =>
    match op_index W v (n : Int) with
    | .error e => .error e
    | .ok b => to_string_loop W v n (s ++ [if b then '1' else '0'])

/-- `BitArray::to_string`. -/
def to_string (W : Nat) (v : BitArray) : Except Error String :=
  match to_string_loop W v v.num_bits [] with
  | .error e => .error e
  | .ok s => .ok (String.mk s)

/-- The loop of `operator==`, from word `i` on, `n` words left. -/
def eq_loop (a b : List Nat) : Nat → Nat → Bool
  | _, 0 => true
  | i, n + 1 => if load a i ≠ load b i then false else eq_loop a b (i + 1) n

/-- The free function `operator==`. -/
def op_eq (W : Nat) (a b : BitArray) : Bool :=
  if size a ≠ size b then false
  else eq_loop a.data b.data 0 (words W (size a))

/-- The free function `operator!=`. -/
def op_ne (W : Nat) (a b : BitArray) : Bool := !op_eq W a b

end BitArray

/-! ## Vocabulary of the specification -/

namespace BitArray

/-- Bit `i` as the buffer stores it: position `i % W` of word `i / W`. -/
def bit (W : Nat) (v : BitArray) (i : Nat) : Bool := (load v.data (i / W)).testBit (i % W)

/-- The number of words that cover `bits` bits. `words_needed` computes it as long as
its `int` sum does not overflow. -/
def nwords (W bits : Nat) : Nat := (bits + W - 1) / W

/-- The class invariant: `num_bits` is a length `allocate` accepts (the `int` sum of
`words_needed` does not overflow on it), the buffer has exactly the words that cover
`num_bits`, `capacity` counts their bits, every word fits an `unsigned long`, and every
bit position at or beyond `num_bits` inside the allocated words is zero (the zero
tail). -/
def WF (W : Nat) (v : BitArray) : Prop :=
  (v.num_bits : Int) + (W : Int) - 1 ≤ INT_MAX ∧
  v.data.length = nwords W v.num_bits ∧
  v.capacity = nwords W v.num_bits * W ∧
  (∀ w ∈ v.data, w < 2 ^ W) ∧
  (∀ i < v.capacity, v.num_bits ≤ i → bit W v i = false)

instance decidableWF (W : Nat) (v : BitArray) : Decidable (WF W v) := by
  unfold WF
  infer_instance

/-- The word that one iteration of the loop of `operator<<=` leaves at index `i`. -/
def shl_word (W word_shift bit_shift : Nat) (i : Nat) (d : List Nat) : Nat :=
  if bit_shift ≠ 0 ∧ word_shift + 1 ≤ i then
    wshl W (load d (i - word_shift)) bit_shift |||
      wshr (load d (i - word_shift - 1)) (W - bit_shift)
  else
    wshl W (load d (i - word_shift)) bit_shift

/-- The word that one iteration of the loop of `operator>>=` leaves at index `i`. -/
def shr_word (W word_shift bit_shift total_words : Nat) (i : Nat) (d : List Nat) : Nat :=
  if bit_shift ≠ 0 ∧ i + word_shift + 1 < total_words then
    wshr (load d (i + word_shift)) bit_shift |||
      wshl W (load d (i + word_shift + 1)) (W - bit_shift)
  else
    wshr (load d (i + word_shift)) bit_shift

/-- The exception class of an error, which is what a `catch` clause tells apart:
`std::invalid_argument`, `std::out_of_range` or `std::bad_array_new_length`. -/
inductive ErrorKind where
  | invalid_argument
  | out_of_range
  | bad_array_new_length
deriving DecidableEq

/-- The exception class of an error. -/
def Error.kind : Error → ErrorKind
  | .invalid_argument _ => .invalid_argument
  | .out_of_range _ => .out_of_range
  | .bad_array_new_length => .bad_array_new_length

/-- The message of an error, as `what()` returns it. -/
def Error.message : Error → String
  | .invalid_argument w => w
  | .out_of_range w => w
  | .bad_array_new_length => "std::bad_array_new_length"

/-- The error `set`, `reset` and `operator[]` throw. -/
def index_out_of_range : Error := .out_of_range "Bit index out of range"

/-- The error the constructor and `resize` throw. -/
def negative_length : Error := .invalid_argument "num_bits must be non-negative"

/-- The calls `v.push_back(b)` for the bits `b` of a list, first to last; an exception
ends the run. -/
def push_all (W : Nat) : BitArray → List Bool → Except Error BitArray
  | v, [] => .ok v
  | v, b :: bs => (push_back W v b).bind fun v1 => push_all W v1 bs

/-- The number of indices below `size()` whose bit is set. -/
def set_bits (W : Nat) (v : BitArray) : Nat :=
  (List.range (size v)).countP (fun (i : Nat) =>
    match op_index W v (i : Int) with
    | .ok b => b
    | .error _ => false)

end BitArray

/-! # Verification -/

namespace BitArray

/-! ## The buffer -/

theorem length_store (d : List Nat) (i x : Nat) : (store d i x).length = d.length := by
  simp [store]

theorem load_store (d : List Nat) (i x j : Nat) :
    load (store d i x) j = if j = i ∧ i < d.length then x else load d j := by
  unfold load store
  by_cases h : j = i
  · subst h
    by_cases hl : j < d.length
    · simp [hl, List.getElem?_set_self hl]
    · have h1 : d.set j x = d := by
        apply List.ext_getElem?
        intro k
        by_cases hk : j = k
        · subst hk
          rw [List.getElem?_eq_none (by simp; omega), List.getElem?_eq_none (by omega)]
        · rw [List.getElem?_set_ne hk]
      simp [hl, h1]
  · have h2 : i ≠ j := fun e => h e.symm
    simp [h, List.getElem?_set_ne h2]

theorem load_of_le (d : List Nat) (j : Nat) (h : d.length ≤ j) : load d j = 0 := by
  unfold load
  simp [List.getElem?_eq_none h]

theorem load_replicate (n x j : Nat) :
    load (List.replicate n x) j = if j < n then x else 0 := by
  unfold load
  by_cases h : j < n
  · simp [h, List.getElem?_replicate]
  · simp [h, List.getElem?_replicate]

theorem load_append (a b : List Nat) (j : Nat) :
    load (a ++ b) j = if j < a.length then load a j else load b (j - a.length) := by
  unfold load
  by_cases h : j < a.length
  · simp [h, List.getElem?_append_left h]
  · simp [h, List.getElem?_append_right (Nat.le_of_not_lt h)]

theorem load_take (d : List Nat) (k j : Nat) :
    load (d.take k) j = if j < k then load d j else 0 := by
  unfold load
  by_cases h : j < k
  · simp [h, List.getElem?_take_of_lt h]
  · simp [h, List.getElem?_take_eq_none (Nat.le_of_not_lt h)]

theorem load_drop (d : List Nat) (k j : Nat) : load (d.drop k) j = load d (k + j) := by
  unfold load
  simp [List.getElem?_drop]

theorem load_mem (d : List Nat) (j : Nat) (h : j < d.length) : load d j ∈ d := by
  unfold load
  rw [List.getD_eq_getElem?_getD, List.getElem?_eq_getElem h]
  exact List.getElem_mem h

theorem mem_iff_load (d : List Nat) (w : Nat) : w ∈ d ↔ ∃ j, j < d.length ∧ load d j = w := by
  constructor
  · intro h
    obtain ⟨j, hj, e⟩ := List.getElem_of_mem h
    refine ⟨j, hj, ?_⟩
    unfold load
    rw [List.getD_eq_getElem?_getD, List.getElem?_eq_getElem hj]
    simpa using e
  · rintro ⟨j, hj, e⟩
    rw [← e]
    exact load_mem d j hj

theorem ext_load (a b : List Nat) (hl : a.length = b.length)
    (h : ∀ j, j < a.length → load a j = load b j) : a = b := by
  apply List.ext_getElem hl
  intro n h1 h2
  have := h n h1
  unfold load at this
  rw [List.getD_eq_getElem?_getD, List.getD_eq_getElem?_getD, List.getElem?_eq_getElem h1,
    List.getElem?_eq_getElem h2] at this
  simpa using this

theorem length_memset_zero (d : List Nat) (k : Nat) (h : k ≤ d.length) :
    (memset_zero d k).length = d.length := by
  simp [memset_zero]
  omega

theorem load_memset_zero (d : List Nat) (k j : Nat) :
    load (memset_zero d k) j = if j < k then 0 else load d j := by
  unfold memset_zero
  rw [load_append]
  by_cases h : j < k
  · simp [h, load_replicate]
  · simp [h, load_drop]
    congr 1
    omega

theorem length_memset_ones (W : Nat) (d : List Nat) (k : Nat) (h : k ≤ d.length) :
    (memset_ones W d k).length = d.length := by
  simp [memset_ones]
  omega

theorem load_memset_ones (W : Nat) (d : List Nat) (k j : Nat) :
    load (memset_ones W d k) j = if j < k then ALL_ONES W else load d j := by
  unfold memset_ones
  rw [load_append]
  by_cases h : j < k
  · simp [h, load_replicate]
  · simp [h, load_drop]
    congr 1
    omega

theorem length_memcpy (dst src : List Nat) (k : Nat) (h1 : k ≤ dst.length)
    (h2 : k ≤ src.length) : (memcpy dst src k).length = dst.length := by
  simp [memcpy]
  omega

theorem load_memcpy (dst src : List Nat) (k j : Nat) (h2 : k ≤ src.length) :
    load (memcpy dst src k) j = if j < k then load src j else load dst j := by
  unfold memcpy
  rw [load_append]
  have hl : (src.take k).length = k := by simp; omega
  rw [hl]
  by_cases h : j < k
  · simp [h, load_take]
  · simp [h, load_drop]
    congr 1
    omega

/-! ## Loops that store one word per index -/

/-- An ascending loop whose body stores at index `i` a value computed from the words at
indices `i` and above stores, at every index of its range, the value computed from the
initial buffer. -/
theorem for_up_store (body : Nat → List Nat → List Nat) (f : Nat → List Nat → Nat)
    (hb : ∀ i d, body i d = store d i (f i d))
    (hf : ∀ i d e, (∀ j, i ≤ j → load d j = load e j) → f i d = f i e) :
    ∀ n lo d, lo + n ≤ d.length →
      (for_up body lo n d).length = d.length ∧
      ∀ q, load (for_up body lo n d) q = if lo ≤ q ∧ q < lo + n then f q d else load d q := by
  intro n
  induction n with
  | zero =>
    intro lo d _
    refine ⟨rfl, fun q => ?_⟩
    rw [if_neg (by omega)]
    rfl
  | succ n ih =>
    intro lo d hlen
    have hl1 : (body lo d).length = d.length := by rw [hb, length_store]
    obtain ⟨h1, h2⟩ := ih (lo + 1) (body lo d) (by omega)
    refine ⟨by simp only [for_up]; omega, fun q => ?_⟩
    simp only [for_up]
    rw [h2 q]
    by_cases hq : lo + 1 ≤ q ∧ q < lo + 1 + n
    · have c : lo ≤ q ∧ q < lo + (n + 1) := by omega
      rw [if_pos hq, if_pos c]
      apply hf
      intro j hj
      rw [hb, load_store, if_neg (by omega)]
    · rw [if_neg hq, hb, load_store]
      by_cases e : q = lo
      · subst e
        rw [if_pos ⟨rfl, by omega⟩, if_pos (by omega)]
      · rw [if_neg (by omega), if_neg (by omega)]

/-- A descending loop whose body stores at index `i` a value computed from the words at
indices `i` and below stores, at every index of its range, the value computed from the
initial buffer. -/
theorem for_down_store (body : Nat → List Nat → List Nat) (f : Nat → List Nat → Nat)
    (hb : ∀ i d, body i d = store d i (f i d))
    (hf : ∀ i d e, (∀ j, j ≤ i → load d j = load e j) → f i d = f i e) (lo : Nat) :
    ∀ n d, lo + n ≤ d.length →
      (for_down body lo n d).length = d.length ∧
      ∀ q, load (for_down body lo n d) q =
        if lo ≤ q ∧ q < lo + n then f q d else load d q := by
  intro n
  induction n with
  | zero =>
    intro d _
    refine ⟨rfl, fun q => ?_⟩
    rw [if_neg (by omega)]
    rfl
  | succ n ih =>
    intro d hlen
    have hl1 : (body (lo + n) d).length = d.length := by rw [hb, length_store]
    obtain ⟨h1, h2⟩ := ih (body (lo + n) d) (by omega)
    refine ⟨by simp only [for_down]; omega, fun q => ?_⟩
    simp only [for_down]
    rw [h2 q]
    by_cases hq : lo ≤ q ∧ q < lo + n
    · have c : lo ≤ q ∧ q < lo + (n + 1) := by omega
      rw [if_pos hq, if_pos c]
      apply hf
      intro j hj
      rw [hb, load_store, if_neg (by omega)]
    · rw [if_neg hq, hb, load_store]
      by_cases e : q = lo + n
      · subst e
        rw [if_pos ⟨rfl, by omega⟩, if_pos (by omega)]
      · rw [if_neg (by omega), if_neg (by omega)]

/-! ## Bits of words -/

theorem testBit_ALL_ONES (W j : Nat) : (ALL_ONES W).testBit j = decide (j < W) := by
  simp [ALL_ONES]

theorem ALL_ONES_lt (W : Nat) : ALL_ONES W < 2 ^ W := by
  have := Nat.two_pow_pos W
  unfold ALL_ONES
  omega

theorem wshl_lt (W x k : Nat) : wshl W x k < 2 ^ W :=
  Nat.mod_lt _ (Nat.two_pow_pos W)

theorem testBit_wshl (W x k j : Nat) :
    (wshl W x k).testBit j = (decide (j < W) && (decide (k ≤ j) && x.testBit (j - k))) := by
  simp [wshl, Nat.testBit_mod_two_pow, Nat.testBit_shiftLeft]

theorem testBit_wshr (x k j : Nat) : (wshr x k).testBit j = x.testBit (k + j) := by
  simp [wshr, Nat.testBit_shiftRight]

theorem wshr_lt (W x k : Nat) (h : x < 2 ^ W) : wshr x k < 2 ^ W := by
  unfold wshr
  rw [Nat.shiftRight_eq_div_pow]
  exact Nat.lt_of_le_of_lt (Nat.div_le_self _ _) h

theorem testBit_of_lt (W x j : Nat) (h : x < 2 ^ W) (hj : W ≤ j) : x.testBit j = false :=
  Nat.testBit_lt_two_pow (Nat.lt_of_lt_of_le h (Nat.pow_le_pow_right (by decide) hj))

theorem wnot_lt (W x : Nat) (h : x < 2 ^ W) : wnot W x < 2 ^ W :=
  Nat.xor_lt_two_pow (ALL_ONES_lt W) h

theorem testBit_wnot (W x j : Nat) (h : x < 2 ^ W) :
    (wnot W x).testBit j = (decide (j < W) && !x.testBit j) := by
  unfold wnot
  rw [Nat.testBit_xor, testBit_ALL_ONES]
  by_cases hj : j < W
  · simp [hj]
  · simp [hj, testBit_of_lt W x j h (by omega)]

theorem low_mask_eq (W k : Nat) (h : k ≤ W) : low_mask W k = 2 ^ k - 1 := by
  unfold low_mask wshl
  have hW := Nat.two_pow_pos W
  have hk := Nat.two_pow_pos k
  have hle : 2 ^ k ≤ 2 ^ W := Nat.pow_le_pow_right (by decide) h
  rw [Nat.shiftLeft_eq, Nat.one_mul]
  rcases Nat.eq_or_lt_of_le h with e | hlt
  · subst e
    rw [Nat.mod_self, Nat.zero_add, Nat.mod_eq_of_lt (by omega)]
  · have hlt2 : 2 ^ k < 2 ^ W := Nat.pow_lt_pow_right (by decide) hlt
    rw [Nat.mod_eq_of_lt hlt2]
    have e : 2 ^ k + (2 ^ W - 1) = (2 ^ k - 1) + 2 ^ W := by omega
    rw [e, Nat.add_mod_right, Nat.mod_eq_of_lt (by omega)]

theorem testBit_low_mask (W k j : Nat) (h : k ≤ W) :
    (low_mask W k).testBit j = decide (j < k) := by
  rw [low_mask_eq W k h, Nat.testBit_two_pow_sub_one]

theorem low_mask_lt (W k : Nat) : low_mask W k < 2 ^ W :=
  Nat.mod_lt _ (Nat.two_pow_pos W)

theorem testBit_one_shl (W b j : Nat) (hb : b < W) :
    (wshl W 1 b).testBit j = decide (j = b) := by
  rw [testBit_wshl]
  by_cases hj : j = b
  · subst hj
    simp [hb]
  · by_cases hle : b ≤ j
    · have h0 : j - b ≠ 0 := by omega
      have h1 : Nat.testBit 1 (j - b) = false := by
        cases h : Nat.testBit 1 (j - b)
        · rfl
        · exact absurd (Nat.testBit_one_eq_true_iff_self_eq_zero.mp h) h0
      simp [hj, hle, h1]
    · simp [hj, hle]

/-- The value of `(x >> bit) & 1` as a `bool` is bit `bit` of `x`. -/
theorem shr_and_one (x b : Nat) : (wshr x b &&& 1 != 0) = x.testBit b := by
  unfold wshr Nat.testBit
  rw [Nat.land_comm]

/-! ## Word counts -/

/-- An `int` sum whose exact value is in the range of `int` has that value. -/
theorem wrap_int_eq (x : Int) (h1 : -2147483648 ≤ x) (h2 : x ≤ INT_MAX) : wrap_int x = x := by
  unfold INT_MAX at h2
  unfold wrap_int
  omega

/-- Where its sum does not overflow, `words_needed` is the number of words that cover
`bits` bits. -/
theorem words_needed_eq (W bits : Nat) (hW : 0 < W)
    (hb : (bits : Int) + (W : Int) - 1 ≤ INT_MAX) :
    words_needed W (bits : Int) = (nwords W bits : Int) := by
  unfold words_needed nwords
  rw [wrap_int_eq _ (by omega) hb]
  have e : (bits : Int) + (W : Int) - 1 = ((bits + W - 1 : Nat) : Int) := by omega
  rw [e, ← Int.ofNat_tdiv]

theorem words_eq (W bits : Nat) (hW : 0 < W)
    (hb : (bits : Int) + (W : Int) - 1 ≤ INT_MAX) : words W bits = nwords W bits := by
  unfold words
  rw [words_needed_eq W bits hW hb, Int.toNat_ofNat]

theorem nwords_zero (W : Nat) (hW : 0 < W) : nwords W 0 = 0 := by
  unfold nwords
  rw [Nat.zero_add]
  exact Nat.div_eq_of_lt (by omega)

theorem le_words_mul (W bits : Nat) (hW : 0 < W) : bits ≤ nwords W bits * W := by
  unfold nwords
  have h1 := Nat.div_add_mod (bits + W - 1) W
  have h2 := Nat.mod_lt (bits + W - 1) hW
  rw [Nat.mul_comm] at h1
  omega

theorem words_mul_lt (W bits : Nat) (hW : 0 < W) : nwords W bits * W < bits + W := by
  unfold nwords
  have h1 := Nat.div_add_mod (bits + W - 1) W
  rw [Nat.mul_comm] at h1
  omega

theorem div_lt_words (W bits i : Nat) (hW : 0 < W) (h : i < bits) :
    i / W < nwords W bits := by
  rw [Nat.div_lt_iff_lt_mul hW]
  exact Nat.lt_of_lt_of_le h (le_words_mul W bits hW)

theorem words_pos (W bits : Nat) (hW : 0 < W) (h : 0 < bits) : 0 < nwords W bits :=
  Nat.lt_of_le_of_lt (Nat.zero_le _) (div_lt_words W bits 0 hW h)

theorem words_mono (W a b : Nat) (h : a ≤ b) : nwords W a ≤ nwords W b := by
  unfold nwords
  exact Nat.div_le_div_right (by omega)

/-- An index splits into its word and its position in the word. -/
theorem div_mod_of_eq (W i q r : Nat) (hr : r < W) (e : i = q * W + r) :
    i / W = q ∧ i % W = r := by
  subst e
  have hW : 0 < W := by omega
  constructor
  · rw [Nat.add_comm, Nat.add_mul_div_right _ _ hW, Nat.div_eq_of_lt hr, Nat.zero_add]
  · rw [Nat.add_comm, Nat.add_mul_mod_self_right, Nat.mod_eq_of_lt hr]

theorem split_index (W i : Nat) (hW : 0 < W) : i = i / W * W + i % W ∧ i % W < W := by
  have h1 := Nat.div_add_mod i W
  rw [Nat.mul_comm] at h1
  exact ⟨h1.symm, Nat.mod_lt i hW⟩

/-! ## The invariant and indexed reads -/

theorem op_index_eq (W : Nat) (v : BitArray) (i : Nat) (h : i < v.num_bits) :
    op_index W v (i : Int) = .ok (bit W v i) := by
  unfold op_index bit
  rw [if_neg (by omega)]
  simp only [Int.toNat_ofNat, shr_and_one]

theorem op_index_error (W : Nat) (v : BitArray) (i : Nat) (h : v.num_bits ≤ i) :
    op_index W v (i : Int) = .error (.out_of_range "Bit index out of range") := by
  unfold op_index
  rw [if_pos (by omega)]

theorem WF.bound {W : Nat} {v : BitArray} (h : WF W v) :
    (v.num_bits : Int) + (W : Int) - 1 ≤ INT_MAX := h.1

theorem WF.length_eq {W : Nat} {v : BitArray} (h : WF W v) :
    v.data.length = nwords W v.num_bits := h.2.1

theorem WF.capacity_eq {W : Nat} {v : BitArray} (h : WF W v) :
    v.capacity = nwords W v.num_bits * W := h.2.2.1

/-- Under the invariant the word count the source computes is the exact one. -/
theorem WF.words_nwords {W : Nat} {v : BitArray} (h : WF W v) (hW : 0 < W) :
    words W v.num_bits = nwords W v.num_bits := BitArray.words_eq W _ hW h.bound

theorem WF.load_lt {W : Nat} {v : BitArray} (h : WF W v) (q : Nat) :
    load v.data q < 2 ^ W := by
  by_cases hq : q < v.data.length
  · exact h.2.2.2.1 _ (load_mem _ _ hq)
  · rw [load_of_le _ _ (by omega)]
    exact Nat.two_pow_pos W

/-- Under the invariant every stored bit at or beyond `num_bits` is zero, whether inside
the allocated words or beyond them. -/
theorem WF.bit_tail {W : Nat} {v : BitArray} (h : WF W v) (hW : 0 < W) (i : Nat)
    (hi : v.num_bits ≤ i) : bit W v i = false := by
  by_cases hc : i < v.capacity
  · exact h.2.2.2.2 i hc hi
  · unfold bit
    rw [load_of_le _ _ ?_]
    · simp
    · rw [h.length_eq, Nat.le_div_iff_mul_le hW, ← h.capacity_eq]
      omega

/-- Bit `r` of word `q` is bit `q * W + r` of the vector. -/
theorem bit_word (W : Nat) (v : BitArray) (q r : Nat) (hr : r < W) :
    (load v.data q).testBit r = bit W v (q * W + r) := by
  unfold bit
  obtain ⟨h1, h2⟩ := div_mod_of_eq W (q * W + r) q r hr rfl
  rw [h1, h2]

/-- The invariant from its word-level form. -/
theorem WF.of_words (W : Nat) (v : BitArray)
    (hb : (v.num_bits : Int) + (W : Int) - 1 ≤ INT_MAX)
    (hlen : v.data.length = nwords W v.num_bits)
    (hcap : v.capacity = nwords W v.num_bits * W)
    (hlt : ∀ q, q < v.data.length → load v.data q < 2 ^ W)
    (htail : ∀ i, v.num_bits ≤ i → bit W v i = false) : WF W v := by
  refine ⟨hb, hlen, hcap, ?_, fun i _ hi => htail i hi⟩
  intro w hw
  obtain ⟨j, hj, e⟩ := (mem_iff_load _ _).mp hw
  rw [← e]
  exact hlt j hj

/-- Two buffers of the same length whose words fit `W` bits and whose bits agree
are the same buffer. -/
theorem data_eq_of_bits (W : Nat) (a b : BitArray)
    (hl : a.data.length = b.data.length)
    (ha : ∀ q, load a.data q < 2 ^ W) (hb : ∀ q, load b.data q < 2 ^ W)
    (h : ∀ i, bit W a i = bit W b i) : a.data = b.data := by
  apply ext_load _ _ hl
  intro q _
  apply Nat.eq_of_testBit_eq
  intro r
  by_cases hr : r < W
  · rw [bit_word W a q r hr, bit_word W b q r hr, h]
  · rw [testBit_of_lt W _ r (ha q) (by omega), testBit_of_lt W _ r (hb q) (by omega)]

/-! ## Construction -/

/-- The fields `allocate` assigns for a length its sum does not overflow on. -/
theorem alloc_eq (W bits : Nat) (hW : 0 < W)
    (hb : (bits : Int) + (W : Int) - 1 ≤ INT_MAX) :
    alloc W bits =
      { data := List.replicate (nwords W bits) 0, num_bits := bits,
        capacity := nwords W bits * W } := by
  unfold alloc
  simp only
  rw [words_needed_eq W bits hW hb, Int.toNat_ofNat]
  have h1 := words_mul_lt W bits hW
  have e : ((nwords W bits : Nat) : Int) * (W : Int) = ((nwords W bits * W : Nat) : Int) := by
    rw [Nat.cast_mul]
  rw [e, wrap_int_eq _ (by omega) (by unfold INT_MAX at *; omega), Int.toNat_ofNat]

theorem allocate_ok (W bits : Nat) (hW : 0 < W)
    (hb : (bits : Int) + (W : Int) - 1 ≤ INT_MAX) :
    allocate W (bits : Int) = .ok
      { data := List.replicate (nwords W bits) 0, num_bits := bits,
        capacity := nwords W bits * W } := by
  unfold allocate
  rw [if_neg (by omega), if_neg (by rw [words_needed_eq W bits hW hb]; omega),
    Int.toNat_ofNat, alloc_eq W bits hW hb]

/-- On the length of a vector that satisfies the invariant `allocate` does not throw. -/
theorem allocate_of_WF (W : Nat) (hW : 0 < W) (v : BitArray) (h : WF W v) :
    allocate W (v.num_bits : Int) = .ok (alloc W v.num_bits) := by
  rw [allocate_ok W v.num_bits hW h.bound, alloc_eq W v.num_bits hW h.bound]

/-- The vector that `create` builds for a length `L` and a seed. -/
theorem create_ok (W : Nat) (hW : 0 < W) (L : Nat) (seed : Nat)
    (hb : (L : Int) + (W : Int) - 1 ≤ INT_MAX) :
    create W (L : Int) seed = .ok
      { data :=
          if 0 < L then
            store (List.replicate (nwords W L) 0) 0
              (seed &&& (if (if L < W then L else W) = W then ALL_ONES W
                else low_mask W (if L < W then L else W)))
          else List.replicate (nwords W L) 0
        num_bits := L
        capacity := nwords W L * W } := by
  unfold create
  rw [if_neg (by omega), allocate_ok W L hW hb]
  by_cases h : 0 < L
  · have h1 : (L : Int) > 0 := by omega
    simp only [h1, h, if_true, Int.toNat_ofNat, Nat.cast_lt]
  · have h1 : ¬ (L : Int) > 0 := by omega
    simp only [h1, h, if_false, Int.toNat_ofNat]

theorem create_num_bits (W : Nat) (hW : 0 < W) (L seed : Nat) (v : BitArray)
    (hb0 : (L : Int) + (W : Int) - 1 ≤ INT_MAX)
    (h : create W (L : Int) seed = .ok v) : v.num_bits = L := by
  rw [create_ok W hW L seed hb0] at h
  injection h with h
  rw [← h]

/-- Every stored bit of a created vector: the seed bit below `min(L, W)`, zero above. -/
theorem bit_create (W : Nat) (hW : 0 < W) (L seed : Nat) (v : BitArray)
    (hb0 : (L : Int) + (W : Int) - 1 ≤ INT_MAX)
    (h : create W (L : Int) seed = .ok v) (i : Nat) :
    bit W v i = (decide (i < W) && (decide (i < L) && seed.testBit i)) := by
  rw [create_ok W hW L seed hb0] at h
  injection h with h
  subst h
  unfold bit
  simp only
  by_cases hL : 0 < L
  · rw [if_pos hL, load_store, List.length_replicate]
    have hw := words_pos W L hW hL
    by_cases hi : i < W
    · rw [Nat.div_eq_of_lt hi, Nat.mod_eq_of_lt hi, if_pos ⟨rfl, hw⟩, Nat.testBit_and]
      by_cases hLW : L < W
      · rw [if_pos hLW, if_neg (by omega), testBit_low_mask W L i (by omega)]
        simp [hi, Bool.and_comm]
      · rw [if_neg hLW, if_pos rfl, testBit_ALL_ONES]
        have : i < L := by omega
        simp [hi, this]
    · have : i / W ≠ 0 := by
        intro e
        rw [Nat.div_eq_zero_iff hW] at e
        omega
      rw [if_neg (by omega), load_replicate]
      simp [hi]
  · have : L = 0 := by omega
    subst this
    rw [if_neg hL, load_replicate]
    simp

theorem create_WF (W : Nat) (hW : 0 < W) (L seed : Nat) (v : BitArray)
    (hb0 : (L : Int) + (W : Int) - 1 ≤ INT_MAX)
    (h : create W (L : Int) seed = .ok v) : WF W v := by
  have hb := bit_create W hW L seed v hb0 h
  have hn := create_num_bits W hW L seed v hb0 h
  rw [create_ok W hW L seed hb0] at h
  injection h with h
  apply WF.of_words W v
  · rw [hn]
    exact hb0
  · rw [← h]
    simp only
    split
    · rw [length_store, List.length_replicate]
    · rw [List.length_replicate]
  · rw [← h]
  · intro q _
    rw [← h]
    simp only
    split
    · rw [load_store]
      split
      · exact Nat.and_lt_two_pow _
          (by split_ifs <;> first | exact ALL_ONES_lt W | exact low_mask_lt W _)
      · rw [load_replicate]
        split <;> exact Nat.two_pow_pos W
    · rw [load_replicate]
      split <;> exact Nat.two_pow_pos W
  · intro i hi
    rw [hb i]
    have : ¬ i < L := by omega
    simp [this]

/-- Seeded construction on the lengths `allocate` accepts. For every length `≥ 0` on
which the sum of `words_needed` does not overflow and every seed, `create` succeeds with
`size()` equal to the length; at every index `i` below the length `operator[]` returns
bit `i` of the seed when `i < W` and `false` when `i ≥ W`; and no bit is stored at a
position at or beyond the length, so the seed bits there are discarded. -/
theorem create_seeded_in_range (W : Nat) (hW : 0 < W) (length : Int) (hlen : 0 ≤ length)
    (hb : length + (W : Int) - 1 ≤ INT_MAX) (seed : Nat) :
    ∃ v, create W length seed = .ok v ∧ (size v : Int) = length ∧
      (∀ i : Nat, (i : Int) < length →
        op_index W v (i : Int) = .ok (decide (i < W) && seed.testBit i)) ∧
      (∀ i : Nat, length ≤ (i : Int) → bit W v i = false) := by
  obtain ⟨L, rfl⟩ := Int.eq_ofNat_of_zero_le hlen
  have hok := create_ok W hW L seed hb
  refine ⟨_, hok, ?_, ?_, ?_⟩
  · rfl
  · intro i hi
    have hi1 : i < L := by omega
    rw [op_index_eq W _ i hi1, bit_create W hW L seed _ hb hok i]
    simp [hi1]
  · intro i hi
    have hi1 : ¬ i < L := by omega
    rw [bit_create W hW L seed _ hb hok i]
    simp [hi1]

/-! ## Rendering -/

/-- The character `to_string` appends for a bit. -/
theorem to_string_loop_eq (W : Nat) (v : BitArray) :
    ∀ n s, n ≤ v.num_bits →
      to_string_loop W v n s =
        .ok (s ++ (List.range n).map (fun k => if bit W v (n - 1 - k) then '1' else '0')) := by
  intro n
  induction n with
  | zero =>
    intro s _
    simp [to_string_loop]
  | succ n ih =>
    intro s hn
    simp only [to_string_loop]
    rw [op_index_eq W v n (by omega)]
    simp only
    rw [ih _ (by omega), List.range_succ_eq_map, List.map_cons, List.map_map,
      List.append_assoc, List.singleton_append]
    congr 3
    apply List.map_congr_left
    intro k _
    have e : n + 1 - 1 - Nat.succ k = n - 1 - k := by omega
    simp only [Function.comp, e]

theorem to_string_ok (W : Nat) (v : BitArray) :
    to_string W v = .ok (String.mk
      ((List.range v.num_bits).map
        (fun k => if bit W v (v.num_bits - 1 - k) then '1' else '0'))) := by
  unfold to_string
  rw [to_string_loop_eq W v v.num_bits [] (Nat.le_refl _)]
  rfl

/-- C7: rendering. For every vector `to_string()` returns a string of exactly `size()`
characters, and its character at position `k` from the left is `'1'` when `operator[]`
reads `true` at index `size() - 1 - k` and `'0'` when it reads `false`; so for a vector
made by `create(length, seed)`, which is made for every length on which the sum of
`words_needed` does not overflow, the character at position `k` is `'1'` exactly when
`length - 1 - k < W` and that bit of the seed is set. -/
theorem to_string_renders (W : Nat) (hW : 0 < W) (v : BitArray) :
    (∃ s, to_string W v = .ok s ∧ s.length = size v ∧
      ∀ k, k < size v →
        ∃ b, op_index W v ((size v - 1 - k : Nat) : Int) = .ok b ∧
          s.data[k]? = some (if b then '1' else '0')) ∧
    (∀ (length seed : Nat), (length : Int) + (W : Int) - 1 ≤ INT_MAX →
      ∃ c s, create W (length : Int) seed = .ok c ∧
      to_string W c = .ok s ∧ s.length = length ∧
      ∀ k, k < length →
        s.data[k]? = some
          (if length - 1 - k < W ∧ seed.testBit (length - 1 - k) = true then '1' else '0')) := by
  constructor
  · refine ⟨_, to_string_ok W v, ?_, ?_⟩
    · simp [String.length, size]
    · intro k hk
      unfold size at hk
      refine ⟨bit W v (v.num_bits - 1 - k), ?_, ?_⟩
      · exact op_index_eq W v _ (by unfold size; omega)
      · simp [List.getElem?_map, List.getElem?_range hk, size]
  · intro L seed hL
    have hok := create_ok W hW L seed hL
    refine ⟨_, _, hok, to_string_ok W _, ?_, ?_⟩
    · simp [String.length]
    · intro k hk
      have hb := bit_create W hW L seed _ hL hok (L - 1 - k)
      simp only at hb
      simp only [List.getElem?_map, List.getElem?_range hk, Option.map_some']
      rw [hb]
      have : L - 1 - k < L := by omega
      simp [this]

/-- Witness of `to_string_renders` on the vector of the test `ToString`. -/
theorem to_string_renders_witness :
    0 < 64 ∧
    ((∃ s, to_string 64 ⟨[25], 5, 64⟩ = .ok s ∧ s.length = size ⟨[25], 5, 64⟩ ∧
      ∀ k, k < size ⟨[25], 5, 64⟩ →
        ∃ b, op_index 64 ⟨[25], 5, 64⟩ ((size ⟨[25], 5, 64⟩ - 1 - k : Nat) : Int) = .ok b ∧
          s.data[k]? = some (if b then '1' else '0')) ∧
    (∀ (length seed : Nat), (length : Int) + ((64 : Nat) : Int) - 1 ≤ INT_MAX →
      ∃ c s, create 64 (length : Int) seed = .ok c ∧
      to_string 64 c = .ok s ∧ s.length = length ∧
      ∀ k, k < length →
        s.data[k]? = some
          (if length - 1 - k < 64 ∧ seed.testBit (length - 1 - k) = true
            then '1' else '0'))) :=
  ⟨by decide, to_string_renders 64 (by decide) ⟨[25], 5, 64⟩⟩

/-! ## Copies -/

/-- A copy of a vector that satisfies the invariant is that vector. -/
theorem copy_eq (W : Nat) (hW : 0 < W) (v : BitArray) (h : WF W v) : copy W v = v := by
  unfold copy
  rw [alloc_eq W _ hW h.bound, h.words_nwords hW]
  have hl := h.length_eq
  have hc := h.capacity_eq
  by_cases hn : v.num_bits > 0
  · rw [if_pos hn]
    have hd : memcpy (List.replicate (nwords W v.num_bits) 0) v.data
        (nwords W v.num_bits) = v.data := by
      unfold memcpy
      rw [← hl, List.take_length, List.drop_of_length_le (by simp), List.append_nil]
    simp only [hd, ← hc]
  · rw [if_neg hn]
    have h0 : v.num_bits = 0 := by omega
    rw [h0, nwords_zero W hW] at hl hc
    have hd : v.data = [] := List.length_eq_zero.mp hl
    rw [h0, nwords_zero W hW]
    cases v
    simp_all

/-! ## Bitwise operations -/

/-- The word loop shared by `&=`, `|=` and `^=`: word `q` of the receiver becomes
`g` of the two operands' words `q`. -/
theorem zip_loop (g : Nat → Nat → Nat) (a b : List Nat) (n : Nat) (hn : n ≤ a.length) :
    (for_up (fun i d => store d i (g (load d i) (load b i))) 0 n a).length = a.length ∧
    ∀ q, load (for_up (fun i d => store d i (g (load d i) (load b i))) 0 n a) q =
      if q < n then g (load a q) (load b q) else load a q := by
  obtain ⟨h1, h2⟩ := for_up_store (fun i d => store d i (g (load d i) (load b i)))
    (fun i d => g (load d i) (load b i)) (fun _ _ => rfl)
    (fun i d e hde => by simp only [hde i (Nat.le_refl i)]) n 0 a (by omega)
  refine ⟨h1, fun q => ?_⟩
  rw [h2 q]
  by_cases hq : q < n
  · rw [if_pos (by omega), if_pos hq]
  · rw [if_neg (by omega), if_neg hq]

/-- The result of the shared word loop on two vectors of one size, bit by bit. -/
theorem zip_bits (W : Nat) (hW : 0 < W) (g : Nat → Nat → Nat) (gb : Bool → Bool → Bool)
    (hg : ∀ x y j, (g x y).testBit j = gb (x.testBit j) (y.testBit j))
    (hg0 : gb false false = false)
    (hlt : ∀ x y, x < 2 ^ W → y < 2 ^ W → g x y < 2 ^ W)
    (a b : BitArray) (ha : WF W a) (hb : WF W b) (hs : a.num_bits = b.num_bits)
    (d : List Nat)
    (hd : d = for_up (fun i d => store d i (g (load d i) (load b.data i))) 0
      (nwords W a.num_bits) a.data) :
    WF W { a with data := d } ∧
    ∀ i, bit W { a with data := d } i = gb (bit W a i) (bit W b i) := by
  obtain ⟨h1, h2⟩ := zip_loop g a.data b.data (nwords W a.num_bits)
    (by rw [ha.length_eq])
  rw [← hd] at h1 h2
  have hbits : ∀ i, bit W { a with data := d } i = gb (bit W a i) (bit W b i) := by
    intro i
    unfold bit
    simp only
    rw [h2]
    by_cases hq : i / W < nwords W a.num_bits
    · rw [if_pos hq, hg]
    · rw [if_neg hq, load_of_le a.data _ (by rw [ha.length_eq]; omega),
        load_of_le b.data _ (by rw [hb.length_eq, ← hs]; omega)]
      simp [hg0]
  refine ⟨?_, hbits⟩
  apply WF.of_words
  · exact ha.bound
  · exact h1.trans ha.length_eq
  · exact ha.capacity_eq
  · intro q _
    simp only
    rw [h2]
    split
    · exact hlt _ _ (ha.load_lt q) (hb.load_lt q)
    · exact ha.load_lt q
  · intro i hi
    rw [hbits i, ha.bit_tail hW i hi, hb.bit_tail hW i (by rw [← hs]; exact hi), hg0]

theorem and_assign_ok (W : Nat) (a b : BitArray) (hs : a.num_bits = b.num_bits) :
    op_and_assign W a b = .ok
      { a with
        data := for_up (fun i d => store d i (load d i &&& load b.data i)) 0
                  (words W a.num_bits) a.data } := by
  unfold op_and_assign op_and_assign_call
  rw [if_neg (by simpa using hs)]
  rfl

theorem or_assign_ok (W : Nat) (a b : BitArray) (hs : a.num_bits = b.num_bits) :
    op_or_assign W a b = .ok
      { a with
        data := for_up (fun i d => store d i (load d i ||| load b.data i)) 0
                  (words W a.num_bits) a.data } := by
  unfold op_or_assign op_or_assign_call
  rw [if_neg (by simpa using hs)]
  rfl

theorem xor_assign_ok (W : Nat) (a b : BitArray) (hs : a.num_bits = b.num_bits) :
    op_xor_assign W a b = .ok
      { a with
        data := for_up (fun i d => store d i (load d i ^^^ load b.data i)) 0
                  (words W a.num_bits) a.data } := by
  unfold op_xor_assign op_xor_assign_call
  rw [if_neg (by simpa using hs)]
  rfl

theorem and_bits (W : Nat) (hW : 0 < W) (a b : BitArray) (ha : WF W a) (hb : WF W b)
    (hs : a.num_bits = b.num_bits) :
    ∃ r, op_and_assign W a b = .ok r ∧ WF W r ∧ r.num_bits = a.num_bits ∧
      ∀ i, bit W r i = (bit W a i && bit W b i) := by
  obtain ⟨h1, h2⟩ := zip_bits W hW (fun x y => x &&& y) (fun x y => x && y)
    (fun x y j => Nat.testBit_and x y j) rfl
    (fun x y _ hy => Nat.and_lt_two_pow x hy) a b ha hb hs
    (for_up (fun i d => store d i (load d i &&& load b.data i)) 0 (words W a.num_bits) a.data)
    (by rw [ha.words_nwords hW])
  exact ⟨_, and_assign_ok W a b hs, h1, rfl, h2⟩

theorem or_bits (W : Nat) (hW : 0 < W) (a b : BitArray) (ha : WF W a) (hb : WF W b)
    (hs : a.num_bits = b.num_bits) :
    ∃ r, op_or_assign W a b = .ok r ∧ WF W r ∧ r.num_bits = a.num_bits ∧
      ∀ i, bit W r i = (bit W a i || bit W b i) := by
  obtain ⟨h1, h2⟩ := zip_bits W hW (fun x y => x ||| y) (fun x y => x || y)
    (fun x y j => Nat.testBit_or x y j) rfl
    (fun x y hx hy => Nat.or_lt_two_pow hx hy) a b ha hb hs
    (for_up (fun i d => store d i (load d i ||| load b.data i)) 0 (words W a.num_bits) a.data)
    (by rw [ha.words_nwords hW])
  exact ⟨_, or_assign_ok W a b hs, h1, rfl, h2⟩

theorem xor_bits (W : Nat) (hW : 0 < W) (a b : BitArray) (ha : WF W a) (hb : WF W b)
    (hs : a.num_bits = b.num_bits) :
    ∃ r, op_xor_assign W a b = .ok r ∧ WF W r ∧ r.num_bits = a.num_bits ∧
      ∀ i, bit W r i = (bit W a i ^^ bit W b i) := by
  obtain ⟨h1, h2⟩ := zip_bits W hW (fun x y => x ^^^ y) (fun x y => x ^^ y)
    (fun x y j => Nat.testBit_xor x y j) rfl
    (fun x y hx hy => Nat.xor_lt_two_pow hx hy) a b ha hb hs
    (for_up (fun i d => store d i (load d i ^^^ load b.data i)) 0 (words W a.num_bits) a.data)
    (by rw [ha.words_nwords hW])
  exact ⟨_, xor_assign_ok W a b hs, h1, rfl, h2⟩

/-- C3: bitwise AND, OR and XOR follow the truth tables. For two vectors `a` and `b` of
one size that satisfy the class invariant, each of `a & b`, `a | b`, `a ^ b` succeeds with a
vector of that size whose bit at every index `i < size()`, read by `operator[]`, is the
AND, OR, XOR of the bits `operator[]` reads in `a` and in `b`; and `a &= b`, `a |= b`,
`a ^= b` leave in the receiver that same vector. The operands are values of the model, so
the right operand of the mutating forms and both operands of the others stay as they
were. -/
theorem bitwise_truth_tables (W : Nat) (hW : 0 < W) (a b : BitArray) (ha : WF W a)
    (hb : WF W b) (hs : size a = size b) :
    (∃ r, op_and W a b = .ok r ∧ op_and_assign W a b = .ok r ∧ size r = size a ∧
      ∀ i : Nat, i < size a → ∃ x y, op_index W a (i : Int) = .ok x ∧
        op_index W b (i : Int) = .ok y ∧ op_index W r (i : Int) = .ok (x && y)) ∧
    (∃ r, op_or W a b = .ok r ∧ op_or_assign W a b = .ok r ∧ size r = size a ∧
      ∀ i : Nat, i < size a → ∃ x y, op_index W a (i : Int) = .ok x ∧
        op_index W b (i : Int) = .ok y ∧ op_index W r (i : Int) = .ok (x || y)) ∧
    (∃ r, op_xor W a b = .ok r ∧ op_xor_assign W a b = .ok r ∧ size r = size a ∧
      ∀ i : Nat, i < size a → ∃ x y, op_index W a (i : Int) = .ok x ∧
        op_index W b (i : Int) = .ok y ∧ op_index W r (i : Int) = .ok (x ^^ y)) := by
  unfold size at hs
  refine ⟨?_, ?_, ?_⟩
  · obtain ⟨r, h1, _, h3, h4⟩ := and_bits W hW a b ha hb hs
    refine ⟨r, by unfold op_and; rw [copy_eq W hW a ha]; exact h1, h1, h3, fun i hi => ?_⟩
    unfold size at hi
    exact ⟨_, _, op_index_eq W a i hi, op_index_eq W b i (by omega),
      by rw [op_index_eq W r i (by omega), h4]⟩
  · obtain ⟨r, h1, _, h3, h4⟩ := or_bits W hW a b ha hb hs
    refine ⟨r, by unfold op_or; rw [copy_eq W hW a ha]; exact h1, h1, h3, fun i hi => ?_⟩
    unfold size at hi
    exact ⟨_, _, op_index_eq W a i hi, op_index_eq W b i (by omega),
      by rw [op_index_eq W r i (by omega), h4]⟩
  · obtain ⟨r, h1, _, h3, h4⟩ := xor_bits W hW a b ha hb hs
    refine ⟨r, by unfold op_xor; rw [copy_eq W hW a ha]; exact h1, h1, h3, fun i hi => ?_⟩
    unfold size at hi
    exact ⟨_, _, op_index_eq W a i hi, op_index_eq W b i (by omega),
      by rw [op_index_eq W r i (by omega), h4]⟩

/-- Witness of `bitwise_truth_tables` on the operands of the test `BitwiseAND`. -/
theorem bitwise_truth_tables_witness :
    (0 < 64 ∧ WF 64 ⟨[12], 4, 64⟩ ∧ WF 64 ⟨[10], 4, 64⟩ ∧
      size ⟨[12], 4, 64⟩ = size ⟨[10], 4, 64⟩) ∧
    ∃ r, op_and 64 ⟨[12], 4, 64⟩ ⟨[10], 4, 64⟩ = .ok r ∧ size r = 4 :=
  ⟨⟨by decide, by decide, by decide, by decide⟩,
    (bitwise_truth_tables 64 (by decide) ⟨[12], 4, 64⟩ ⟨[10], 4, 64⟩ (by decide) (by decide)
      (by decide)).1.imp (fun _ h => ⟨h.1, h.2.2.1⟩)⟩

/-! ## Masking the last word -/

theorem tail_mask_eq (W e : Nat) (h0 : 0 < e) (h1 : e < W) :
    tail_mask W e = low_mask W (W - e) := by
  unfold tail_mask
  rw [Nat.mod_eq_of_lt h1, if_neg (by omega)]

/-- The step `if (excess > 0) data[words - 1] &= mask` that closes `resize`, `set()`,
`operator~` and `operator<<=`: it clears every bit at or beyond `L` and keeps the others. -/
theorem bit_mask_tail (W : Nat) (hW : 0 < W) (L : Nat) (d : List Nat) (M : Nat)
    (hl : d.length = nwords W L)
    (hM : 0 < nwords W L * W - L →
      ∀ r, M.testBit r = decide (r < W - (nwords W L * W - L))) (i : Nat) :
    (load (if nwords W L * W - L > 0 then
        store d (nwords W L - 1) (load d (nwords W L - 1) &&& M)
      else d) (i / W)).testBit (i % W) =
      (decide (i < L) && (load d (i / W)).testBit (i % W)) := by
  obtain ⟨hi, hr⟩ := split_index W i hW
  have hle := le_words_mul W L hW
  have hlt := words_mul_lt W L hW
  by_cases he : nwords W L * W - L > 0
  · rw [if_pos he, load_store]
    have hw : 0 < nwords W L := by
      rcases Nat.eq_zero_or_pos (nwords W L) with h | h
      · rw [h] at he
        simp at he
      · exact h
    obtain ⟨k, hk⟩ : ∃ k, nwords W L = k + 1 := ⟨nwords W L - 1, by omega⟩
    have hk1 : nwords W L - 1 = k := by omega
    have hmul : nwords W L * W = k * W + W := by rw [hk, Nat.succ_mul]
    rw [hk1]
    by_cases hq : i / W = k
    · rw [if_pos ⟨hq, by omega⟩, Nat.testBit_and, hM he, hq]
      have e2 : decide (i % W < W - (nwords W L * W - L)) = decide (i < L) := by
        rw [hq] at hi
        apply decide_eq_decide.mpr
        omega
      rw [e2, Bool.and_comm]
    · rw [if_neg (fun c => hq c.1)]
      by_cases hq2 : i / W < k
      · have : (i / W + 1) * W ≤ k * W := Nat.mul_le_mul_right W hq2
        rw [Nat.succ_mul] at this
        have hiL : i < L := by omega
        simp [hiL]
      · rw [load_of_le d _ (by omega)]
        simp
  · rw [if_neg he]
    by_cases hiL : i < L
    · simp [hiL]
    · have : nwords W L ≤ i / W := by
        rw [Nat.le_div_iff_mul_le hW]
        omega
      rw [load_of_le d _ (by omega)]
      simp

/-! ## Equality -/

theorem eq_loop_iff (a b : List Nat) :
    ∀ n i, eq_loop a b i n = true ↔ ∀ q, i ≤ q → q < i + n → load a q = load b q := by
  intro n
  induction n with
  | zero =>
    intro i
    simp only [eq_loop, true_iff]
    intro q h1 h2
    omega
  | succ n ih =>
    intro i
    simp only [eq_loop]
    by_cases h : load a i = load b i
    · rw [if_neg (by simpa using h), ih (i + 1)]
      constructor
      · intro hall q h1 h2
        rcases Nat.eq_or_lt_of_le h1 with e | l
        · rw [← e]
          exact h
        · exact hall q l (by omega)
      · intro hall q h1 h2
        exact hall q (by omega) (by omega)
    · rw [if_pos (by simpa using h)]
      constructor
      · intro c
        cases c
      · intro hall
        exact absurd (hall i (Nat.le_refl i) (by omega)) h

/-- Under the invariant the word-wise `operator==` holds exactly for vectors of one size
with the same stored bits below that size. -/
theorem op_eq_iff_bits (W : Nat) (hW : 0 < W) (a b : BitArray) (ha : WF W a) (hb : WF W b) :
    op_eq W a b = true ↔
      a.num_bits = b.num_bits ∧ ∀ i, i < a.num_bits → bit W a i = bit W b i := by
  unfold op_eq size
  rw [ha.words_nwords hW]
  by_cases hs : a.num_bits = b.num_bits
  · rw [if_neg (by simpa using hs), eq_loop_iff]
    constructor
    · intro h
      refine ⟨hs, fun i hi => ?_⟩
      unfold bit
      rw [h (i / W) (Nat.zero_le _) (by rw [Nat.zero_add]; exact div_lt_words W _ i hW hi)]
    · rintro ⟨_, h⟩ q _ _
      apply Nat.eq_of_testBit_eq
      intro r
      by_cases hr : r < W
      · rw [bit_word W a q r hr, bit_word W b q r hr]
        by_cases hi : q * W + r < a.num_bits
        · exact h _ hi
        · rw [ha.bit_tail hW _ (by omega), hb.bit_tail hW _ (by omega)]
      · rw [testBit_of_lt W _ r (ha.load_lt q) (by omega),
          testBit_of_lt W _ r (hb.load_lt q) (by omega)]
  · rw [if_pos (by simpa using hs)]
    constructor
    · intro c
      cases c
    · intro c
      exact absurd c.1 hs

/-- C9: equality is bitwise equality. For two vectors that satisfy the class invariant,
`a == b` is true exactly when `a.size() == b.size()` and `operator[]` reads the same bit in
`a` and in `b` at every index below the size; and `a != b` is the negation of `a == b`. -/
theorem op_eq_bitwise (W : Nat) (hW : 0 < W) (a b : BitArray) (ha : WF W a) (hb : WF W b) :
    (op_eq W a b = true ↔
      size a = size b ∧
        ∀ i : Nat, i < size a → op_index W a (i : Int) = op_index W b (i : Int)) ∧
    op_ne W a b = !op_eq W a b := by
  refine ⟨?_, rfl⟩
  rw [op_eq_iff_bits W hW a b ha hb]
  unfold size
  constructor
  · rintro ⟨hs, h⟩
    refine ⟨hs, fun i hi => ?_⟩
    rw [op_index_eq W a i hi, op_index_eq W b i (by omega), h i hi]
  · rintro ⟨hs, h⟩
    refine ⟨hs, fun i hi => ?_⟩
    have := h i hi
    rw [op_index_eq W a i hi, op_index_eq W b i (by omega)] at this
    injection this

/-- Witness of `op_eq_bitwise` on the vectors `a` and `c` of the test `Equality`. -/
theorem op_eq_bitwise_witness :
    (0 < 64 ∧ WF 64 ⟨[10], 4, 64⟩ ∧ WF 64 ⟨[5], 4, 64⟩) ∧
    ((op_eq 64 ⟨[10], 4, 64⟩ ⟨[5], 4, 64⟩ = true ↔
      size ⟨[10], 4, 64⟩ = size ⟨[5], 4, 64⟩ ∧
        ∀ i : Nat, i < size ⟨[10], 4, 64⟩ →
          op_index 64 ⟨[10], 4, 64⟩ (i : Int) = op_index 64 ⟨[5], 4, 64⟩ (i : Int)) ∧
    op_ne 64 ⟨[10], 4, 64⟩ ⟨[5], 4, 64⟩ = !op_eq 64 ⟨[10], 4, 64⟩ ⟨[5], 4, 64⟩) :=
  ⟨⟨by decide, by decide, by decide⟩,
    op_eq_bitwise 64 (by decide) ⟨[10], 4, 64⟩ ⟨[5], 4, 64⟩ (by decide) (by decide)⟩

/-! ## Complement -/

/-- The vector `operator~` returns: the invariant holds for it, its size is that of the
operand, and its stored bit `i` is the negation of the operand's below the size and
zero from the size on. -/
theorem not_bits (W : Nat) (hW : 0 < W) (v : BitArray) (h : WF W v) :
    WF W (op_not W v) ∧ (op_not W v).num_bits = v.num_bits ∧
    ∀ i, bit W (op_not W v) i = (decide (i < v.num_bits) && !bit W v i) := by
  obtain ⟨l1, l2⟩ := for_up_store (fun i d => store d i (wnot W (load v.data i)))
    (fun i _ => wnot W (load v.data i)) (fun _ _ => rfl) (fun _ _ _ _ => rfl)
    (nwords W v.num_bits) 0 v.data (by rw [h.length_eq]; omega)
  have hmask := bit_mask_tail W hW v.num_bits _
    (tail_mask W (nwords W v.num_bits * W - v.num_bits)) (l1.trans h.length_eq)
    (fun he r => by
      rw [tail_mask_eq W _ he (by have := words_mul_lt W v.num_bits hW; omega),
        testBit_low_mask W _ r (by omega)])
  have hnum : (op_not W v).num_bits = v.num_bits := by
    unfold op_not
    rw [copy_eq W hW v h]
    simp only
    split <;> rfl
  have hcap : (op_not W v).capacity = v.capacity := by
    unfold op_not
    rw [copy_eq W hW v h]
    simp only
    split <;> rfl
  have hdata : (op_not W v).data =
      if nwords W v.num_bits * W - v.num_bits > 0 then
        store (for_up (fun i d => store d i (wnot W (load v.data i))) 0
            (nwords W v.num_bits) v.data) (nwords W v.num_bits - 1)
          (load (for_up (fun i d => store d i (wnot W (load v.data i))) 0
            (nwords W v.num_bits) v.data) (nwords W v.num_bits - 1) &&&
            tail_mask W (nwords W v.num_bits * W - v.num_bits))
      else
        for_up (fun i d => store d i (wnot W (load v.data i))) 0
          (nwords W v.num_bits) v.data := by
    unfold op_not
    rw [copy_eq W hW v h, h.words_nwords hW]
    simp only
    rw [h.capacity_eq]
    split <;> rfl
  have hbits : ∀ i, bit W (op_not W v) i = (decide (i < v.num_bits) && !bit W v i) := by
    intro i
    unfold bit
    rw [hdata, hmask i, l2]
    by_cases hi : i < v.num_bits
    · have hq := div_lt_words W _ i hW hi
      rw [if_pos ⟨Nat.zero_le _, by rw [Nat.zero_add]; exact hq⟩,
        testBit_wnot W _ _ (h.load_lt _)]
      simp [hi, Nat.mod_lt i hW]
    · simp [hi]
  refine ⟨?_, hnum, hbits⟩
  apply WF.of_words
  · rw [hnum]
    exact h.bound
  · rw [hnum, hdata]
    split
    · rw [length_store, l1, h.length_eq]
    · rw [l1, h.length_eq]
  · rw [hnum, hcap, h.capacity_eq]
  · intro q _
    have hd : ∀ q, load (for_up (fun i d => store d i (wnot W (load v.data i))) 0
        (nwords W v.num_bits) v.data) q < 2 ^ W := by
      intro q
      rw [l2]
      split
      · exact wnot_lt W _ (h.load_lt q)
      · exact h.load_lt q
    rw [hdata]
    split
    · rw [load_store]
      split
      · exact Nat.lt_of_le_of_lt Nat.and_le_left (hd _)
      · exact hd q
    · exact hd q
  · intro i hi
    rw [hnum] at hi
    rw [hbits i]
    have : ¬ i < v.num_bits := by omega
    simp [this]

/-- Complementing twice gives the vector back. -/
theorem not_not (W : Nat) (hW : 0 < W) (v : BitArray) (h : WF W v) :
    op_not W (op_not W v) = v := by
  obtain ⟨w1, n1, b1⟩ := not_bits W hW v h
  obtain ⟨w2, n2, b2⟩ := not_bits W hW (op_not W v) w1
  have hd : (op_not W (op_not W v)).data = v.data := by
    apply data_eq_of_bits W _ _ (by rw [w2.length_eq, h.length_eq, n2, n1])
      (fun q => w2.load_lt q) (fun q => h.load_lt q)
    intro i
    rw [b2, b1, n1]
    by_cases hi : i < v.num_bits
    · simp [hi]
    · simp [hi, h.bit_tail hW i (by omega)]
  have hc : (op_not W (op_not W v)).capacity = v.capacity := by
    rw [w2.capacity_eq, h.capacity_eq, n2, n1]
  have hn : (op_not W (op_not W v)).num_bits = v.num_bits := by rw [n2, n1]
  cases hx : op_not W (op_not W v)
  cases v
  rw [hx] at hd hc hn
  simp_all

/-- C10: complement. For a vector `v` that satisfies the class invariant, `~v` has the
size of `v`; at every index below the size `operator[]` reads in `~v` the negation of what
it reads in `v`; and `~(~v) == v` holds under `operator==`. The operand is a value of the
model and stays as it was. -/
theorem complement_law (W : Nat) (hW : 0 < W) (v : BitArray) (h : WF W v) :
    size (op_not W v) = size v ∧
    (∀ i : Nat, i < size v → ∃ x, op_index W v (i : Int) = .ok x ∧
      op_index W (op_not W v) (i : Int) = .ok (!x)) ∧
    op_eq W (op_not W (op_not W v)) v = true := by
  obtain ⟨_, n1, b1⟩ := not_bits W hW v h
  refine ⟨n1, fun i hi => ?_, ?_⟩
  · unfold size at hi
    refine ⟨_, op_index_eq W v i hi, ?_⟩
    rw [op_index_eq W _ i (by omega), b1]
    simp [hi]
  · rw [not_not W hW v h, op_eq_iff_bits W hW v v h h]
    exact ⟨rfl, fun _ _ => rfl⟩

/-- Witness of `complement_law` on the vector of the test `NOT`, whose length is not a
multiple of the word width. -/
theorem complement_law_witness :
    (0 < 64 ∧ WF 64 ⟨[10], 4, 64⟩) ∧
    (size (op_not 64 ⟨[10], 4, 64⟩) = size ⟨[10], 4, 64⟩ ∧
    (∀ i : Nat, i < size ⟨[10], 4, 64⟩ → ∃ x, op_index 64 ⟨[10], 4, 64⟩ (i : Int) = .ok x ∧
      op_index 64 (op_not 64 ⟨[10], 4, 64⟩) (i : Int) = .ok (!x)) ∧
    op_eq 64 (op_not 64 (op_not 64 ⟨[10], 4, 64⟩)) ⟨[10], 4, 64⟩ = true) :=
  ⟨⟨by decide, by decide⟩, complement_law 64 (by decide) ⟨[10], 4, 64⟩ (by decide)⟩

/-! ## Population count -/

/-- The last iteration of an ascending loop. -/
theorem for_up_succ {σ : Type} (body : Nat → σ → σ) :
    ∀ n lo s, for_up body lo (n + 1) s = body (lo + n) (for_up body lo n s) := by
  intro n
  induction n with
  | zero => intro lo s; rfl
  | succ n ih =>
    intro lo s
    have e : lo + (n + 1) = lo + 1 + n := by omega
    rw [e]
    exact ih (lo + 1) (body lo s)

theorem and_one_eq (w : Nat) : w &&& 1 = if w.testBit 0 then 1 else 0 := by
  rw [Nat.and_one_is_mod, Nat.testBit_zero]
  rcases Nat.mod_two_eq_zero_or_one w with h | h <;> simp [h]

/-- The loop `while (w) { cnt += w & 1; w >>= 1; }` adds to `cnt` the number of bits set
in `w`. -/
theorem count_word_eq :
    ∀ n w cnt, w < 2 ^ n →
      count_word w cnt = cnt + (List.range n).countP (fun j => w.testBit j) := by
  intro n
  induction n with
  | zero =>
    intro w cnt hw
    have : w = 0 := by simpa using hw
    subst this
    rw [count_word]
    simp
  | succ n ih =>
    intro w cnt hw
    rw [count_word]
    by_cases h0 : w = 0
    · subst h0
      simp
    · rw [dif_neg h0]
      have hlt : wshr w 1 < 2 ^ n := by
        unfold wshr
        rw [Nat.shiftRight_eq_div_pow, Nat.pow_one, Nat.div_lt_iff_lt_mul (by decide)]
        rw [Nat.pow_succ] at hw
        exact hw
      rw [ih _ _ hlt, List.range_succ_eq_map, List.countP_cons, List.countP_map, and_one_eq]
      have e : (fun j => (wshr w 1).testBit j) = (fun j => w.testBit j) ∘ Nat.succ := by
        funext j
        simp only [Function.comp, testBit_wshr, Nat.succ_eq_add_one]
        rw [Nat.add_comm]
      rw [e]
      omega

/-- The loop of `count` over the full words counts the bits set below `k * W`. -/
theorem count_full (W : Nat) (v : BitArray) (hlt : ∀ q, load v.data q < 2 ^ W) :
    ∀ k, for_up (fun i cnt => count_word (load v.data i) cnt) 0 k 0 =
      (List.range (k * W)).countP (fun i => bit W v i) := by
  intro k
  induction k with
  | zero => simp [for_up]
  | succ k ih =>
    rw [for_up_succ, ih, Nat.zero_add, count_word_eq W _ _ (hlt k), Nat.succ_mul,
      List.range_add, List.countP_append, List.countP_map]
    congr 1
    apply List.countP_congr
    intro j hj
    rw [List.mem_range] at hj
    simp only [Function.comp]
    rw [bit_word W v k j hj]

/-- The loop of `count` over the last, partial word counts its bits below `m`. -/
theorem count_partial (w : Nat) :
    ∀ m c, for_up (fun i cnt => cnt + (wshr w i &&& 1)) 0 m c =
      c + (List.range m).countP (fun j => w.testBit j) := by
  intro m
  induction m with
  | zero => intro c; simp [for_up]
  | succ m ih =>
    intro c
    rw [for_up_succ, ih, Nat.zero_add, List.range_succ, List.countP_append, and_one_eq,
      testBit_wshr, Nat.add_zero, Nat.add_assoc]
    congr 2
    by_cases h : w.testBit m <;> simp [h]

theorem set_bits_eq (W : Nat) (v : BitArray) :
    set_bits W v = (List.range v.num_bits).countP (fun i => bit W v i) := by
  unfold set_bits size
  apply List.countP_congr
  intro i hi
  rw [List.mem_range] at hi
  rw [op_index_eq W v i hi]

theorem count_eq (W : Nat) (hW : 0 < W) (v : BitArray) (hlt : ∀ q, load v.data q < 2 ^ W) :
    count W v = (List.range v.num_bits).countP (fun i => bit W v i) := by
  unfold count
  by_cases h0 : v.num_bits = 0
  · rw [if_pos h0, h0]
    rfl
  · rw [if_neg h0]
    simp only
    rw [count_full W v hlt]
    obtain ⟨hsplit, hr⟩ := split_index W v.num_bits hW
    by_cases hl : v.num_bits % W > 0
    · rw [if_pos hl, count_partial]
      conv_rhs => rw [hsplit, List.range_add, List.countP_append, List.countP_map]
      congr 1
      apply List.countP_congr
      intro j hj
      rw [List.mem_range] at hj
      simp only [Function.comp]
      rw [bit_word W v _ j (by omega)]
    · rw [if_neg hl]
      have : v.num_bits % W = 0 := by omega
      rw [this, Nat.add_zero] at hsplit
      rw [← hsplit]

/-- C8: population count. For a vector that satisfies the class invariant, of any length,
`count()` is the number of indices below `size()` at which `operator[]` reads a set bit:
the loop over the full words and the loop over the last partial word count every such
index once and no position at or beyond `size()`. -/
theorem count_is_popcount (W : Nat) (hW : 0 < W) (v : BitArray) (h : WF W v) :
    count W v = set_bits W v := by
  rw [set_bits_eq, count_eq W hW v (fun q => h.load_lt q)]

/-- Witness of `count_is_popcount` on the vector of the test `Count`. -/
theorem count_is_popcount_witness :
    (0 < 64 ∧ WF 64 ⟨[45], 6, 64⟩) ∧ count 64 ⟨[45], 6, 64⟩ = set_bits 64 ⟨[45], 6, 64⟩ :=
  ⟨⟨by decide, by decide⟩, count_is_popcount 64 (by decide) ⟨[45], 6, 64⟩ (by decide)⟩

/-! ## Point updates -/

/-- Two indices are equal exactly when their words and their positions are. -/
theorem index_eq_iff (W i n : Nat) : i = n ↔ i / W = n / W ∧ i % W = n % W := by
  constructor
  · rintro rfl
    exact ⟨rfl, rfl⟩
  · rintro ⟨h1, h2⟩
    rw [← Nat.div_add_mod i W, ← Nat.div_add_mod n W, h1, h2]

/-- The vector `set(n, val)` leaves for an index inside the vector: nothing is thrown,
the invariant holds, the size is kept, bit `n` is `val` and every other stored bit is
kept. -/
theorem set_call_ok (W : Nat) (hW : 0 < W) (v : BitArray) (h : WF W v) (n : Nat)
    (hn : n < v.num_bits) (val : Bool) :
    ∃ r, set_call W v (n : Int) val = ⟨r, Option.none⟩ ∧ WF W r ∧ r.num_bits = v.num_bits ∧
      ∀ i, bit W r i = if i = n then val else bit W v i := by
  have hq : n / W < v.data.length := by
    rw [h.length_eq]
    exact div_lt_words W _ n hW hn
  have hb : n % W < W := Nat.mod_lt n hW
  have key : ∀ (x : Nat), x < 2 ^ W →
      (∀ r, r < W → x.testBit r = if r = n % W then val else (load v.data (n / W)).testBit r) →
      WF W { v with data := store v.data (n / W) x } ∧
      ∀ i, bit W { v with data := store v.data (n / W) x } i =
        if i = n then val else bit W v i := by
    intro x hx hbits
    have hbit : ∀ i, bit W { v with data := store v.data (n / W) x } i =
        if i = n then val else bit W v i := by
      intro i
      unfold bit
      simp only
      rw [load_store]
      by_cases hw : i / W = n / W
      · rw [if_pos ⟨hw, hq⟩, hbits _ (Nat.mod_lt i hW)]
        by_cases hp : i % W = n % W
        · rw [if_pos hp, if_pos ((index_eq_iff W i n).mpr ⟨hw, hp⟩)]
        · rw [if_neg hp, if_neg (fun e => hp ((index_eq_iff W i n).mp e).2), hw]
      · rw [if_neg (fun c => hw c.1), if_neg (fun e => hw ((index_eq_iff W i n).mp e).1)]
    refine ⟨?_, hbit⟩
    apply WF.of_words
    · exact h.bound
    · simp only
      rw [length_store]
      exact h.length_eq
    · exact h.capacity_eq
    · intro q _
      simp only
      rw [load_store]
      split
      · exact hx
      · exact h.load_lt q
    · intro i hi
      simp only at hi
      rw [hbit i, if_neg (by omega)]
      exact h.bit_tail hW i hi
  unfold set_call
  rw [if_neg (by omega)]
  simp only [Int.toNat_ofNat]
  cases val
  · have hx := key (load v.data (n / W) &&& wnot W (wshl W 1 (n % W)))
      (Nat.lt_of_le_of_lt Nat.and_le_left (h.load_lt _))
      (fun r hr => by
        rw [Nat.testBit_and, testBit_wnot W _ _ (wshl_lt W 1 _), testBit_one_shl W _ r hb]
        by_cases e : r = n % W <;> simp [e, hr])
    exact ⟨_, by simp, hx.1, rfl, hx.2⟩
  · have hx := key (load v.data (n / W) ||| wshl W 1 (n % W))
      (Nat.or_lt_two_pow (h.load_lt _) (wshl_lt W 1 _))
      (fun r _ => by
        rw [Nat.testBit_or, testBit_one_shl W _ r hb]
        by_cases e : r = n % W <;> simp [e])
    exact ⟨_, by simp, hx.1, rfl, hx.2⟩

theorem set_ok (W : Nat) (hW : 0 < W) (v : BitArray) (h : WF W v) (n : Nat)
    (hn : n < v.num_bits) (val : Bool) :
    ∃ r, set W v (n : Int) val = .ok r ∧ WF W r ∧ r.num_bits = v.num_bits ∧
      ∀ i, bit W r i = if i = n then val else bit W v i := by
  obtain ⟨r, e, w, n1, b⟩ := set_call_ok W hW v h n hn val
  refine ⟨r, ?_, w, n1, b⟩
  unfold set
  rw [e]
  rfl

/-! ## Resizing -/

/-- The loop of `resize` that fills the new positions sets exactly the bits of its
range. -/
theorem fill_loop_ok (W : Nat) (hW : 0 < W) :
    ∀ k lo v, WF W v → lo + k ≤ v.num_bits →
      ∃ r, fill_loop W lo k v = ⟨r, Option.none⟩ ∧ WF W r ∧ r.num_bits = v.num_bits ∧
        ∀ i, bit W r i = (decide (lo ≤ i ∧ i < lo + k) || bit W v i) := by
  intro k
  induction k with
  | zero =>
    intro lo v h _
    refine ⟨v, rfl, h, rfl, fun i => ?_⟩
    have : ¬ (lo ≤ i ∧ i < lo + 0) := by omega
    simp [this]
  | succ k ih =>
    intro lo v h hle
    obtain ⟨v1, e1, w1, n1, b1⟩ := set_call_ok W hW v h lo (by omega) true
    obtain ⟨r, e2, w2, n2, b2⟩ := ih (lo + 1) v1 w1 (by omega)
    refine ⟨r, ?_, w2, by rw [n2, n1], fun i => ?_⟩
    · simp only [fill_loop]
      rw [e1]
      exact e2
    · rw [b2, b1]
      by_cases e : i = lo
      · subst e
        simp
      · rw [if_neg e]
        have : (lo + 1 ≤ i ∧ i < lo + 1 + k) ↔ (lo ≤ i ∧ i < lo + (k + 1)) := by omega
        simp [this]

theorem load_zeros (n q : Nat) : load (List.replicate n 0) q = 0 := by
  rw [load_replicate]
  split <;> rfl

/-- The buffer `resize` holds before it fills the new positions: the old words that the
new length still covers, the last one masked when the vector shrinks. -/
theorem resize_buffer (W : Nat) (hW : 0 < W) (v : BitArray) (h : WF W v) (N : Nat)
    (hNb : (N : Int) + (W : Int) - 1 ≤ INT_MAX) (hne : N ≠ v.num_bits) (fill : Bool) :
    ∃ b, resize_call W v (N : Int) fill =
        (if fill = true ∧ (N : Int) > (v.num_bits : Int) then
          fill_loop W v.num_bits (N - v.num_bits) b
        else ⟨b, Option.none⟩) ∧
      WF W b ∧ b.num_bits = N ∧ ∀ i, bit W b i = (decide (i < N) && bit W v i) := by
  have hlen := h.length_eq
  have hvtail : ∀ i, v.num_bits ≤ i → bit W v i = false := fun i hi => h.bit_tail hW i hi
  -- the copied words
  have hcopy : ∀ k, k ≤ nwords W v.num_bits → k ≤ nwords W N →
      (memcpy (List.replicate (nwords W N) 0) v.data k).length = nwords W N ∧
      ∀ q, load (memcpy (List.replicate (nwords W N) 0) v.data k) q =
        if q < k then load v.data q else 0 := by
    intro k hk1 hk2
    refine ⟨?_, fun q => ?_⟩
    · rw [length_memcpy _ _ _ (by simpa using hk2) (by omega), List.length_replicate]
    · rw [load_memcpy _ _ _ _ (by omega), load_zeros]
  unfold resize_call
  rw [if_neg (by omega), if_neg (by omega), allocate_ok W N hW hNb]
  simp only [Int.toNat_ofNat, h.words_nwords hW, words_eq W N hW hNb]
  refine ⟨_, rfl, ?_⟩
  by_cases hL : v.num_bits > 0
  · rw [if_pos hL]
    by_cases hs : (N : Int) < (v.num_bits : Int)
    · -- shrinking
      rw [if_pos hs]
      have hN : N < v.num_bits := by omega
      have hmin : min (nwords W v.num_bits) (nwords W N) = nwords W N :=
        Nat.min_eq_right (words_mono W _ _ (by omega))
      rw [hmin]
      obtain ⟨c1, c2⟩ := hcopy (nwords W N) (words_mono W _ _ (by omega))
        (Nat.le_refl _)
      have hmask := bit_mask_tail W hW N _ (tail_mask W (nwords W N * W - N)) c1
        (fun he r => by
          rw [tail_mask_eq W _ he (by have := words_mul_lt W N hW; omega),
            testBit_low_mask W _ r (by omega)])
      have hbits : ∀ i, bit W
          (if nwords W N * W - N > 0 then
            { data := store (memcpy (List.replicate (nwords W N) 0) v.data
                  (nwords W N)) (nwords W N - 1)
                (load (memcpy (List.replicate (nwords W N) 0) v.data
                  (nwords W N)) (nwords W N - 1) &&&
                  tail_mask W (nwords W N * W - N)),
              num_bits := N, capacity := nwords W N * W }
          else
            { data := memcpy (List.replicate (nwords W N) 0) v.data
                (nwords W N),
              num_bits := N, capacity := nwords W N * W }) i =
          (decide (i < N) && bit W v i) := by
        intro i
        have := hmask i
        unfold bit
        split
        · rename_i he
          rw [if_pos he] at this
          rw [this, c2]
          by_cases hi : i < N
          · rw [if_pos (div_lt_words W N i hW hi)]
          · simp [hi]
        · rename_i he
          rw [if_neg he] at this
          rw [this, c2]
          by_cases hi : i < N
          · rw [if_pos (div_lt_words W N i hW hi)]
          · simp [hi]
      refine ⟨?_, ?_, hbits⟩
      · apply WF.of_words
        · split <;> exact hNb
        · split
          · simp only
            rw [length_store, c1]
          · simp only
            rw [c1]
        · split <;> rfl
        · intro q _
          have hd : ∀ q, load (memcpy (List.replicate (nwords W N) 0) v.data
              (nwords W N)) q < 2 ^ W := by
            intro q
            rw [c2]
            split
            · exact h.load_lt q
            · exact Nat.two_pow_pos W
          split
          · simp only
            rw [load_store]
            split
            · exact Nat.lt_of_le_of_lt Nat.and_le_left (hd _)
            · exact hd q
          · exact hd q
        · intro i hi
          rw [hbits i]
          have hi2 : N ≤ i := by
            split at hi <;> exact hi
          have : ¬ i < N := by omega
          simp [this]
      · split <;> rfl
    · -- growing a non-empty vector
      rw [if_neg hs]
      have hN : v.num_bits < N := by omega
      have hmin : min (nwords W v.num_bits) (nwords W N) =
          nwords W v.num_bits :=
        Nat.min_eq_left (words_mono W _ _ (by omega))
      rw [hmin]
      obtain ⟨c1, c2⟩ := hcopy (nwords W v.num_bits) (Nat.le_refl _)
        (words_mono W _ _ (by omega))
      have hbits : ∀ i, bit W
          { data := memcpy (List.replicate (nwords W N) 0) v.data
              (nwords W v.num_bits),
            num_bits := N, capacity := nwords W N * W } i =
          (decide (i < N) && bit W v i) := by
        intro i
        unfold bit
        simp only
        rw [c2]
        by_cases hi : i < N
        · simp only [hi, decide_True, Bool.true_and]
          split
          · rfl
          · rw [load_of_le v.data _ (by omega)]
        · have := hvtail i (by omega)
          unfold bit at this
          simp only [hi, decide_False, Bool.false_and]
          split
          · exact this
          · simp
      refine ⟨?_, rfl, hbits⟩
      apply WF.of_words
      · exact hNb
      · exact c1
      · rfl
      · intro q _
        simp only
        rw [c2]
        split
        · exact h.load_lt q
        · exact Nat.two_pow_pos W
      · intro i hi
        simp only at hi
        rw [hbits i]
        have : ¬ i < N := by omega
        simp [this]
  · -- growing the empty vector
    rw [if_neg hL]
    have hbits : ∀ i, bit W
        { data := List.replicate (nwords W N) 0, num_bits := N,
          capacity := nwords W N * W } i = (decide (i < N) && bit W v i) := by
      intro i
      rw [hvtail i (by omega)]
      unfold bit
      simp only
      rw [load_zeros]
      simp
    refine ⟨?_, rfl, hbits⟩
    apply WF.of_words
    · exact hNb
    · simp
    · rfl
    · intro q _
      simp only
      rw [load_zeros]
      exact Nat.two_pow_pos W
    · intro i hi
      simp only at hi
      rw [hbits i]
      have : ¬ i < N := by omega
      simp [this]

/-- The vector `resize(N, fill)` leaves for a length `N` on which the sum of
`words_needed` does not overflow: nothing is thrown, the invariant holds, the size is `N`,
the bits below both sizes are kept and the new positions hold `fill`. -/
theorem resize_call_ok (W : Nat) (hW : 0 < W) (v : BitArray) (h : WF W v) (N : Nat)
    (hN : (N : Int) + (W : Int) - 1 ≤ INT_MAX) (fill : Bool) :
    ∃ r, resize_call W v (N : Int) fill = ⟨r, Option.none⟩ ∧ WF W r ∧ r.num_bits = N ∧
      ∀ i, bit W r i =
        if i < v.num_bits then (decide (i < N) && bit W v i) else (decide (i < N) && fill) := by
  by_cases hne : N = v.num_bits
  · refine ⟨v, ?_, h, hne.symm, fun i => ?_⟩
    · unfold resize_call
      rw [if_neg (by omega), if_pos (by omega)]
    · by_cases hi : i < v.num_bits
      · have : i < N := by omega
        simp [hi, this]
      · have : ¬ i < N := by omega
        simp [hi, this, h.bit_tail hW i (by omega)]
  · obtain ⟨b, e, wb, nb, bb⟩ := resize_buffer W hW v h N hN hne fill
    by_cases hf : fill = true ∧ (N : Int) > (v.num_bits : Int)
    · rw [if_pos hf] at e
      obtain ⟨r, e2, wr, nr, br⟩ := fill_loop_ok W hW (N - v.num_bits) v.num_bits b wb
        (by omega)
      refine ⟨r, e.trans e2, wr, by rw [nr, nb], fun i => ?_⟩
      rw [br, bb, hf.1]
      by_cases hi : i < v.num_bits
      · have h1 : ¬ (v.num_bits ≤ i ∧ i < v.num_bits + (N - v.num_bits)) := by omega
        simp [hi, h1]
      · by_cases hiN : i < N
        · have h1 : v.num_bits ≤ i ∧ i < v.num_bits + (N - v.num_bits) := by omega
          simp [hi, hiN, h1]
        · have h1 : ¬ (v.num_bits ≤ i ∧ i < v.num_bits + (N - v.num_bits)) := by omega
          simp [hi, hiN, h1]
    · rw [if_neg hf] at e
      refine ⟨b, e, wb, nb, fun i => ?_⟩
      rw [bb]
      by_cases hi : i < v.num_bits
      · rw [if_pos hi]
      · rw [if_neg hi, h.bit_tail hW i (by omega)]
        cases fill
        · simp
        · have : ¬ i < N := by
            intro c
            exact hf ⟨rfl, by omega⟩
          simp [this]

theorem resize_ok (W : Nat) (hW : 0 < W) (v : BitArray) (h : WF W v) (N : Nat)
    (hN : (N : Int) + (W : Int) - 1 ≤ INT_MAX) (fill : Bool) :
    ∃ r, resize W v (N : Int) fill = .ok r ∧ WF W r ∧ r.num_bits = N ∧
      ∀ i, bit W r i =
        if i < v.num_bits then (decide (i < N) && bit W v i) else (decide (i < N) && fill) := by
  obtain ⟨r, e, w, n1, b⟩ := resize_call_ok W hW v h N hN fill
  refine ⟨r, ?_, w, n1, b⟩
  unfold resize
  rw [e]
  rfl

/-- The postcondition of `resize` on the lengths `allocate` accepts. For a vector `v` that
satisfies the class invariant, every `newLength ≥ 0` on which the sum of `words_needed`
does not overflow and every `fill`, `v.resize(newLength, fill)` succeeds and leaves a
vector of size `newLength` in which `operator[]` reads, at every index below both the old
and the new size, what it read before, and reads `fill` at every index from the old size
up to the new one. -/
theorem resize_in_range (W : Nat) (hW : 0 < W) (v : BitArray) (h : WF W v)
    (newLength : Int) (hlen : 0 ≤ newLength) (hb : newLength + (W : Int) - 1 ≤ INT_MAX)
    (fill : Bool) :
    ∃ r, resize W v newLength fill = .ok r ∧ (size r : Int) = newLength ∧
      (∀ i : Nat, i < size v → (i : Int) < newLength →
        op_index W r (i : Int) = op_index W v (i : Int)) ∧
      (∀ i : Nat, size v ≤ i → (i : Int) < newLength →
        op_index W r (i : Int) = .ok fill) := by
  obtain ⟨N, rfl⟩ := Int.eq_ofNat_of_zero_le hlen
  obtain ⟨r, e, _, nr, br⟩ := resize_ok W hW v h N hb fill
  unfold size
  refine ⟨r, e, by rw [nr], fun i h1 h2 => ?_, fun i h1 h2 => ?_⟩
  · have hiN : i < N := by omega
    rw [op_index_eq W r i (by omega), op_index_eq W v i h1, br, if_pos h1]
    simp [hiN]
  · have hiN : i < N := by omega
    rw [op_index_eq W r i (by omega), br, if_neg (by omega)]
    simp [hiN]

/-! ## Shifts: the word loops -/

theorem store_store (d : List Nat) (i x y : Nat) : store (store d i x) i y = store d i y := by
  unfold store
  rw [List.set_set]

theorem shl_body_eq (W ws bs i : Nat) (d : List Nat) :
    shl_body W ws bs i d = store d i (shl_word W ws bs i d) := by
  unfold shl_body shl_word
  simp only
  by_cases c : bs ≠ 0 ∧ ws + 1 ≤ i
  · rw [if_pos c, if_pos c, store_store]
    by_cases hi : i < d.length
    · have h1 : ∀ x, load (store d i x) i = x := by
        intro x
        rw [load_store, if_pos ⟨rfl, hi⟩]
      have h2 : ∀ x, load (store d i x) (i - ws - 1) = load d (i - ws - 1) := by
        intro x
        rw [load_store, if_neg (by omega)]
      rw [h1, h2]
    · have e : ∀ x, store d i x = d := by
        intro x
        apply ext_load _ _ (length_store d i x)
        intro j _
        rw [load_store, if_neg (by omega)]
      rw [e, e]
  · rw [if_neg c, if_neg c]

theorem shr_body_eq (W ws bs tw i : Nat) (d : List Nat) :
    shr_body W ws bs tw i d = store d i (shr_word W ws bs tw i d) := by
  unfold shr_body shr_word
  simp only
  by_cases c : bs ≠ 0 ∧ i + ws + 1 < tw
  · rw [if_pos c, if_pos c, store_store]
    by_cases hi : i < d.length
    · have h1 : ∀ x, load (store d i x) i = x := by
        intro x
        rw [load_store, if_pos ⟨rfl, hi⟩]
      have h2 : ∀ x, load (store d i x) (i + ws + 1) = load d (i + ws + 1) := by
        intro x
        rw [load_store, if_neg (by omega)]
      rw [h1, h2]
    · have e : ∀ x, store d i x = d := by
        intro x
        apply ext_load _ _ (length_store d i x)
        intro j _
        rw [load_store, if_neg (by omega)]
      rw [e, e]
  · rw [if_neg c, if_neg c]

/-- The two word loops of `operator<<=`. -/
theorem shl_loops (W ws bs tw : Nat) (d : List Nat) (hws : ws ≤ tw) (hl : d.length = tw) :
    (for_up (fun i d => store d i 0) 0 ws
      (for_down (shl_body W ws bs) ws (tw - ws) d)).length = tw ∧
    ∀ q, load (for_up (fun i d => store d i 0) 0 ws
      (for_down (shl_body W ws bs) ws (tw - ws) d)) q =
        if q < ws then 0 else if q < tw then shl_word W ws bs q d else 0 := by
  obtain ⟨a1, a2⟩ := for_down_store (shl_body W ws bs) (shl_word W ws bs)
    (shl_body_eq W ws bs)
    (fun i x y hxy => by
      unfold shl_word
      rw [hxy (i - ws) (by omega), hxy (i - ws - 1) (by omega)])
    ws (tw - ws) d (by omega)
  obtain ⟨b1, b2⟩ := for_up_store (fun i d => store d i 0) (fun _ _ => 0)
    (fun _ _ => rfl) (fun _ _ _ _ => rfl) ws 0
    (for_down (shl_body W ws bs) ws (tw - ws) d) (by omega)
  refine ⟨by omega, fun q => ?_⟩
  rw [b2, a2]
  by_cases h1 : q < ws
  · rw [if_pos (by omega), if_pos h1]
  · rw [if_neg (by omega), if_neg h1]
    by_cases h2 : q < tw
    · rw [if_pos (by omega), if_pos h2]
    · rw [if_neg (by omega), if_neg h2, load_of_le d q (by omega)]

/-- The two word loops of `operator>>=`. -/
theorem shr_loops (W ws bs tw : Nat) (d : List Nat) (hws : ws ≤ tw) (hl : d.length = tw) :
    (for_up (fun i d => store d i 0) (tw - ws) (tw - (tw - ws))
      (for_up (shr_body W ws bs tw) 0 (tw - ws) d)).length = tw ∧
    ∀ q, load (for_up (fun i d => store d i 0) (tw - ws) (tw - (tw - ws))
      (for_up (shr_body W ws bs tw) 0 (tw - ws) d)) q =
        if q < tw - ws then shr_word W ws bs tw q d else 0 := by
  obtain ⟨a1, a2⟩ := for_up_store (shr_body W ws bs tw) (shr_word W ws bs tw)
    (shr_body_eq W ws bs tw)
    (fun i x y hxy => by
      unfold shr_word
      rw [hxy (i + ws) (by omega), hxy (i + ws + 1) (by omega)])
    (tw - ws) 0 d (by omega)
  obtain ⟨b1, b2⟩ := for_up_store (fun i d => store d i 0) (fun _ _ => 0)
    (fun _ _ => rfl) (fun _ _ _ _ => rfl) (tw - (tw - ws)) (tw - ws)
    (for_up (shr_body W ws bs tw) 0 (tw - ws) d) (by omega)
  refine ⟨by omega, fun q => ?_⟩
  rw [b2, a2]
  by_cases h1 : q < tw - ws
  · rw [if_neg (by omega), if_pos (by omega), if_pos h1]
  · rw [if_neg h1]
    by_cases h2 : q < tw
    · rw [if_pos (by omega)]
    · rw [if_neg (by omega), if_neg (by omega), load_of_le d q (by omega)]

/-! ## Shifts: the bits of the stored words -/

/-- Bit `r` of the word that `operator<<=` stores at index `q ≥ word_shift` is the old bit
`n` positions below bit `q * W + r`, or zero when there is no such position. -/
theorem shl_word_bit (W : Nat) (v : BitArray) (hlt : ∀ q, load v.data q < 2 ^ W)
    (ws bs : Nat) (hbs : bs < W) (q r : Nat) (hr : r < W) (hq : ws ≤ q) :
    (shl_word W ws bs q v.data).testBit r =
      (decide (ws * W + bs ≤ q * W + r) && bit W v (q * W + r - (ws * W + bs))) := by
  obtain ⟨k, rfl⟩ := Nat.exists_eq_add_of_le hq
  have hmul : (ws + k) * W = ws * W + k * W := Nat.add_mul ws k W
  unfold shl_word
  by_cases hA : bs ≤ r
  · -- the bit comes from the word `word_shift` places below
    have e : (ws + k) * W + r - (ws * W + bs) = k * W + (r - bs) := by omega
    obtain ⟨e1, e2⟩ := div_mod_of_eq W _ k (r - bs) (by omega) e
    have hd : decide (ws * W + bs ≤ (ws + k) * W + r) = true := by
      apply decide_eq_true
      omega
    unfold bit
    rw [e1, e2, hd, Bool.true_and, Nat.add_sub_cancel_left]
    split
    · rw [Nat.testBit_or, testBit_wshl, testBit_wshr,
        testBit_of_lt W _ (W - bs + r) (hlt _) (by omega)]
      simp [hr, hA]
    · rw [testBit_wshl]
      simp [hr, hA]
  · -- the bit is carried in from the next lower word
    rcases k with _ | k
    · have hd : decide (ws * W + bs ≤ (ws + 0) * W + r) = false := by
        apply decide_eq_false
        omega
      rw [hd, Bool.false_and, if_neg (by omega), testBit_wshl]
      simp [hA]
    · have hmul2 : (k + 1) * W = k * W + W := Nat.succ_mul k W
      have e : (ws + (k + 1)) * W + r - (ws * W + bs) = k * W + (W - bs + r) := by omega
      obtain ⟨e1, e2⟩ := div_mod_of_eq W _ k (W - bs + r) (by omega) e
      have hd : decide (ws * W + bs ≤ (ws + (k + 1)) * W + r) = true := by
        apply decide_eq_true
        omega
      have hk : ws + (k + 1) - ws - 1 = k := by omega
      unfold bit
      rw [e1, e2, hd, Bool.true_and, if_pos ⟨by omega, by omega⟩, Nat.testBit_or,
        testBit_wshl, testBit_wshr, hk]
      simp [hA]

/-- Bit `r` of the word that `operator>>=` stores at index `q` is the old bit `n`
positions above bit `q * W + r`. -/
theorem shr_word_bit (W : Nat) (v : BitArray) (hlt : ∀ q, load v.data q < 2 ^ W)
    (ws bs tw : Nat) (hl : v.data.length = tw) (hbs : bs < W) (q r : Nat) (hr : r < W) :
    (shr_word W ws bs tw q v.data).testBit r = bit W v (q * W + r + (ws * W + bs)) := by
  have hmul : (q + ws) * W = q * W + ws * W := Nat.add_mul q ws W
  unfold shr_word
  by_cases hA : r + bs < W
  · -- the bit comes from the word `word_shift` places above
    have e : q * W + r + (ws * W + bs) = (q + ws) * W + (r + bs) := by omega
    obtain ⟨e1, e2⟩ := div_mod_of_eq W _ (q + ws) (r + bs) hA e
    unfold bit
    rw [e1, e2]
    have hc : bs + r = r + bs := Nat.add_comm bs r
    split
    · rw [Nat.testBit_or, testBit_wshr, testBit_wshl, hc]
      have : ¬ W - bs ≤ r := by omega
      simp [this]
    · rw [testBit_wshr, hc]
  · -- the bit is carried in from the next higher word
    have hmul2 : (q + ws + 1) * W = (q + ws) * W + W := Nat.succ_mul (q + ws) W
    have e : q * W + r + (ws * W + bs) = (q + ws + 1) * W + (r + bs - W) := by omega
    obtain ⟨e1, e2⟩ := div_mod_of_eq W _ (q + ws + 1) (r + bs - W) (by omega) e
    have hx : (load v.data (q + ws)).testBit (bs + r) = false :=
      testBit_of_lt W _ _ (hlt _) (by omega)
    have hs : r - (W - bs) = r + bs - W := by omega
    unfold bit
    rw [e1, e2]
    split
    · rw [Nat.testBit_or, testBit_wshr, testBit_wshl, hx, hs]
      have : W - bs ≤ r := by omega
      simp [hr, this]
    · rename_i c
      rw [testBit_wshr, hx]
      have hb : bs ≠ 0 := by omega
      rw [load_of_le v.data _ (by
        have : ¬ q + ws + 1 < tw := fun c2 => c ⟨hb, c2⟩
        omega)]
      simp

/-! ## Left shift -/

theorem shl_neg (W : Nat) (v : BitArray) (n : Int) (hn : n < 0) : op_shl_assign W v n = v := by
  unfold op_shl_assign
  rw [if_pos hn]

/-- The buffer `operator<<=` leaves for a shift `0 < m < num_bits`. -/
theorem shl_main_eq (W : Nat) (v : BitArray) (m : Nat) (h0 : 0 < m) (hm : m < v.num_bits)
    (hw : words W v.num_bits = nwords W v.num_bits) (d2 : List Nat)
    (hd : d2 = for_up (fun i d => store d i 0) 0 (m / W)
      (for_down (shl_body W (m / W) (m % W)) (m / W)
        (nwords W v.num_bits - m / W) v.data)) :
    op_shl_assign W v (m : Int) =
      { v with
        data := if nwords W v.num_bits * W - v.num_bits > 0 then
                  store d2 (nwords W v.num_bits - 1)
                    (load d2 (nwords W v.num_bits - 1) &&&
                      low_mask W (W - (nwords W v.num_bits * W - v.num_bits)))
                else d2 } := by
  unfold op_shl_assign
  rw [if_neg (by omega), if_neg (by omega), if_neg (by omega)]
  simp only [Int.toNat_ofNat, hw]
  rw [← hd]
  split <;> rfl

/-- The vector `operator<<=` leaves for a shift `m ≥ 0`: the invariant holds, the size is
kept, and stored bit `i` is the old bit `i - m` when `m ≤ i < num_bits` and zero
otherwise. -/
theorem shl_ok (W : Nat) (hW : 0 < W) (v : BitArray) (h : WF W v) (m : Nat) :
    WF W (op_shl_assign W v (m : Int)) ∧
    (op_shl_assign W v (m : Int)).num_bits = v.num_bits ∧
    ∀ i, bit W (op_shl_assign W v (m : Int)) i =
      (decide (i < v.num_bits) && (decide (m ≤ i) && bit W v (i - m))) := by
  by_cases hb : (m : Int) ≥ (v.num_bits : Int)
  · -- everything is shifted out
    have e : op_shl_assign W v (m : Int) =
        { v with data := memset_zero v.data (nwords W v.num_bits) } := by
      unfold op_shl_assign
      rw [if_neg (by omega), if_pos hb, h.words_nwords hW]
    have hz : ∀ q, load (memset_zero v.data (nwords W v.num_bits)) q = 0 := by
      intro q
      rw [load_memset_zero]
      split
      · rfl
      · exact load_of_le _ _ (by rw [h.length_eq]; omega)
    have hbits : ∀ i, bit W (op_shl_assign W v (m : Int)) i =
        (decide (i < v.num_bits) && (decide (m ≤ i) && bit W v (i - m))) := by
      intro i
      rw [e]
      unfold bit
      simp only
      rw [hz]
      by_cases hi : i < v.num_bits
      · have : ¬ m ≤ i := by omega
        simp [this]
      · simp [hi]
    refine ⟨?_, by rw [e], hbits⟩
    rw [e]
    apply WF.of_words
    · exact h.bound
    · simp only
      rw [length_memset_zero _ _ (by rw [h.length_eq])]
      exact h.length_eq
    · exact h.capacity_eq
    · intro q _
      simp only
      rw [hz]
      exact Nat.two_pow_pos W
    · intro i _
      unfold bit
      simp only
      rw [hz]
      simp
  · by_cases h0 : m = 0
    · -- no shift at all
      have e : op_shl_assign W v (m : Int) = v := by
        unfold op_shl_assign
        rw [if_neg (by omega), if_neg hb, if_pos (by omega)]
      rw [e]
      refine ⟨h, rfl, fun i => ?_⟩
      subst h0
      by_cases hi : i < v.num_bits
      · simp [hi]
      · simp [hi, h.bit_tail hW i (by omega)]
    · -- the word loops
      have hm : m < v.num_bits := by omega
      have hws : m / W < nwords W v.num_bits := div_lt_words W _ m hW hm
      obtain ⟨hsplit, hbs⟩ := split_index W m hW
      obtain ⟨l1, l2⟩ := shl_loops W (m / W) (m % W) (nwords W v.num_bits) v.data
        (by omega) h.length_eq
      have e := shl_main_eq W v m (by omega) hm (h.words_nwords hW) _ rfl
      have hmask := bit_mask_tail W hW v.num_bits _
        (low_mask W (W - (nwords W v.num_bits * W - v.num_bits))) l1
        (fun _ r => testBit_low_mask W _ r (by omega))
      have hword : ∀ q, shl_word W (m / W) (m % W) q v.data < 2 ^ W := by
        intro q
        unfold shl_word
        split
        · exact Nat.or_lt_two_pow (wshl_lt W _ _) (wshr_lt W _ _ (h.load_lt _))
        · exact wshl_lt W _ _
      have hbits : ∀ i, bit W (op_shl_assign W v (m : Int)) i =
          (decide (i < v.num_bits) && (decide (m ≤ i) && bit W v (i - m))) := by
        intro i
        rw [e]
        unfold bit
        simp only
        rw [hmask i, l2]
        by_cases hi : i < v.num_bits
        · obtain ⟨hsi, hri⟩ := split_index W i hW
          have hq := div_lt_words W _ i hW hi
          by_cases hlow : i / W < m / W
          · have : (i / W + 1) * W ≤ m / W * W := Nat.mul_le_mul_right W hlow
            rw [Nat.succ_mul] at this
            have hmi : ¬ m ≤ i := by omega
            simp [hlow, hmi]
          · rw [if_neg hlow, if_pos hq,
              shl_word_bit W v (fun q => h.load_lt q) _ _ hbs _ _ hri (by omega),
              ← hsi, ← hsplit]
            simp [hi]
            rfl
        · simp [hi]
      refine ⟨?_, by rw [e], hbits⟩
      apply WF.of_words
      · rw [e]
        exact h.bound
      · rw [e]
        simp only
        split
        · rw [length_store, l1]
        · rw [l1]
      · rw [e]
        exact h.capacity_eq
      · intro q _
        have hd : ∀ q, load (for_up (fun i d => store d i 0) 0 (m / W)
            (for_down (shl_body W (m / W) (m % W)) (m / W)
              (nwords W v.num_bits - m / W) v.data)) q < 2 ^ W := by
          intro q
          rw [l2]
          split
          · exact Nat.two_pow_pos W
          · split
            · exact hword q
            · exact Nat.two_pow_pos W
        rw [e]
        simp only
        split
        · rw [load_store]
          split
          · exact Nat.lt_of_le_of_lt Nat.and_le_left (hd _)
          · exact hd q
        · exact hd q
      · intro i hi
        have hi2 : v.num_bits ≤ i := by
          rw [e] at hi
          exact hi
        rw [hbits i]
        have : ¬ i < v.num_bits := by omega
        simp [this]

theorem ok_eq_ok_iff (x y : Bool) : (Except.ok x : Except Error Bool) = .ok y ↔ x = y := by
  constructor
  · intro h
    injection h
  · intro h
    rw [h]

/-- C1: left shift equals its bit-level reference. For a vector `v` that satisfies the
class invariant and every integer `n`, `v <<= n` keeps the size; for `n < 0` `operator[]`
reads every bit as before; for `n ≥ 0` it reads at every index `i` below the size a bit
that is true exactly when `i ≥ n` and `operator[]` read `true` at `i - n` before, so that
`n = 0` gives the vector back and `n ≥ size()` leaves every bit zero; and `v << n` returns
the vector `v <<= n` leaves. -/
theorem shl_reference (W : Nat) (hW : 0 < W) (v : BitArray) (h : WF W v) (n : Int) :
    size (op_shl_assign W v n) = size v ∧
    (n < 0 → ∀ i : Nat, i < size v →
      op_index W (op_shl_assign W v n) (i : Int) = op_index W v (i : Int)) ∧
    (0 ≤ n → ∀ i : Nat, i < size v →
      ∃ b, op_index W (op_shl_assign W v n) (i : Int) = .ok b ∧
        (b = true ↔ n ≤ (i : Int) ∧ op_index W v ((i : Int) - n) = .ok true)) ∧
    (n = 0 → op_shl_assign W v n = v) ∧
    ((size v : Int) ≤ n → ∀ i : Nat, i < size v →
      op_index W (op_shl_assign W v n) (i : Int) = .ok false) ∧
    op_shl W v n = op_shl_assign W v n := by
  unfold size
  have hcopy : op_shl W v n = op_shl_assign W v n := by
    unfold op_shl
    rw [copy_eq W hW v h]
  by_cases hn : n < 0
  · have e := shl_neg W v n hn
    rw [e]
    exact ⟨rfl, fun _ _ _ => rfl, fun c => absurd hn (by omega), fun c => absurd hn (by omega),
      fun c => absurd hn (by omega), by rw [hcopy, e]⟩
  · obtain ⟨m, rfl⟩ := Int.eq_ofNat_of_zero_le (by omega : 0 ≤ n)
    obtain ⟨_, nr, br⟩ := shl_ok W hW v h m
    have hread : ∀ i : Nat, i < v.num_bits →
        op_index W (op_shl_assign W v (m : Int)) (i : Int) =
          .ok (decide (m ≤ i) && bit W v (i - m)) := by
      intro i hi
      rw [op_index_eq W _ i (by omega), br]
      simp [hi]
    refine ⟨nr, fun c => absurd c hn, fun _ i hi => ?_, fun c => ?_, fun c i hi => ?_, hcopy⟩
    · refine ⟨_, hread i hi, ?_⟩
      by_cases hmi : m ≤ i
      · have e : (i : Int) - (m : Int) = ((i - m : Nat) : Int) := by omega
        rw [e, op_index_eq W v (i - m) (by omega), ok_eq_ok_iff]
        simp [hmi]
      · have : ¬ ((m : Int) ≤ (i : Int)) := by omega
        simp [hmi, this]
    · have hm : m = 0 := by omega
      subst hm
      unfold op_shl_assign
      by_cases hL : ((0 : Nat) : Int) ≥ (v.num_bits : Int)
      · rw [if_neg (by omega), if_pos hL, h.words_nwords hW]
        have h0 : v.num_bits = 0 := by omega
        have hl := h.length_eq
        rw [h0, nwords_zero W hW] at hl
        have hd : v.data = [] := List.length_eq_zero.mp hl
        rw [h0, nwords_zero W hW, hd]
        cases v
        simp_all [memset_zero]
      · rw [if_neg (by omega), if_neg hL, if_pos (by omega)]
    · rw [hread i hi]
      have : ¬ m ≤ i := by omega
      simp [this]

/-- Witness of `shl_reference`: a vector of 70 bits over 64-bit words, shifted by 66, a
shift that crosses the word boundary. -/
theorem shl_reference_witness :
    (0 < 64 ∧ WF 64 ⟨[19, 5], 70, 128⟩) ∧
    (op_shl_assign 64 ⟨[19, 5], 70, 128⟩ 66 = ⟨[0, 12], 70, 128⟩ ∧
      size (op_shl_assign 64 ⟨[19, 5], 70, 128⟩ 66) = size ⟨[19, 5], 70, 128⟩) :=
  ⟨⟨by decide, by decide⟩, by decide,
    (shl_reference 64 (by decide) ⟨[19, 5], 70, 128⟩ (by decide) 66).1⟩

/-! ## Right shift -/

theorem shr_neg (W : Nat) (v : BitArray) (n : Int) (hn : n < 0) : op_shr_assign W v n = v := by
  unfold op_shr_assign
  rw [if_pos hn]

/-- The buffer `operator>>=` leaves for a shift `0 < m < num_bits`. -/
theorem shr_main_eq (W : Nat) (v : BitArray) (m : Nat) (h0 : 0 < m) (hm : m < v.num_bits)
    (hw : words W v.num_bits = nwords W v.num_bits) (d2 : List Nat)
    (hd : d2 = for_up (fun i d => store d i 0) (nwords W v.num_bits - m / W)
      (nwords W v.num_bits - (nwords W v.num_bits - m / W))
      (for_up (shr_body W (m / W) (m % W) (nwords W v.num_bits)) 0
        (nwords W v.num_bits - m / W) v.data)) :
    op_shr_assign W v (m : Int) = { v with data := d2 } := by
  unfold op_shr_assign
  rw [if_neg (by omega), if_neg (by omega), if_neg (by omega)]
  simp only [Int.toNat_ofNat, hw]
  rw [← hd]

/-- The vector `operator>>=` leaves for a shift `m ≥ 0`: the invariant holds, the size is
kept, and stored bit `i` is the old bit `i + m`. -/
theorem shr_ok (W : Nat) (hW : 0 < W) (v : BitArray) (h : WF W v) (m : Nat) :
    WF W (op_shr_assign W v (m : Int)) ∧
    (op_shr_assign W v (m : Int)).num_bits = v.num_bits ∧
    ∀ i, bit W (op_shr_assign W v (m : Int)) i = bit W v (i + m) := by
  by_cases hb : (m : Int) ≥ (v.num_bits : Int)
  · -- everything is shifted out
    have e : op_shr_assign W v (m : Int) =
        { v with data := memset_zero v.data (nwords W v.num_bits) } := by
      unfold op_shr_assign
      rw [if_neg (by omega), if_pos hb, h.words_nwords hW]
    have hz : ∀ q, load (memset_zero v.data (nwords W v.num_bits)) q = 0 := by
      intro q
      rw [load_memset_zero]
      split
      · rfl
      · exact load_of_le _ _ (by rw [h.length_eq]; omega)
    have hbits : ∀ i, bit W (op_shr_assign W v (m : Int)) i = bit W v (i + m) := by
      intro i
      rw [e, h.bit_tail hW (i + m) (by omega)]
      unfold bit
      simp only
      rw [hz]
      simp
    refine ⟨?_, by rw [e], hbits⟩
    rw [e]
    apply WF.of_words
    · exact h.bound
    · simp only
      rw [length_memset_zero _ _ (by rw [h.length_eq])]
      exact h.length_eq
    · exact h.capacity_eq
    · intro q _
      simp only
      rw [hz]
      exact Nat.two_pow_pos W
    · intro i _
      unfold bit
      simp only
      rw [hz]
      simp
  · by_cases h0 : m = 0
    · -- no shift at all
      have e : op_shr_assign W v (m : Int) = v := by
        unfold op_shr_assign
        rw [if_neg (by omega), if_neg hb, if_pos (by omega)]
      rw [e]
      refine ⟨h, rfl, fun i => ?_⟩
      subst h0
      rfl
    · -- the word loops
      have hm : m < v.num_bits := by omega
      have hws : m / W < nwords W v.num_bits := div_lt_words W _ m hW hm
      obtain ⟨hsplit, hbs⟩ := split_index W m hW
      obtain ⟨l1, l2⟩ := shr_loops W (m / W) (m % W) (nwords W v.num_bits) v.data
        (by omega) h.length_eq
      have e := shr_main_eq W v m (by omega) hm (h.words_nwords hW) _ rfl
      have hword : ∀ q, shr_word W (m / W) (m % W) (nwords W v.num_bits) q v.data
          < 2 ^ W := by
        intro q
        unfold shr_word
        split
        · exact Nat.or_lt_two_pow (wshr_lt W _ _ (h.load_lt _)) (wshl_lt W _ _)
        · exact wshr_lt W _ _ (h.load_lt _)
      have hbits : ∀ i, bit W (op_shr_assign W v (m : Int)) i = bit W v (i + m) := by
        intro i
        obtain ⟨hsi, hri⟩ := split_index W i hW
        rw [e]
        show (load _ (i / W)).testBit (i % W) = _
        simp only
        rw [l2]
        by_cases hq : i / W < nwords W v.num_bits - m / W
        · rw [if_pos hq, shr_word_bit W v (fun q => h.load_lt q) _ _ _ h.length_eq hbs _ _ hri,
            ← hsi, ← hsplit]
        · rw [if_neg hq]
          have hmul : (i / W + m / W) * W = i / W * W + m / W * W := Nat.add_mul _ _ _
          have hge : nwords W v.num_bits ≤ (i + m) / W := by
            rw [Nat.le_div_iff_mul_le hW]
            have : nwords W v.num_bits * W ≤ (i / W + m / W) * W :=
              Nat.mul_le_mul_right W (by omega)
            omega
          unfold bit
          rw [load_of_le v.data _ (by rw [h.length_eq]; exact hge)]
          simp
      refine ⟨?_, by rw [e], hbits⟩
      apply WF.of_words
      · rw [e]
        exact h.bound
      · rw [e]
        simp only
        rw [l1]
      · rw [e]
        exact h.capacity_eq
      · intro q _
        rw [e]
        simp only
        rw [l2]
        split
        · exact hword q
        · exact Nat.two_pow_pos W
      · intro i hi
        have hi2 : v.num_bits ≤ i := by
          rw [e] at hi
          exact hi
        rw [hbits i]
        exact h.bit_tail hW (i + m) (by omega)

/-- C2: right shift equals its bit-level reference. For a vector `v` that satisfies the
class invariant (so its tail bits are zero) and every integer `n`, `v >>= n` keeps the
size; for `n < 0` `operator[]` reads every bit as before; for `n ≥ 0` it reads at every
index `i` below the size a bit that is true exactly when `i + n < size()` and
`operator[]` read `true` at `i + n` before, so that `n = 0` gives the vector back and
`n ≥ size()` leaves every bit zero; and `v >> n` returns the vector `v >>= n` leaves. -/
theorem shr_reference (W : Nat) (hW : 0 < W) (v : BitArray) (h : WF W v) (n : Int) :
    size (op_shr_assign W v n) = size v ∧
    (n < 0 → ∀ i : Nat, i < size v →
      op_index W (op_shr_assign W v n) (i : Int) = op_index W v (i : Int)) ∧
    (0 ≤ n → ∀ i : Nat, i < size v →
      ∃ b, op_index W (op_shr_assign W v n) (i : Int) = .ok b ∧
        (b = true ↔ (i : Int) + n < (size v : Int) ∧
          op_index W v ((i : Int) + n) = .ok true)) ∧
    (n = 0 → op_shr_assign W v n = v) ∧
    ((size v : Int) ≤ n → ∀ i : Nat, i < size v →
      op_index W (op_shr_assign W v n) (i : Int) = .ok false) ∧
    op_shr W v n = op_shr_assign W v n := by
  unfold size
  have hcopy : op_shr W v n = op_shr_assign W v n := by
    unfold op_shr
    rw [copy_eq W hW v h]
  by_cases hn : n < 0
  · have e := shr_neg W v n hn
    rw [e]
    exact ⟨rfl, fun _ _ _ => rfl, fun c => absurd hn (by omega), fun c => absurd hn (by omega),
      fun c => absurd hn (by omega), by rw [hcopy, e]⟩
  · obtain ⟨m, rfl⟩ := Int.eq_ofNat_of_zero_le (by omega : 0 ≤ n)
    obtain ⟨_, nr, br⟩ := shr_ok W hW v h m
    have hread : ∀ i : Nat, i < v.num_bits →
        op_index W (op_shr_assign W v (m : Int)) (i : Int) = .ok (bit W v (i + m)) := by
      intro i hi
      rw [op_index_eq W _ i (by omega), br]
    refine ⟨nr, fun c => absurd c hn, fun _ i hi => ?_, fun c => ?_, fun c i hi => ?_, hcopy⟩
    · refine ⟨_, hread i hi, ?_⟩
      have e : (i : Int) + (m : Int) = ((i + m : Nat) : Int) := by omega
      by_cases hmi : i + m < v.num_bits
      · have h1 : (i : Int) + (m : Int) < (v.num_bits : Int) := by omega
        rw [e, op_index_eq W v (i + m) hmi, ok_eq_ok_iff, ← e]
        exact ⟨fun hb => ⟨h1, hb⟩, fun hb => hb.2⟩
      · have h1 : ¬ ((i : Int) + (m : Int) < (v.num_bits : Int)) := by omega
        rw [h.bit_tail hW (i + m) (by omega)]
        exact ⟨fun c => Bool.noConfusion c, fun c => absurd c.1 h1⟩
    · have hm : m = 0 := by omega
      subst hm
      unfold op_shr_assign
      by_cases hL : ((0 : Nat) : Int) ≥ (v.num_bits : Int)
      · rw [if_neg (by omega), if_pos hL, h.words_nwords hW]
        have h0 : v.num_bits = 0 := by omega
        have hl := h.length_eq
        rw [h0, nwords_zero W hW] at hl
        have hd : v.data = [] := List.length_eq_zero.mp hl
        rw [h0, nwords_zero W hW, hd]
        cases v
        simp_all [memset_zero]
      · rw [if_neg (by omega), if_neg hL, if_pos (by omega)]
    · rw [hread i hi, h.bit_tail hW (i + m) (by omega)]

/-- Witness of `shr_reference`: a vector of 70 bits over 64-bit words, shifted by 66, a
shift that crosses the word boundary. -/
theorem shr_reference_witness :
    (0 < 64 ∧ WF 64 ⟨[19, 13], 70, 128⟩) ∧
    (op_shr_assign 64 ⟨[19, 13], 70, 128⟩ 66 = ⟨[3, 0], 70, 128⟩ ∧
      size (op_shr_assign 64 ⟨[19, 13], 70, 128⟩ 66) = size ⟨[19, 13], 70, 128⟩) :=
  ⟨⟨by decide, by decide⟩, by decide,
    (shr_reference 64 (by decide) ⟨[19, 13], 70, 128⟩ (by decide) 66).1⟩

/-! ## Whole-vector set and reset -/

/-- The vector `reset()` leaves: the invariant holds, the size is kept, every stored bit
is zero. -/
theorem reset_all_ok (W : Nat) (hW : 0 < W) (v : BitArray) (h : WF W v) :
    WF W (reset_all W v) ∧ (reset_all W v).num_bits = v.num_bits ∧
    ∀ i, bit W (reset_all W v) i = false := by
  have e : reset_all W v = { v with data := memset_zero v.data (nwords W v.num_bits) } := by
    unfold reset_all
    rw [h.words_nwords hW]
  have hz : ∀ q, load (memset_zero v.data (nwords W v.num_bits)) q = 0 := by
    intro q
    rw [load_memset_zero]
    split
    · rfl
    · exact load_of_le _ _ (by rw [h.length_eq]; omega)
  have hbits : ∀ i, bit W (reset_all W v) i = false := by
    intro i
    rw [e]
    unfold bit
    simp only
    rw [hz]
    simp
  refine ⟨?_, by rw [e], hbits⟩
  apply WF.of_words
  · rw [e]
    exact h.bound
  · rw [e]
    simp only
    rw [length_memset_zero _ _ (by rw [h.length_eq])]
    exact h.length_eq
  · rw [e]
    exact h.capacity_eq
  · intro q _
    rw [e]
    simp only
    rw [hz]
    exact Nat.two_pow_pos W
  · intro i _
    exact hbits i

/-- The buffer `set()` leaves. -/
theorem set_all_eq (W : Nat) (hW : 0 < W) (v : BitArray) (h : WF W v) (d : List Nat)
    (hd : d = memset_ones W v.data (nwords W v.num_bits)) :
    set_all W v =
      { v with
        data := if nwords W v.num_bits * W - v.num_bits > 0 then
                  store d (nwords W v.num_bits - 1)
                    (load d (nwords W v.num_bits - 1) &&&
                      tail_mask W (nwords W v.num_bits * W - v.num_bits))
                else d } := by
  unfold set_all
  simp only [h.words_nwords hW]
  rw [h.capacity_eq, ← hd]
  split <;> rfl

/-- The vector `set()` leaves: the invariant holds, the size is kept, and the stored bits
are exactly those below the size. -/
theorem set_all_ok (W : Nat) (hW : 0 < W) (v : BitArray) (h : WF W v) :
    WF W (set_all W v) ∧ (set_all W v).num_bits = v.num_bits ∧
    ∀ i, bit W (set_all W v) i = decide (i < v.num_bits) := by
  have e := set_all_eq W hW v h _ rfl
  have l1 : (memset_ones W v.data (nwords W v.num_bits)).length =
      nwords W v.num_bits := by
    rw [length_memset_ones _ _ _ (by rw [h.length_eq])]
    exact h.length_eq
  have l2 : ∀ q, load (memset_ones W v.data (nwords W v.num_bits)) q =
      if q < nwords W v.num_bits then ALL_ONES W else 0 := by
    intro q
    rw [load_memset_ones]
    split
    · rfl
    · exact load_of_le _ _ (by rw [h.length_eq]; omega)
  have hmask := bit_mask_tail W hW v.num_bits _
    (tail_mask W (nwords W v.num_bits * W - v.num_bits)) l1
    (fun he r => by
      rw [tail_mask_eq W _ he (by have := words_mul_lt W v.num_bits hW; omega),
        testBit_low_mask W _ r (by omega)])
  have hbits : ∀ i, bit W (set_all W v) i = decide (i < v.num_bits) := by
    intro i
    rw [e]
    unfold bit
    simp only
    rw [hmask i, l2]
    by_cases hi : i < v.num_bits
    · rw [if_pos (div_lt_words W _ i hW hi), testBit_ALL_ONES]
      simp [hi, Nat.mod_lt i hW]
    · simp [hi]
  refine ⟨?_, by rw [e], hbits⟩
  apply WF.of_words
  · rw [e]
    exact h.bound
  · rw [e]
    simp only
    split
    · rw [length_store, l1]
    · rw [l1]
  · rw [e]
    exact h.capacity_eq
  · intro q _
    have hd : ∀ q, load (memset_ones W v.data (nwords W v.num_bits)) q < 2 ^ W := by
      intro q
      rw [l2]
      split
      · exact ALL_ONES_lt W
      · exact Nat.two_pow_pos W
    rw [e]
    simp only
    split
    · rw [load_store]
      split
      · exact Nat.lt_of_le_of_lt Nat.and_le_left (hd _)
      · exact hd q
    · exact hd q
  · intro i hi
    have hi2 : v.num_bits ≤ i := by
      rw [e] at hi
      exact hi
    rw [hbits i]
    simp
    omega

/-! ## The invariant is preserved -/

theorem empty_WF (W : Nat) (hW : 0 < W) (hW1 : (W : Int) - 1 ≤ INT_MAX) :
    WF W empty_array := by
  refine ⟨?_, ?_, ?_, ?_, ?_⟩
  · show ((0 : Nat) : Int) + (W : Int) - 1 ≤ INT_MAX
    omega
  · show (0 : Nat) = nwords W 0
    rw [nwords_zero W hW]
  · show (0 : Nat) = nwords W 0 * W
    rw [nwords_zero W hW, Nat.zero_mul]
  · intro w hw
    cases hw
  · intro i hi
    exact absurd hi (Nat.not_lt_zero i)

/-- Where the `int` sum of `words_needed` overflows, its value is negative: the word width
is at most `2 ^ 30`, so the wrapped sum is below `-W`. -/
theorem words_needed_neg (W : Nat) (hW : 0 < W) (hW2 : W ≤ 1073741824) (N : Nat)
    (hN : (N : Int) ≤ INT_MAX) (hb : ¬ (N : Int) + (W : Int) - 1 ≤ INT_MAX) :
    words_needed W (N : Int) < 0 := by
  unfold INT_MAX at hN hb
  unfold words_needed
  have e : wrap_int ((N : Int) + (W : Int) - 1) = -((4294967297 - N - W : Nat) : Int) := by
    unfold wrap_int
    omega
  rw [e, Int.neg_tdiv, ← Int.ofNat_tdiv]
  have h1 : 0 < (4294967297 - N - W) / W := Nat.div_pos (by omega) hW
  omega

/-- Where the sum of `words_needed` overflows, `allocate` throws what `new[]` throws. -/
theorem allocate_overflow (W : Nat) (hW : 0 < W) (hW2 : W ≤ 1073741824) (N : Nat)
    (hN : (N : Int) ≤ INT_MAX) (hb : ¬ (N : Int) + (W : Int) - 1 ≤ INT_MAX) :
    allocate W (N : Int) = .error .bad_array_new_length := by
  unfold allocate
  rw [if_neg (by omega), if_pos (words_needed_neg W hW hW2 N hN hb)]

/-- On a length that is not negative `allocate` throws nothing but what `new[]` throws. -/
theorem allocate_cases (W N : Nat) :
    allocate W (N : Int) = .error .bad_array_new_length ∨
    allocate W (N : Int) = .ok (alloc W N) := by
  unfold allocate
  rw [if_neg (by omega)]
  split
  · exact Or.inl rfl
  · exact Or.inr (by rw [Int.toNat_ofNat])

theorem create_overflow_error (W : Nat) (hW : 0 < W) (hW2 : W ≤ 1073741824) (N : Nat)
    (hN : (N : Int) ≤ INT_MAX) (hb : ¬ (N : Int) + (W : Int) - 1 ≤ INT_MAX) (seed : Nat) :
    create W (N : Int) seed = .error .bad_array_new_length := by
  unfold create
  rw [if_neg (by omega), allocate_overflow W hW hW2 N hN hb]

theorem create_WF_of_ok (W : Nat) (hW : 0 < W) (hW2 : W ≤ 1073741824) (n : Int)
    (hn : n ≤ INT_MAX) (seed : Nat) (r : BitArray)
    (e : create W n seed = .ok r) : WF W r := by
  by_cases hn0 : n < 0
  · unfold create at e
    rw [if_pos hn0] at e
    cases e
  · obtain ⟨L, rfl⟩ := Int.eq_ofNat_of_zero_le (by omega : 0 ≤ n)
    by_cases hb : (L : Int) + (W : Int) - 1 ≤ INT_MAX
    · exact create_WF W hW L seed r hb e
    · rw [create_overflow_error W hW hW2 L hn hb seed] at e
      cases e

/-- Where the sum of `words_needed` overflows on the new length, `resize` throws what
`new[]` throws and leaves the vector as it was. -/
theorem resize_call_overflow (W : Nat) (hW : 0 < W) (hW2 : W ≤ 1073741824) (v : BitArray)
    (h : WF W v) (N : Nat) (hN : (N : Int) ≤ INT_MAX)
    (hb : ¬ (N : Int) + (W : Int) - 1 ≤ INT_MAX) (fill : Bool) :
    resize_call W v (N : Int) fill = ⟨v, some .bad_array_new_length⟩ := by
  have hne : ¬ (N : Int) = (v.num_bits : Int) := by
    intro c
    apply hb
    rw [c]
    exact h.bound
  unfold resize_call
  rw [if_neg (by omega), if_neg hne, allocate_overflow W hW hW2 N hN hb]

theorem resize_WF_of_ok (W : Nat) (hW : 0 < W) (hW2 : W ≤ 1073741824) (v : BitArray)
    (h : WF W v) (n : Int) (hn : n ≤ INT_MAX)
    (fill : Bool) (r : BitArray) (e : resize W v n fill = .ok r) :
    WF W r ∧ (r.num_bits : Int) = n := by
  by_cases hn0 : n < 0
  · unfold resize resize_call at e
    rw [if_pos hn0] at e
    cases e
  · obtain ⟨N, rfl⟩ := Int.eq_ofNat_of_zero_le (by omega : 0 ≤ n)
    by_cases hb : (N : Int) + (W : Int) - 1 ≤ INT_MAX
    · obtain ⟨r2, e2, w2, n2, _⟩ := resize_ok W hW v h N hb fill
      rw [e2] at e
      injection e with e
      subst e
      exact ⟨w2, by rw [n2]⟩
    · unfold resize at e
      rw [resize_call_overflow W hW hW2 v h N hn hb fill] at e
      cases e

theorem set_WF_of_ok (W : Nat) (hW : 0 < W) (v : BitArray) (h : WF W v) (n : Int)
    (val : Bool) (r : BitArray) (e : set W v n val = .ok r) : WF W r := by
  by_cases hn : n < 0 ∨ n ≥ (v.num_bits : Int)
  · unfold set set_call at e
    rw [if_pos hn] at e
    cases e
  · obtain ⟨k, rfl⟩ := Int.eq_ofNat_of_zero_le (by omega : 0 ≤ n)
    obtain ⟨r2, e2, w2, _, _⟩ := set_ok W hW v h k (by omega) val
    rw [e2] at e
    injection e with e
    subst e
    exact w2

theorem and_then_ok (r : BitArray) (next : BitArray → Call) :
    Call.and_then ⟨r, Option.none⟩ next = next r := rfl

theorem and_then_thrown (r : BitArray) (e : Error) (next : BitArray → Call) :
    Call.and_then ⟨r, some e⟩ next = ⟨r, some e⟩ := rfl

/-- The vector `push_back(b)` leaves where the sum of `words_needed` does not overflow on
the new length: nothing is thrown, the invariant holds, the size grows by one, the old
bits are kept and the new last bit is `b`. -/
theorem push_back_call_ok (W : Nat) (hW : 0 < W) (v : BitArray) (h : WF W v) (b : Bool)
    (hb : ((v.num_bits + 1 : Nat) : Int) + (W : Int) - 1 ≤ INT_MAX) :
    ∃ r, push_back_call W v b = ⟨r, Option.none⟩ ∧ WF W r ∧ r.num_bits = v.num_bits + 1 ∧
      ∀ i, bit W r i = if i < v.num_bits then bit W v i else (decide (i = v.num_bits) && b) := by
  obtain ⟨r1, e1, w1, n1, b1⟩ := resize_call_ok W hW v h (v.num_bits + 1) hb false
  have ecast : wrap_int ((v.num_bits : Int) + 1) = ((v.num_bits + 1 : Nat) : Int) := by
    have h2 : (v.num_bits : Int) + 1 ≤ INT_MAX := by omega
    rw [wrap_int_eq _ (by omega) h2]
    omega
  have hb1 : ∀ i, bit W r1 i = if i < v.num_bits then bit W v i else false := by
    intro i
    rw [b1]
    by_cases hi : i < v.num_bits
    · have : i < v.num_bits + 1 := by omega
      simp [hi, this]
    · simp [hi]
  unfold push_back_call
  rw [ecast, e1, and_then_ok]
  cases b
  · refine ⟨r1, by simp, w1, n1, fun i => ?_⟩
    rw [hb1]
    simp
  · have eidx : (r1.num_bits : Int) - 1 = ((v.num_bits : Nat) : Int) := by omega
    obtain ⟨r2, e2, w2, n2, b2⟩ := set_call_ok W hW r1 w1 v.num_bits (by omega) true
    refine ⟨r2, ?_, w2, by rw [n2, n1], fun i => ?_⟩
    · simp only [if_true]
      rw [eidx]
      exact e2
    · rw [b2, hb1]
      by_cases hi : i = v.num_bits
      · subst hi
        simp
      · simp [hi]

/-- Where the sum of `words_needed` overflows on the new length, or the new length itself
overflows, the `resize` of `push_back` throws and the vector is as it was. -/
theorem push_back_call_overflow (W : Nat) (hW : 0 < W) (hW2 : W ≤ 1073741824)
    (v : BitArray) (h : WF W v) (b : Bool)
    (hb : ¬ ((v.num_bits + 1 : Nat) : Int) + (W : Int) - 1 ≤ INT_MAX) :
    ∃ e, push_back_call W v b = ⟨v, some e⟩ := by
  have hres : ∃ e, resize_call W v (wrap_int ((v.num_bits : Int) + 1)) false =
      ⟨v, some e⟩ := by
    by_cases h1 : (v.num_bits : Int) + 1 ≤ INT_MAX
    · have ecast : wrap_int ((v.num_bits : Int) + 1) = ((v.num_bits + 1 : Nat) : Int) := by
        rw [wrap_int_eq _ (by omega) h1]
        omega
      rw [ecast]
      exact ⟨_, resize_call_overflow W hW hW2 v h (v.num_bits + 1) (by omega) hb false⟩
    · have hneg : wrap_int ((v.num_bits : Int) + 1) < 0 := by
        have := h.bound
        unfold INT_MAX at h1 this
        unfold wrap_int
        omega
      unfold resize_call
      rw [if_pos hneg]
      exact ⟨_, rfl⟩
  obtain ⟨e, he⟩ := hres
  refine ⟨e, ?_⟩
  unfold push_back_call
  rw [he, and_then_thrown]

theorem push_back_ok (W : Nat) (hW : 0 < W) (v : BitArray) (h : WF W v) (b : Bool)
    (hb : ((v.num_bits + 1 : Nat) : Int) + (W : Int) - 1 ≤ INT_MAX) :
    ∃ r, push_back W v b = .ok r ∧ WF W r ∧ r.num_bits = v.num_bits + 1 ∧
      ∀ i, bit W r i = if i < v.num_bits then bit W v i else (decide (i = v.num_bits) && b) := by
  obtain ⟨r, e, w, n1, b1⟩ := push_back_call_ok W hW v h b hb
  refine ⟨r, ?_, w, n1, b1⟩
  unfold push_back
  rw [e]
  rfl

theorem push_back_WF_of_ok (W : Nat) (hW : 0 < W) (hW2 : W ≤ 1073741824) (v : BitArray)
    (h : WF W v) (b : Bool) (r : BitArray) (e : push_back W v b = .ok r) : WF W r := by
  by_cases hb : ((v.num_bits + 1 : Nat) : Int) + (W : Int) - 1 ≤ INT_MAX
  · obtain ⟨r2, e2, w2, _, _⟩ := push_back_ok W hW v h b hb
    rw [e2] at e
    injection e with e
    subst e
    exact w2
  · obtain ⟨x, hx⟩ := push_back_call_overflow W hW hW2 v h b hb
    unfold push_back at e
    rw [hx] at e
    cases e

theorem zip_WF_of_ok (W : Nat) (hW : 0 < W) (a b : BitArray) (ha : WF W a) (hb : WF W b) :
    (∀ r, op_and_assign W a b = .ok r → WF W r) ∧
    (∀ r, op_or_assign W a b = .ok r → WF W r) ∧
    (∀ r, op_xor_assign W a b = .ok r → WF W r) := by
  by_cases hs : a.num_bits = b.num_bits
  · obtain ⟨r1, e1, w1, _⟩ := and_bits W hW a b ha hb hs
    obtain ⟨r2, e2, w2, _⟩ := or_bits W hW a b ha hb hs
    obtain ⟨r3, e3, w3, _⟩ := xor_bits W hW a b ha hb hs
    refine ⟨fun r e => ?_, fun r e => ?_, fun r e => ?_⟩
    · rw [e1] at e
      injection e with e
      exact e ▸ w1
    · rw [e2] at e
      injection e with e
      exact e ▸ w2
    · rw [e3] at e
      injection e with e
      exact e ▸ w3
  · refine ⟨fun r e => ?_, fun r e => ?_, fun r e => ?_⟩
    · unfold op_and_assign op_and_assign_call at e
      rw [if_pos hs] at e
      cases e
    · unfold op_or_assign op_or_assign_call at e
      rw [if_pos hs] at e
      cases e
    · unfold op_xor_assign op_xor_assign_call at e
      rw [if_pos hs] at e
      cases e

theorem shift_WF (W : Nat) (hW : 0 < W) (v : BitArray) (h : WF W v) (n : Int) :
    WF W (op_shl_assign W v n) ∧ WF W (op_shr_assign W v n) := by
  by_cases hn : n < 0
  · rw [shl_neg W v n hn, shr_neg W v n hn]
    exact ⟨h, h⟩
  · obtain ⟨m, rfl⟩ := Int.eq_ofNat_of_zero_le (by omega : 0 ≤ n)
    exact ⟨(shl_ok W hW v h m).1, (shr_ok W hW v h m).1⟩

/-- C5: the zero-tail invariant. The empty vector, every vector `create` builds and every
copy of a vector that satisfies the class invariant satisfy it: the buffer covers the
length exactly and every bit position at or beyond the length inside the allocated words
is zero. Every vector that `resize`, `clear`, `push_back`, `&=`, `|=`, `^=`, `<<=`, `>>=`,
`set(i, val)`, `set()`, `reset(i)`, `reset()`, `~` or assignment returns or leaves
satisfies it when the operands did. For `create`, `resize` and `push_back`, which
allocate, the length passed is an `int`, at most `INT_MAX`, and the word width is at most
`2 ^ 30`, as every width of an `unsigned long` is: an overflowing `words_needed` is then
negative, `new[]` throws, and the call returns no vector. -/
theorem zero_tail_invariant (W : Nat) (hW : 0 < W) (a b : BitArray) (ha : WF W a)
    (hb : WF W b) (n : Int) (seed : Nat) (val : Bool) :
    WF W empty_array ∧
    (n ≤ INT_MAX → W ≤ 1073741824 → ∀ r, create W n seed = .ok r → WF W r) ∧
    WF W (copy W a) ∧
    (n ≤ INT_MAX → W ≤ 1073741824 → ∀ r, resize W a n val = .ok r → WF W r) ∧
    WF W (clear a) ∧
    (W ≤ 1073741824 → ∀ r, push_back W a val = .ok r → WF W r) ∧
    (∀ r, op_and_assign W a b = .ok r → WF W r) ∧
    (∀ r, op_or_assign W a b = .ok r → WF W r) ∧
    (∀ r, op_xor_assign W a b = .ok r → WF W r) ∧
    WF W (op_shl_assign W a n) ∧
    WF W (op_shr_assign W a n) ∧
    (∀ r, set W a n val = .ok r → WF W r) ∧
    WF W (set_all W a) ∧
    (∀ r, reset W a n = .ok r → WF W r) ∧
    WF W (reset_all W a) ∧
    WF W (op_not W a) ∧
    WF W (assign W a b) := by
  obtain ⟨z1, z2, z3⟩ := zip_WF_of_ok W hW a b ha hb
  obtain ⟨s1, s2⟩ := shift_WF W hW a ha n
  have hW1 : (W : Int) - 1 ≤ INT_MAX := by
    have := ha.bound
    omega
  refine ⟨empty_WF W hW hW1, fun hn hW2 => create_WF_of_ok W hW hW2 n hn seed, ?_,
    fun hn hW2 r e => (resize_WF_of_ok W hW hW2 a ha n hn val r e).1, empty_WF W hW hW1,
    fun hW2 => push_back_WF_of_ok W hW hW2 a ha val, z1, z2, z3, s1, s2,
    set_WF_of_ok W hW a ha n val,
    (set_all_ok W hW a ha).1, set_WF_of_ok W hW a ha n false, (reset_all_ok W hW a ha).1,
    (not_bits W hW a ha).1, ?_⟩
  · rw [copy_eq W hW a ha]
    exact ha
  · unfold assign
    rw [copy_eq W hW b hb]
    exact hb

/-- Witness of `zero_tail_invariant`: the invariant of the complement of a 4-bit vector,
whose word has 60 tail bits that the complement of the word sets, and the invariant of
what `create(2, 0)` and `resize(2, true)` return with 64-bit words. -/
theorem zero_tail_invariant_witness :
    (0 < 64 ∧ WF 64 ⟨[10], 4, 64⟩ ∧ WF 64 ⟨[12], 4, 64⟩) ∧
    op_not 64 ⟨[10], 4, 64⟩ = ⟨[5], 4, 64⟩ ∧ WF 64 (op_not 64 ⟨[10], 4, 64⟩) ∧
    ((2 : Int) ≤ INT_MAX ∧ 64 ≤ 1073741824) ∧
    (∀ r, create 64 2 0 = .ok r → WF 64 r) ∧
    (∀ r, resize 64 ⟨[10], 4, 64⟩ 2 true = .ok r → WF 64 r) :=
  ⟨⟨by decide, by decide, by decide⟩, by decide,
    (zero_tail_invariant 64 (by decide) ⟨[10], 4, 64⟩ ⟨[12], 4, 64⟩ (by decide) (by decide)
      2 0 true).2.2.2.2.2.2.2.2.2.2.2.2.2.2.2.1,
    ⟨by decide, by decide⟩,
    (zero_tail_invariant 64 (by decide) ⟨[10], 4, 64⟩ ⟨[12], 4, 64⟩ (by decide) (by decide)
      2 0 true).2.1 (by decide) (by decide),
    (zero_tail_invariant 64 (by decide) ⟨[10], 4, 64⟩ ⟨[12], 4, 64⟩ (by decide) (by decide)
      2 0 true).2.2.2.1 (by decide) (by decide)⟩

/-! ## Rejected calls -/

theorem copy_num_bits (W : Nat) (v : BitArray) : (copy W v).num_bits = v.num_bits := by
  unfold copy alloc
  simp only
  split <;> rfl

theorem and_assign_call_error (W : Nat) (a b : BitArray) (hs : a.num_bits ≠ b.num_bits) :
    op_and_assign_call W a b = ⟨a, some size_mismatch⟩ := by
  unfold op_and_assign_call
  rw [if_pos hs]

theorem or_assign_call_error (W : Nat) (a b : BitArray) (hs : a.num_bits ≠ b.num_bits) :
    op_or_assign_call W a b = ⟨a, some size_mismatch⟩ := by
  unfold op_or_assign_call
  rw [if_pos hs]

theorem xor_assign_call_error (W : Nat) (a b : BitArray) (hs : a.num_bits ≠ b.num_bits) :
    op_xor_assign_call W a b = ⟨a, some size_mismatch⟩ := by
  unfold op_xor_assign_call
  rw [if_pos hs]

theorem and_assign_error (W : Nat) (a b : BitArray) (hs : a.num_bits ≠ b.num_bits) :
    op_and_assign W a b = .error size_mismatch := by
  unfold op_and_assign
  rw [and_assign_call_error W a b hs]
  rfl

theorem or_assign_error (W : Nat) (a b : BitArray) (hs : a.num_bits ≠ b.num_bits) :
    op_or_assign W a b = .error size_mismatch := by
  unfold op_or_assign
  rw [or_assign_call_error W a b hs]
  rfl

theorem xor_assign_error (W : Nat) (a b : BitArray) (hs : a.num_bits ≠ b.num_bits) :
    op_xor_assign W a b = .error size_mismatch := by
  unfold op_xor_assign
  rw [xor_assign_call_error W a b hs]
  rfl

theorem error_ne_ok {α : Type} (e : Error) (x : α) :
    (Except.error e : Except Error α) ≠ .ok x := by
  intro h
  cases h

/-- A mutating bitwise operation fails, with the size-mismatch error, exactly on operands
of different sizes. -/
theorem zip_error_iff (W : Nat) (a b : BitArray) :
    (op_and_assign W a b = .error size_mismatch ↔ a.num_bits ≠ b.num_bits) ∧
    (op_or_assign W a b = .error size_mismatch ↔ a.num_bits ≠ b.num_bits) ∧
    (op_xor_assign W a b = .error size_mismatch ↔ a.num_bits ≠ b.num_bits) := by
  refine ⟨⟨fun e hs => ?_, and_assign_error W a b⟩, ⟨fun e hs => ?_, or_assign_error W a b⟩,
    ⟨fun e hs => ?_, xor_assign_error W a b⟩⟩
  · rw [and_assign_ok W a b hs] at e
    cases e
  · rw [or_assign_ok W a b hs] at e
    cases e
  · rw [xor_assign_ok W a b hs] at e
    cases e

/-- Whatever a mutating bitwise operation throws, it throws before its word loop: the
receiver is then as it was. -/
theorem zip_call_atomic (W : Nat) (a b : BitArray) :
    (∀ e, (op_and_assign_call W a b).thrown = some e → (op_and_assign_call W a b).self = a) ∧
    (∀ e, (op_or_assign_call W a b).thrown = some e → (op_or_assign_call W a b).self = a) ∧
    (∀ e, (op_xor_assign_call W a b).thrown = some e →
      (op_xor_assign_call W a b).self = a) := by
  by_cases hs : a.num_bits = b.num_bits
  · refine ⟨fun e h => ?_, fun e h => ?_, fun e h => ?_⟩
    · unfold op_and_assign_call at h
      rw [if_neg (by simpa using hs)] at h
      cases h
    · unfold op_or_assign_call at h
      rw [if_neg (by simpa using hs)] at h
      cases h
    · unfold op_xor_assign_call at h
      rw [if_neg (by simpa using hs)] at h
      cases h
  · rw [and_assign_call_error W a b hs, or_assign_call_error W a b hs,
      xor_assign_call_error W a b hs]
    exact ⟨fun _ _ => rfl, fun _ _ => rfl, fun _ _ => rfl⟩

/-- C12: a size mismatch is rejected before anything is stored. For every two vectors
`a` and `b`, each of `a &= b`, `a |= b`, `a ^= b`, `a & b`, `a | b`, `a ^ b` fails with
the size-mismatch error exactly when `a.size() != b.size()`, and on operands of one size
each returns a vector. On operands of different sizes the call `a &= b`, `a |= b` or
`a ^= b` throws that error and leaves as its receiver `a` itself, with its length and
every word; and whatever such a call throws, the receiver it leaves is `a`. The right
operand, and both operands of `a & b`, `a | b`, `a ^ b`, are `const` references that no
statement assigns to: the calls have no output for them. -/
theorem size_mismatch_rejected (W : Nat) (a b : BitArray) :
    (op_and_assign W a b = .error size_mismatch ↔ size a ≠ size b) ∧
    (op_or_assign W a b = .error size_mismatch ↔ size a ≠ size b) ∧
    (op_xor_assign W a b = .error size_mismatch ↔ size a ≠ size b) ∧
    (op_and W a b = .error size_mismatch ↔ size a ≠ size b) ∧
    (op_or W a b = .error size_mismatch ↔ size a ≠ size b) ∧
    (op_xor W a b = .error size_mismatch ↔ size a ≠ size b) ∧
    (size a = size b →
      (∃ r, op_and_assign W a b = .ok r) ∧ (∃ r, op_or_assign W a b = .ok r) ∧
      (∃ r, op_xor_assign W a b = .ok r) ∧ (∃ r, op_and W a b = .ok r) ∧
      (∃ r, op_or W a b = .ok r) ∧ (∃ r, op_xor W a b = .ok r)) ∧
    (size a ≠ size b →
      op_and_assign_call W a b = ⟨a, some size_mismatch⟩ ∧
      op_or_assign_call W a b = ⟨a, some size_mismatch⟩ ∧
      op_xor_assign_call W a b = ⟨a, some size_mismatch⟩) ∧
    (∀ e, (op_and_assign_call W a b).thrown = some e → (op_and_assign_call W a b).self = a) ∧
    (∀ e, (op_or_assign_call W a b).thrown = some e → (op_or_assign_call W a b).self = a) ∧
    (∀ e, (op_xor_assign_call W a b).thrown = some e →
      (op_xor_assign_call W a b).self = a) := by
  unfold size op_and op_or op_xor
  obtain ⟨h1, h2, h3⟩ := zip_error_iff W a b
  obtain ⟨c1, c2, c3⟩ := zip_error_iff W (copy W a) b
  obtain ⟨t1, t2, t3⟩ := zip_call_atomic W a b
  rw [copy_num_bits] at c1 c2 c3
  refine ⟨h1, h2, h3, c1, c2, c3, fun hs => ?_, fun hs => ?_, t1, t2, t3⟩
  · have hc : (copy W a).num_bits = b.num_bits := by rw [copy_num_bits, hs]
    exact ⟨⟨_, and_assign_ok W a b hs⟩, ⟨_, or_assign_ok W a b hs⟩,
      ⟨_, xor_assign_ok W a b hs⟩, ⟨_, and_assign_ok W _ b hc⟩, ⟨_, or_assign_ok W _ b hc⟩,
      ⟨_, xor_assign_ok W _ b hc⟩⟩
  · exact ⟨and_assign_call_error W a b hs, or_assign_call_error W a b hs,
      xor_assign_call_error W a b hs⟩

/-- Witness of `size_mismatch_rejected` on the operands of the test
`BitwiseMismatchSizeThrows`: the call throws and its receiver is the 3-bit vector it was
called on. -/
theorem size_mismatch_rejected_witness :
    size ⟨[5], 3, 64⟩ ≠ size ⟨[0], 4, 64⟩ ∧
    op_and_assign 64 ⟨[5], 3, 64⟩ ⟨[0], 4, 64⟩ = .error size_mismatch ∧
    op_and_assign_call 64 ⟨[5], 3, 64⟩ ⟨[0], 4, 64⟩ = ⟨⟨[5], 3, 64⟩, some size_mismatch⟩ :=
  ⟨by decide, (size_mismatch_rejected 64 ⟨[5], 3, 64⟩ ⟨[0], 4, 64⟩).1.mpr (by decide),
    ((size_mismatch_rejected 64 ⟨[5], 3, 64⟩ ⟨[0], 4, 64⟩).2.2.2.2.2.2.2.1 (by decide)).1⟩

theorem set_call_error (W : Nat) (v : BitArray) (index : Int) (val : Bool)
    (h : index < 0 ∨ index ≥ (v.num_bits : Int)) :
    set_call W v index val = ⟨v, some index_out_of_range⟩ := by
  unfold set_call
  rw [if_pos h]
  rfl

/-- Inside the vector `set` throws nothing and keeps the size. -/
theorem set_call_total (W : Nat) (v : BitArray) (index : Int) (val : Bool)
    (h : ¬ (index < 0 ∨ index ≥ (v.num_bits : Int))) :
    ∃ r, set_call W v index val = ⟨r, Option.none⟩ ∧ r.num_bits = v.num_bits := by
  unfold set_call
  rw [if_neg h]
  cases val
  · exact ⟨_, rfl, rfl⟩
  · exact ⟨_, rfl, rfl⟩

/-- Whatever `set` throws, it throws before its store: the vector is then as it
was. -/
theorem set_call_atomic (W : Nat) (v : BitArray) (index : Int) (val : Bool) :
    ∀ e, (set_call W v index val).thrown = some e → (set_call W v index val).self = v := by
  intro e h
  by_cases hi : index < 0 ∨ index ≥ (v.num_bits : Int)
  · rw [set_call_error W v index val hi]
  · obtain ⟨r, hr, _⟩ := set_call_total W v index val hi
    rw [hr] at h
    cases h

/-- The indexed operations succeed inside the vector. -/
theorem index_ok (W : Nat) (v : BitArray) (index : Int) (val : Bool)
    (h : ¬ (index < 0 ∨ index ≥ (v.num_bits : Int))) :
    (∃ b, op_index W v index = .ok b) ∧ (∃ r, set W v index val = .ok r) := by
  constructor
  · unfold op_index
    rw [if_neg h]
    exact ⟨_, rfl⟩
  · obtain ⟨r, hr, _⟩ := set_call_total W v index val h
    refine ⟨r, ?_⟩
    unfold set
    rw [hr]
    rfl

theorem index_error (W : Nat) (v : BitArray) (index : Int) (val : Bool)
    (h : index < 0 ∨ index ≥ (v.num_bits : Int)) :
    op_index W v index = .error index_out_of_range ∧
    set W v index val = .error index_out_of_range := by
  constructor
  · unfold op_index
    rw [if_pos h]
    rfl
  · unfold set
    rw [set_call_error W v index val h]
    rfl

/-- C13: index bounds. For every vector `v` and every integer index, each of `v[index]`,
`v.set(index, val)` and `v.reset(index)` fails with the index-out-of-range error exactly
when `index < 0` or `index >= v.size()`, and returns a result otherwise; so on an empty
vector each of them fails at every index. On such an index the call `v.set(index, val)`
or `v.reset(index)` throws that error and leaves as its receiver `v` itself; and whatever
such a call throws, the receiver it leaves is `v`. `operator[]` is a `const` member that
assigns to nothing: its call has no output for `v`. -/
theorem index_bounds (W : Nat) (v : BitArray) (index : Int) (val : Bool) :
    (op_index W v index = .error index_out_of_range ↔
      index < 0 ∨ index ≥ (size v : Int)) ∧
    (set W v index val = .error index_out_of_range ↔
      index < 0 ∨ index ≥ (size v : Int)) ∧
    (reset W v index = .error index_out_of_range ↔
      index < 0 ∨ index ≥ (size v : Int)) ∧
    (¬ (index < 0 ∨ index ≥ (size v : Int)) →
      (∃ b, op_index W v index = .ok b) ∧ (∃ r, set W v index val = .ok r) ∧
      (∃ r, reset W v index = .ok r)) ∧
    (size v = 0 →
      op_index W v index = .error index_out_of_range ∧
      set W v index val = .error index_out_of_range ∧
      reset W v index = .error index_out_of_range) ∧
    (index < 0 ∨ index ≥ (size v : Int) →
      set_call W v index val = ⟨v, some index_out_of_range⟩ ∧
      reset_call W v index = ⟨v, some index_out_of_range⟩) ∧
    (∀ e, (set_call W v index val).thrown = some e → (set_call W v index val).self = v) ∧
    (∀ e, (reset_call W v index).thrown = some e → (reset_call W v index).self = v) := by
  unfold size reset reset_call
  have hok : ¬ (index < 0 ∨ index ≥ (v.num_bits : Int)) →
      (∃ b, op_index W v index = .ok b) ∧ (∃ r, set W v index val = .ok r) ∧
      (∃ r, (set_call W v index false).result = .ok r) := fun h =>
    ⟨(index_ok W v index val h).1, (index_ok W v index val h).2,
      (index_ok W v index false h).2⟩
  refine ⟨⟨fun e => ?_, fun h => (index_error W v index val h).1⟩,
    ⟨fun e => ?_, fun h => (index_error W v index val h).2⟩,
    ⟨fun e => ?_, fun h => (index_error W v index false h).2⟩, hok, fun h0 => ?_,
    fun h => ⟨set_call_error W v index val h, set_call_error W v index false h⟩,
    set_call_atomic W v index val, set_call_atomic W v index false⟩
  · by_contra h
    obtain ⟨b, hb⟩ := (hok h).1
    rw [hb] at e
    cases e
  · by_contra h
    obtain ⟨b, hb⟩ := (hok h).2.1
    rw [hb] at e
    cases e
  · by_contra h
    obtain ⟨b, hb⟩ := (hok h).2.2
    rw [hb] at e
    cases e
  · have h : index < 0 ∨ index ≥ (v.num_bits : Int) := by omega
    exact ⟨(index_error W v index val h).1, (index_error W v index val h).2,
      (index_error W v index false h).2⟩

/-- Witness of `index_bounds` on the reads of the test `OutOfRangeAccessThrows`, and on a
`set` at the same index, which leaves the vector it was called on. -/
theorem index_bounds_witness :
    ((3 : Int) < 0 ∨ (3 : Int) ≥ (size ⟨[5], 3, 64⟩ : Int)) ∧
    op_index 64 ⟨[5], 3, 64⟩ 3 = .error index_out_of_range ∧
    op_index 64 ⟨[5], 3, 64⟩ (-1) = .error index_out_of_range ∧
    set_call 64 ⟨[5], 3, 64⟩ 3 true = ⟨⟨[5], 3, 64⟩, some index_out_of_range⟩ :=
  ⟨by decide, (index_bounds 64 ⟨[5], 3, 64⟩ 3 true).1.mpr (by decide),
    (index_bounds 64 ⟨[5], 3, 64⟩ (-1) true).1.mpr (by decide),
    ((index_bounds 64 ⟨[5], 3, 64⟩ 3 true).2.2.2.2.2.1 (by decide)).1⟩

/-! ## Negative lengths -/

theorem fill_loop_total (W : Nat) :
    ∀ k lo v, lo + k ≤ v.num_bits → ∃ r, fill_loop W lo k v = ⟨r, Option.none⟩ := by
  intro k
  induction k with
  | zero =>
    intro lo v _
    exact ⟨v, rfl⟩
  | succ k ih =>
    intro lo v hle
    obtain ⟨v1, e1, n1⟩ := set_call_total W v (lo : Int) true (by omega)
    obtain ⟨r, e2⟩ := ih (lo + 1) v1 (by omega)
    refine ⟨r, ?_⟩
    simp only [fill_loop]
    rw [e1]
    exact e2

/-- On a length that is not negative `create` throws nothing but what `new[]` throws. -/
theorem create_cases (W N seed : Nat) :
    create W (N : Int) seed = .error .bad_array_new_length ∨
    ∃ r, create W (N : Int) seed = .ok r := by
  unfold create
  rw [if_neg (by omega)]
  rcases allocate_cases W N with h | h
  · rw [h]
    exact Or.inl rfl
  · rw [h]
    right
    simp only
    split
    · exact ⟨_, rfl⟩
    · exact ⟨_, rfl⟩

/-- On a length that is not negative `resize` throws nothing but what `new[]` throws, and
then it has assigned nothing: the vector is as it was. -/
theorem resize_call_cases (W : Nat) (v : BitArray) (N : Nat) (fill : Bool) :
    resize_call W v (N : Int) fill = ⟨v, some .bad_array_new_length⟩ ∨
    ∃ r, resize_call W v (N : Int) fill = ⟨r, Option.none⟩ := by
  by_cases hne : N = v.num_bits
  · right
    refine ⟨v, ?_⟩
    unfold resize_call
    rw [if_neg (by omega), if_pos (by omega)]
  · rcases allocate_cases W N with h | h
    · left
      unfold resize_call
      rw [if_neg (by omega), if_neg (by omega), h]
    · right
      have shape : ∃ b : BitArray, resize_call W v (N : Int) fill =
          (if fill = true ∧ (N : Int) > (v.num_bits : Int) then
            fill_loop W v.num_bits (N - v.num_bits) b
          else ⟨b, Option.none⟩) ∧ b.num_bits = N := by
        unfold resize_call
        rw [if_neg (by omega), if_neg (by omega), h]
        simp only [Int.toNat_ofNat]
        refine ⟨_, rfl, ?_⟩
        split
        · split
          · split <;> rfl
          · rfl
        · rfl
      obtain ⟨b, e, nb⟩ := shape
      by_cases hf : fill = true ∧ (N : Int) > (v.num_bits : Int)
      · rw [if_pos hf] at e
        obtain ⟨r, e2⟩ := fill_loop_total W (N - v.num_bits) v.num_bits b (by omega)
        exact ⟨r, e.trans e2⟩
      · rw [if_neg hf] at e
        exact ⟨b, e⟩

theorem create_negative (W : Nat) (n : Int) (seed : Nat) (hn : n < 0) :
    create W n seed = .error negative_length := by
  unfold create
  rw [if_pos hn]
  rfl

theorem resize_call_negative (W : Nat) (v : BitArray) (n : Int) (fill : Bool) (hn : n < 0) :
    resize_call W v n fill = ⟨v, some negative_length⟩ := by
  unfold resize_call
  rw [if_pos hn]
  rfl

theorem resize_negative (W : Nat) (v : BitArray) (n : Int) (fill : Bool) (hn : n < 0) :
    resize W v n fill = .error negative_length := by
  unfold resize
  rw [resize_call_negative W v n fill hn]
  rfl

/-- Whatever `resize` throws, it throws before it assigns a field: the vector is then as
it was. -/
theorem resize_call_atomic (W : Nat) (v : BitArray) (n : Int) (fill : Bool) :
    ∀ e, (resize_call W v n fill).thrown = some e → (resize_call W v n fill).self = v := by
  intro e h
  by_cases hn : n < 0
  · rw [resize_call_negative W v n fill hn]
  · obtain ⟨N, rfl⟩ := Int.eq_ofNat_of_zero_le (by omega : 0 ≤ n)
    rcases resize_call_cases W v N fill with c | ⟨r, c⟩
    · rw [c]
    · rw [c] at h
      cases h

/-- The errors of `create` and `resize` on a length that is not negative are not of the
class `std::invalid_argument`. -/
theorem length_errors (W : Nat) (v : BitArray) (N seed : Nat) (fill : Bool) (e : Error) :
    (create W (N : Int) seed = .error e → e = .bad_array_new_length) ∧
    (resize W v (N : Int) fill = .error e → e = .bad_array_new_length) := by
  constructor
  · intro h
    rcases create_cases W N seed with c | ⟨r, c⟩
    · rw [c] at h
      injection h with h
      exact h.symm
    · rw [c] at h
      cases h
  · intro h
    unfold resize at h
    rcases resize_call_cases W v N fill with c | ⟨r, c⟩
    · rw [c] at h
      injection h with h
      exact h.symm
    · rw [c] at h
      cases h

/-- C14: negative lengths are rejected. `create(length, seed)` fails with the
invalid-argument error, the one of the message `num_bits must be non-negative` and any of
the class `std::invalid_argument`, exactly when `length < 0`; and so does
`v.resize(newLength, fill)`, exactly when `newLength < 0`. A `resize` to a negative length
throws that error and leaves as its receiver `v` itself, with its length and every bit;
and whatever a `resize` throws, the receiver it leaves is `v`. -/
theorem negative_length_rejected (W : Nat) (v : BitArray) (n : Int) (seed : Nat)
    (fill : Bool) :
    (create W n seed = .error negative_length ↔ n < 0) ∧
    ((∃ e, create W n seed = .error e ∧ e.kind = ErrorKind.invalid_argument) ↔ n < 0) ∧
    (resize W v n fill = .error negative_length ↔ n < 0) ∧
    ((∃ e, resize W v n fill = .error e ∧ e.kind = ErrorKind.invalid_argument) ↔ n < 0) ∧
    (n < 0 → resize_call W v n fill = ⟨v, some negative_length⟩) ∧
    (∀ e, (resize_call W v n fill).thrown = some e → (resize_call W v n fill).self = v) ∧
    negative_length.kind = ErrorKind.invalid_argument := by
  have key : ¬ n < 0 → ∀ e,
      (create W n seed = .error e → e = .bad_array_new_length) ∧
      (resize W v n fill = .error e → e = .bad_array_new_length) := by
    intro h e
    obtain ⟨N, rfl⟩ := Int.eq_ofNat_of_zero_le (by omega : 0 ≤ n)
    exact length_errors W v N seed fill e
  refine ⟨⟨fun e => ?_, create_negative W n seed⟩,
    ⟨fun e => ?_, fun h => ⟨_, create_negative W n seed h, rfl⟩⟩,
    ⟨fun e => ?_, resize_negative W v n fill⟩,
    ⟨fun e => ?_, fun h => ⟨_, resize_negative W v n fill h, rfl⟩⟩,
    resize_call_negative W v n fill, resize_call_atomic W v n fill, rfl⟩
  · by_contra h
    have c := (key h _).1 e
    cases c
  · by_contra h
    obtain ⟨x, hx, hk⟩ := e
    have c := (key h _).1 hx
    rw [c] at hk
    cases hk
  · by_contra h
    have c := (key h _).2 e
    cases c
  · by_contra h
    obtain ⟨x, hx, hk⟩ := e
    have c := (key h _).2 hx
    rw [c] at hk
    cases hk

/-- Witness of `negative_length_rejected` on the call of the test
`ConstructorNegativeThrows`, and on a `resize` to a negative length, which leaves the
vector it was called on. -/
theorem negative_length_rejected_witness :
    (-1 : Int) < 0 ∧ create 64 (-1) 0 = .error negative_length ∧
    resize 64 ⟨[5], 3, 64⟩ (-1) true = .error negative_length ∧
    resize_call 64 ⟨[5], 3, 64⟩ (-1) true = ⟨⟨[5], 3, 64⟩, some negative_length⟩ :=
  ⟨by decide, (negative_length_rejected 64 ⟨[5], 3, 64⟩ (-1) 0 true).1.mpr (by decide),
    (negative_length_rejected 64 ⟨[5], 3, 64⟩ (-1) 0 true).2.2.1.mpr (by decide),
    (negative_length_rejected 64 ⟨[5], 3, 64⟩ (-1) 0 true).2.2.2.2.1 (by decide)⟩

/-- C15: the frame of a point update. For a vector `v` that satisfies the class
invariant, every index `n` below `size()` and every `val`, `v.set(n, val)` succeeds and
leaves a vector of the same size in which `operator[]` reads `val` at `n` and, at every
other index below the size, what it read before; and `v.reset(n)` is `v.set(n, false)`. -/
theorem point_update_frame (W : Nat) (hW : 0 < W) (v : BitArray) (h : WF W v) (n : Nat)
    (hn : n < size v) (val : Bool) :
    (∃ r, set W v (n : Int) val = .ok r ∧ size r = size v ∧
      op_index W r (n : Int) = .ok val ∧
      ∀ j : Nat, j < size v → j ≠ n → op_index W r (j : Int) = op_index W v (j : Int)) ∧
    reset W v (n : Int) = set W v (n : Int) false := by
  unfold size at hn
  obtain ⟨r, e, _, nr, br⟩ := set_ok W hW v h n hn val
  unfold size
  refine ⟨⟨r, e, nr, ?_, fun j hj hne => ?_⟩, rfl⟩
  · rw [op_index_eq W r n (by omega), br, if_pos rfl]
  · rw [op_index_eq W r j (by omega), op_index_eq W v j hj, br, if_neg hne]

/-- Witness of `point_update_frame` on the first call of the test `SetSingleBit`. -/
theorem point_update_frame_witness :
    (0 < 64 ∧ WF 64 ⟨[0], 4, 64⟩ ∧ 2 < size ⟨[0], 4, 64⟩) ∧
    ((∃ r, set 64 ⟨[0], 4, 64⟩ ((2 : Nat) : Int) true = .ok r ∧ size r = size ⟨[0], 4, 64⟩ ∧
      op_index 64 r ((2 : Nat) : Int) = .ok true ∧
      ∀ j : Nat, j < size ⟨[0], 4, 64⟩ → j ≠ 2 →
        op_index 64 r (j : Int) = op_index 64 ⟨[0], 4, 64⟩ (j : Int)) ∧
    reset 64 ⟨[0], 4, 64⟩ ((2 : Nat) : Int) = set 64 ⟨[0], 4, 64⟩ ((2 : Nat) : Int) false) :=
  ⟨⟨by decide, by decide, by decide⟩,
    point_update_frame 64 (by decide) ⟨[0], 4, 64⟩ (by decide) 2 (by decide) true⟩

/-! ## Vectors with the same bits -/

/-- Two vectors of one size that satisfy the invariant and store the same bits are
equal. -/
theorem eq_of_bits (W : Nat) (a b : BitArray) (ha : WF W a) (hb : WF W b)
    (hn : a.num_bits = b.num_bits) (h : ∀ i, bit W a i = bit W b i) : a = b := by
  have hd : a.data = b.data :=
    data_eq_of_bits W a b (by rw [ha.length_eq, hb.length_eq, hn])
      (fun q => ha.load_lt q) (fun q => hb.load_lt q) h
  have hc : a.capacity = b.capacity := by rw [ha.capacity_eq, hb.capacity_eq, hn]
  cases a
  cases b
  simp_all

theorem op_eq_self (W : Nat) (hW : 0 < W) (v : BitArray) (h : WF W v) :
    op_eq W v v = true :=
  (op_eq_iff_bits W hW v v h h).mpr ⟨rfl, fun _ _ => rfl⟩

/-! ## Whole-vector set and reset: idempotence and counts -/

/-- C16: whole-vector set and reset. For a vector `v` that satisfies the class invariant,
`v.set()` keeps the size and leaves every bit below the size set, so that `count()` is
`size()`; `v.reset()` keeps the size and leaves every bit below the size clear, so that
`count()` is zero; and `set()` after `set()`, as `reset()` after `reset()`, leaves the
vector that one call leaves, which `operator==` confirms. -/
theorem set_reset_all (W : Nat) (hW : 0 < W) (v : BitArray) (h : WF W v) :
    (size (set_all W v) = size v ∧
      (∀ i : Nat, i < size v → op_index W (set_all W v) (i : Int) = .ok true) ∧
      count W (set_all W v) = size v) ∧
    (size (reset_all W v) = size v ∧
      (∀ i : Nat, i < size v → op_index W (reset_all W v) (i : Int) = .ok false) ∧
      count W (reset_all W v) = 0) ∧
    (set_all W (set_all W v) = set_all W v ∧
      op_eq W (set_all W (set_all W v)) (set_all W v) = true) ∧
    (reset_all W (reset_all W v) = reset_all W v ∧
      op_eq W (reset_all W (reset_all W v)) (reset_all W v) = true) := by
  obtain ⟨ws, ns, bs⟩ := set_all_ok W hW v h
  obtain ⟨wr, nr, br⟩ := reset_all_ok W hW v h
  obtain ⟨ws2, ns2, bs2⟩ := set_all_ok W hW _ ws
  obtain ⟨wr2, nr2, br2⟩ := reset_all_ok W hW _ wr
  have es : set_all W (set_all W v) = set_all W v :=
    eq_of_bits W _ _ ws2 ws ns2 (fun i => by rw [bs2, bs, ns])
  have er : reset_all W (reset_all W v) = reset_all W v :=
    eq_of_bits W _ _ wr2 wr nr2 (fun i => by rw [br2, br])
  unfold size
  refine ⟨⟨ns, fun i hi => ?_, ?_⟩, ⟨nr, fun i hi => ?_, ?_⟩, ⟨es, ?_⟩, ⟨er, ?_⟩⟩
  · rw [op_index_eq W _ i (by omega), bs]
    simp [hi]
  · rw [count_eq W hW _ (fun q => ws.load_lt q), ns]
    have : List.countP (fun i => bit W (set_all W v) i) (List.range v.num_bits) =
        (List.range v.num_bits).length := by
      rw [List.countP_eq_length]
      intro i hi
      rw [List.mem_range] at hi
      rw [bs]
      simp [hi]
    rw [this, List.length_range]
  · rw [op_index_eq W _ i (by omega), br]
  · rw [count_eq W hW _ (fun q => wr.load_lt q), List.countP_eq_zero]
    intro i _
    rw [br]
    simp
  · rw [es]
    exact op_eq_self W hW _ ws
  · rw [er]
    exact op_eq_self W hW _ wr

/-- Witness of `set_reset_all` on the vector of the test `SetAllBits`. -/
theorem set_reset_all_witness :
    (0 < 64 ∧ WF 64 ⟨[0], 5, 64⟩) ∧
    set_all 64 ⟨[0], 5, 64⟩ = ⟨[31], 5, 64⟩ ∧
    count 64 (set_all 64 ⟨[0], 5, 64⟩) = size ⟨[0], 5, 64⟩ :=
  ⟨⟨by decide, by decide⟩, by decide,
    (set_reset_all 64 (by decide) ⟨[0], 5, 64⟩ (by decide)).1.2.2⟩

/-! ## Any and none -/

theorem any_loop_iff (d : List Nat) :
    ∀ n i, any_loop d i n = true ↔ ∃ q, i ≤ q ∧ q < i + n ∧ load d q ≠ 0 := by
  intro n
  induction n with
  | zero =>
    intro i
    simp only [any_loop]
    constructor
    · intro c
      cases c
    · rintro ⟨q, h1, h2, _⟩
      omega
  | succ n ih =>
    intro i
    simp only [any_loop]
    by_cases h : load d i ≠ 0
    · rw [if_pos h]
      exact ⟨fun _ => ⟨i, Nat.le_refl i, by omega, h⟩, fun _ => rfl⟩
    · rw [if_neg h, ih (i + 1)]
      constructor
      · rintro ⟨q, h1, h2, h3⟩
        exact ⟨q, by omega, by omega, h3⟩
      · rintro ⟨q, h1, h2, h3⟩
        have : q ≠ i := fun e => h (e ▸ h3)
        exact ⟨q, by omega, by omega, h3⟩

/-- Under the invariant `any()` holds exactly when a bit below the size is set. -/
theorem any_iff (W : Nat) (hW : 0 < W) (v : BitArray) (h : WF W v) :
    any W v = true ↔ ∃ i, i < v.num_bits ∧ bit W v i = true := by
  unfold any
  rw [h.words_nwords hW, any_loop_iff]
  constructor
  · rintro ⟨q, _, _, hq⟩
    obtain ⟨r, hr⟩ := Nat.ne_zero_implies_bit_true hq
    have hrW : r < W := by
      by_contra c
      rw [testBit_of_lt W _ r (h.load_lt q) (by omega)] at hr
      cases hr
    rw [bit_word W v q r hrW] at hr
    refine ⟨q * W + r, ?_, hr⟩
    by_contra c
    rw [h.bit_tail hW _ (by omega)] at hr
    cases hr
  · rintro ⟨i, hi, hb⟩
    refine ⟨i / W, Nat.zero_le _, by rw [Nat.zero_add]; exact div_lt_words W _ i hW hi, ?_⟩
    intro c
    unfold bit at hb
    rw [c] at hb
    simp at hb

/-- C18: `any` and `none` reflect exactly the bits below the size. For a vector `v` that
satisfies the class invariant, `v.any()` is true exactly when `operator[]` reads `true`
at some index below `size()`, which is exactly when `count() > 0`; `v.none()` is the
negation of `v.any()`; and for the empty vector `any()` is false and `none()` is true. -/
theorem any_none_reflect (W : Nat) (hW : 0 < W) (v : BitArray) (h : WF W v) :
    (any W v = true ↔ ∃ i : Nat, i < size v ∧ op_index W v (i : Int) = .ok true) ∧
    (any W v = true ↔ 0 < count W v) ∧
    none W v = !any W v ∧
    (size v = 0 → any W v = false ∧ none W v = true) := by
  have hany := any_iff W hW v h
  unfold size
  refine ⟨?_, ?_, rfl, fun h0 => ?_⟩
  · rw [hany]
    constructor
    · rintro ⟨i, hi, hb⟩
      exact ⟨i, hi, by rw [op_index_eq W v i hi, hb]⟩
    · rintro ⟨i, hi, hb⟩
      rw [op_index_eq W v i hi, ok_eq_ok_iff] at hb
      exact ⟨i, hi, hb⟩
  · rw [hany, count_eq W hW v (fun q => h.load_lt q), List.countP_pos_iff]
    constructor
    · rintro ⟨i, hi, hb⟩
      exact ⟨i, List.mem_range.mpr hi, hb⟩
    · rintro ⟨i, hi, hb⟩
      exact ⟨i, List.mem_range.mp hi, hb⟩
  · have ha : any W v = false := by
      cases hx : any W v
      · rfl
      · obtain ⟨i, hi, _⟩ := hany.mp hx
        omega
    unfold none
    rw [ha]
    exact ⟨rfl, rfl⟩

/-- Witness of `any_none_reflect` on the vector the test `AnyAndNone` reaches by
`set(1)`. -/
theorem any_none_reflect_witness :
    (0 < 64 ∧ WF 64 ⟨[2], 3, 64⟩) ∧
    (any 64 ⟨[2], 3, 64⟩ = true ∧ none 64 ⟨[2], 3, 64⟩ = false) ∧
    (any 64 ⟨[2], 3, 64⟩ = true ↔ 0 < count 64 ⟨[2], 3, 64⟩) :=
  ⟨⟨by decide, by decide⟩, by decide,
    (any_none_reflect 64 (by decide) ⟨[2], 3, 64⟩ (by decide)).2.1⟩

/-! ## Algebra laws -/

/-- The non-mutating forms on operands that satisfy the invariant are the mutating
forms. -/
theorem op_forms_eq (W : Nat) (hW : 0 < W) (a b : BitArray) (ha : WF W a) :
    op_and W a b = op_and_assign W a b ∧ op_or W a b = op_or_assign W a b ∧
    op_xor W a b = op_xor_assign W a b := by
  unfold op_and op_or op_xor
  rw [copy_eq W hW a ha]
  exact ⟨rfl, rfl, rfl⟩

/-- The vector `create(L, 0)` stores no bit. -/
theorem create_zero (W : Nat) (hW : 0 < W) (L : Nat)
    (hb : (L : Int) + (W : Int) - 1 ≤ INT_MAX) :
    ∃ z, create W (L : Int) 0 = .ok z ∧ WF W z ∧ z.num_bits = L ∧
      ∀ i, bit W z i = false := by
  have hok := create_ok W hW L 0 hb
  refine ⟨_, hok, create_WF W hW L 0 _ hb hok, rfl, fun i => ?_⟩
  rw [bit_create W hW L 0 _ hb hok i]
  simp

/-- C11: algebra laws under `operator==`. For two vectors `a` and `b` of one size that
satisfy the class invariant, `a & b == b & a`, `a | b == b | a` and `a ^ b == b ^ a`;
and for every such vector `a`, `a & a == a`, `a | a == a`, and `a ^ a` is the all-zero
vector of the same size: `operator[]` reads `false` at every index, `none()` is true and
it equals `create(size, 0)`. -/
theorem algebra_laws (W : Nat) (hW : 0 < W) (a b : BitArray) (ha : WF W a) (hb : WF W b)
    (hs : size a = size b) :
    (∃ x y, op_and W a b = .ok x ∧ op_and W b a = .ok y ∧ op_eq W x y = true) ∧
    (∃ x y, op_or W a b = .ok x ∧ op_or W b a = .ok y ∧ op_eq W x y = true) ∧
    (∃ x y, op_xor W a b = .ok x ∧ op_xor W b a = .ok y ∧ op_eq W x y = true) ∧
    (∃ x, op_and W a a = .ok x ∧ op_eq W x a = true) ∧
    (∃ x, op_or W a a = .ok x ∧ op_eq W x a = true) ∧
    (∃ x z, op_xor W a a = .ok x ∧ size x = size a ∧
      (∀ i : Nat, i < size a → op_index W x (i : Int) = .ok false) ∧
      none W x = true ∧
      create W (size a : Int) 0 = .ok z ∧ op_eq W x z = true) := by
  unfold size at hs
  obtain ⟨f1, f2, f3⟩ := op_forms_eq W hW a b ha
  obtain ⟨g1, g2, g3⟩ := op_forms_eq W hW b a hb
  obtain ⟨k1, k2, k3⟩ := op_forms_eq W hW a a ha
  rw [f1, f2, f3, g1, g2, g3, k1, k2, k3]
  unfold size
  refine ⟨?_, ?_, ?_, ?_, ?_, ?_⟩
  · obtain ⟨x, ex, wx, nx, bx⟩ := and_bits W hW a b ha hb hs
    obtain ⟨y, ey, wy, ny, by1⟩ := and_bits W hW b a hb ha hs.symm
    refine ⟨x, y, ex, ey, (op_eq_iff_bits W hW x y wx wy).mpr ⟨by omega, fun i _ => ?_⟩⟩
    rw [bx, by1, Bool.and_comm]
  · obtain ⟨x, ex, wx, nx, bx⟩ := or_bits W hW a b ha hb hs
    obtain ⟨y, ey, wy, ny, by1⟩ := or_bits W hW b a hb ha hs.symm
    refine ⟨x, y, ex, ey, (op_eq_iff_bits W hW x y wx wy).mpr ⟨by omega, fun i _ => ?_⟩⟩
    rw [bx, by1, Bool.or_comm]
  · obtain ⟨x, ex, wx, nx, bx⟩ := xor_bits W hW a b ha hb hs
    obtain ⟨y, ey, wy, ny, by1⟩ := xor_bits W hW b a hb ha hs.symm
    refine ⟨x, y, ex, ey, (op_eq_iff_bits W hW x y wx wy).mpr ⟨by omega, fun i _ => ?_⟩⟩
    rw [bx, by1, Bool.xor_comm]
  · obtain ⟨x, ex, wx, nx, bx⟩ := and_bits W hW a a ha ha rfl
    refine ⟨x, ex, (op_eq_iff_bits W hW x a wx ha).mpr ⟨nx, fun i _ => ?_⟩⟩
    rw [bx, Bool.and_self]
  · obtain ⟨x, ex, wx, nx, bx⟩ := or_bits W hW a a ha ha rfl
    refine ⟨x, ex, (op_eq_iff_bits W hW x a wx ha).mpr ⟨nx, fun i _ => ?_⟩⟩
    rw [bx, Bool.or_self]
  · obtain ⟨x, ex, wx, nx, bx⟩ := xor_bits W hW a a ha ha rfl
    obtain ⟨z, ez, wz, nz, bz⟩ := create_zero W hW a.num_bits ha.bound
    have hx0 : ∀ i, bit W x i = false := by
      intro i
      rw [bx, Bool.xor_self]
    refine ⟨x, z, ex, nx, fun i hi => ?_, ?_, ez,
      (op_eq_iff_bits W hW x z wx wz).mpr ⟨by omega, fun i _ => by rw [hx0, bz]⟩⟩
    · rw [op_index_eq W x i (by omega), hx0]
    · unfold none
      cases hany : any W x
      · rfl
      · obtain ⟨i, _, hb1⟩ := (any_iff W hW x wx).mp hany
        rw [hx0] at hb1
        cases hb1

/-- Witness of `algebra_laws` on the operands of the test `BitwiseXOR`. -/
theorem algebra_laws_witness :
    (0 < 64 ∧ WF 64 ⟨[12], 4, 64⟩ ∧ WF 64 ⟨[10], 4, 64⟩ ∧
      size ⟨[12], 4, 64⟩ = size ⟨[10], 4, 64⟩) ∧
    ∃ x y, op_xor 64 ⟨[12], 4, 64⟩ ⟨[10], 4, 64⟩ = .ok x ∧
      op_xor 64 ⟨[10], 4, 64⟩ ⟨[12], 4, 64⟩ = .ok y ∧ op_eq 64 x y = true :=
  ⟨⟨by decide, by decide, by decide, by decide⟩,
    (algebra_laws 64 (by decide) ⟨[12], 4, 64⟩ ⟨[10], 4, 64⟩ (by decide) (by decide)
      (by decide)).2.2.1⟩

/-! ## Lengths on which `words_needed` overflows -/

/-- C6, where the code departs from it: `create` does not succeed for every length `≥ 0`.
With 64-bit words `BitArray(2147483647, 0)` throws `std::bad_array_new_length`, and so
does `BitArray(2147483585, 0)`, the least length that fails: `words_needed(2147483647)` is
`(2147483647 + 63) / 64` in `int`, the sum wraps to `-2147483586`, the quotient is
`-33554431`, and `new[]` is asked for that many words. -/
theorem create_overflow :
    (0 : Int) ≤ 2147483647 ∧
    words_needed 64 2147483647 = -33554431 ∧
    create 64 2147483647 0 = .error .bad_array_new_length ∧
    create 64 2147483585 0 = .error .bad_array_new_length ∧
    ∃ v, create 64 2147483584 0 = .ok v :=
  ⟨by decide, by decide,
    create_overflow_error 64 (by decide) (by decide) 2147483647 (by decide) (by decide) 0,
    create_overflow_error 64 (by decide) (by decide) 2147483585 (by decide) (by decide) 0,
    ⟨_, create_ok 64 (by decide) 2147483584 0 (by decide)⟩⟩

/-- C4, where the code departs from it: `resize` does not succeed for every
`newLength ≥ 0`. With 64-bit words the 2-bit vector of the test `ResizeGrowWithTrue`
satisfies the class invariant, but `resize(2147483647, true)` on it throws
`std::bad_array_new_length` and leaves the vector as it was, at size 2: the sum of
`words_needed(2147483647)` wraps, the quotient is `-33554431`, and `new[]` is asked for
that many words. -/
theorem resize_overflow :
    WF 64 ⟨[1], 2, 64⟩ ∧ (0 : Int) ≤ 2147483647 ∧
    resize 64 ⟨[1], 2, 64⟩ 2147483647 true = .error .bad_array_new_length ∧
    resize_call 64 ⟨[1], 2, 64⟩ 2147483647 true =
      ⟨⟨[1], 2, 64⟩, some .bad_array_new_length⟩ := by
  have hc : resize_call 64 ⟨[1], 2, 64⟩ 2147483647 true =
      ⟨⟨[1], 2, 64⟩, some .bad_array_new_length⟩ :=
    resize_call_overflow 64 (by decide) (by decide) ⟨[1], 2, 64⟩ (by decide) 2147483647
      (by decide) (by decide) true
  refine ⟨by decide, by decide, ?_, hc⟩
  unfold resize
  rw [hc]
  rfl

/-! ## Appending bits -/

theorem push_all_cons (W : Nat) (v v1 : BitArray) (b : Bool) (bs : List Bool)
    (h : push_back W v b = .ok v1) : push_all W v (b :: bs) = push_all W v1 bs := by
  rw [push_all, h]
  rfl

/-- The vector a run of `push_back` calls leaves where the sum of `words_needed` does not
overflow on the last length: the old bits, then the pushed bits in the order of the
calls. -/
theorem push_all_ok (W : Nat) (hW : 0 < W) :
    ∀ (bs : List Bool) (v : BitArray), WF W v →
      ((v.num_bits + bs.length : Nat) : Int) + (W : Int) - 1 ≤ INT_MAX →
      ∃ r, push_all W v bs = .ok r ∧ WF W r ∧ r.num_bits = v.num_bits + bs.length ∧
        ∀ i, bit W r i =
          if i < v.num_bits then bit W v i else bs.getD (i - v.num_bits) false := by
  intro bs
  induction bs with
  | nil =>
    intro v h _
    refine ⟨v, rfl, h, rfl, fun i => ?_⟩
    by_cases hi : i < v.num_bits
    · rw [if_pos hi]
    · rw [if_neg hi, h.bit_tail hW i (by omega)]
      rfl
  | cons b bs ih =>
    intro v h hlen
    rw [List.length_cons] at hlen
    obtain ⟨v1, e1, w1, n1, b1⟩ := push_back_ok W hW v h b (by omega)
    obtain ⟨r, e2, w2, n2, b2⟩ := ih v1 w1 (by rw [n1]; omega)
    refine ⟨r, ?_, w2, ?_, fun i => ?_⟩
    · rw [push_all_cons W v v1 b bs e1]
      exact e2
    · rw [n2, n1, List.length_cons]
      omega
    · rw [b2, n1, b1]
      by_cases hi : i < v.num_bits
      · have h1 : i < v.num_bits + 1 := by omega
        simp only [hi, h1, if_true]
      · by_cases hL : i = v.num_bits
        · subst hL
          simp
        · have e : i - v.num_bits = (i - (v.num_bits + 1)) + 1 := by omega
          have h1 : ¬ i < v.num_bits + 1 := by omega
          simp only [hi, h1, if_false]
          rw [e, List.getD_cons_succ]

/-- What `push_back` does where the sum of `words_needed` does not overflow on the
new length. For a vector `v` of size `L` that satisfies the class invariant and every bit
`b`, `v.push_back(b)` then succeeds and leaves a vector of size `L + 1` in which
`operator[]` reads `b` at index `L` and, at every index below `L`, what it read before;
so pushing the bits of a list, first to last, onto the empty vector leaves the vector
whose size is the length of the list and whose bit `i` is the `i`-th bit of the list. -/
theorem push_back_in_range (W : Nat) (hW : 0 < W) (v : BitArray) (h : WF W v) (b : Bool)
    (hb : ((size v + 1 : Nat) : Int) + (W : Int) - 1 ≤ INT_MAX) :
    (∃ r, push_back W v b = .ok r ∧ size r = size v + 1 ∧
      op_index W r (size v : Int) = .ok b ∧
      ∀ i : Nat, i < size v → op_index W r (i : Int) = op_index W v (i : Int)) ∧
    (∀ bs : List Bool, (bs.length : Int) + (W : Int) - 1 ≤ INT_MAX →
      ∃ r, push_all W empty_array bs = .ok r ∧ size r = bs.length ∧
      ∀ (i : Nat) (x : Bool), bs[i]? = some x → op_index W r (i : Int) = .ok x) := by
  unfold size at hb
  unfold size
  constructor
  · obtain ⟨r, e, _, nr, br⟩ := push_back_ok W hW v h b hb
    refine ⟨r, e, nr, ?_, fun i hi => ?_⟩
    · rw [op_index_eq W r _ (by omega), br]
      simp
    · rw [op_index_eq W r i (by omega), op_index_eq W v i hi, br, if_pos hi]
  · intro bs hbs
    have h0 : empty_array.num_bits = 0 := rfl
    obtain ⟨r, e, _, nr, br⟩ := push_all_ok W hW bs empty_array
      (empty_WF W hW (by omega)) (by rw [h0, Nat.zero_add]; exact hbs)
    rw [h0, Nat.zero_add] at nr
    refine ⟨r, e, nr, fun i x hx => ?_⟩
    have hi : i < bs.length := by
      by_contra c
      rw [List.getElem?_eq_none (by omega)] at hx
      cases hx
    rw [op_index_eq W r i (by omega), br, h0, if_neg (by omega), Nat.sub_zero,
      List.getD_eq_getElem?_getD, hx]
    rfl

/-- The `push_back` of a bit onto a vector of 2147483584 bits, with 64-bit words: the sum
of `words_needed(2147483585)` overflows, `new[]` throws, and so does `push_back`. -/
theorem push_back_at_limit (v : BitArray) (hn : v.num_bits = 2147483584) (b : Bool) :
    push_back 64 v b = .error .bad_array_new_length := by
  have e1 : wrap_int ((v.num_bits : Int) + 1) = ((2147483585 : Nat) : Int) := by
    rw [hn]
    decide
  have e2 : allocate 64 ((2147483585 : Nat) : Int) = .error .bad_array_new_length :=
    allocate_overflow 64 (by decide) (by decide) 2147483585 (by decide) (by decide)
  have e3 : resize_call 64 v ((2147483585 : Nat) : Int) false =
      ⟨v, some .bad_array_new_length⟩ := by
    unfold resize_call
    rw [if_neg (by decide), if_neg (by rw [hn]; decide), e2]
  unfold push_back push_back_call
  rw [e1, e3, and_then_thrown]
  rfl

/-- C17, where the code departs from it: `push_back` does not append to every vector. With
64-bit words the vector `BitArray(2147483584, 0)` is built, it satisfies the class
invariant, and `push_back(true)` on it throws `std::bad_array_new_length`: its
`resize(2147483585)` computes `words_needed(2147483585)` as `(2147483585 + 63) / 64` in
`int`, the sum wraps to `-2147483648`, and `new[]` is asked for `-33554432` words. -/
theorem push_back_overflow :
    ∃ v, create 64 2147483584 0 = .ok v ∧ WF 64 v ∧ size v = 2147483584 ∧
      push_back 64 v true = .error .bad_array_new_length := by
  have hb : ((2147483584 : Nat) : Int) + ((64 : Nat) : Int) - 1 ≤ INT_MAX := by decide
  have hok := create_ok 64 (by decide) 2147483584 0 hb
  exact ⟨_, hok, create_WF 64 (by decide) 2147483584 0 _ hb hok, rfl,
    push_back_at_limit _ rfl true⟩

/-! ## Growing and shrinking back -/

/-- The grow-then-shrink round trip where the sum of `words_needed` does not overflow on
the larger length. For a vector `v` of size `L` that satisfies the class invariant, every
such `n ≥ L` and every fill, resizing `v` to `n` with that fill and then back to `L`
succeeds twice and leaves a vector that `operator==` finds equal to `v`, and that is
`v`. -/
theorem round_trip_in_range (W : Nat) (hW : 0 < W) (v : BitArray) (h : WF W v)
    (n : Int) (hn : (size v : Int) ≤ n) (hb : n + (W : Int) - 1 ≤ INT_MAX)
    (fill fill2 : Bool) :
    ∃ r1 r2, resize W v n fill = .ok r1 ∧ resize W r1 (size v : Int) fill2 = .ok r2 ∧
      op_eq W r2 v = true ∧ r2 = v := by
  unfold size at hn
  obtain ⟨N, rfl⟩ := Int.eq_ofNat_of_zero_le (by omega : 0 ≤ n)
  obtain ⟨r1, e1, w1, n1, b1⟩ := resize_ok W hW v h N hb fill
  obtain ⟨r2, e2, w2, n2, b2⟩ := resize_ok W hW r1 w1 v.num_bits h.bound fill2
  have hbits : ∀ i, bit W r2 i = bit W v i := by
    intro i
    rw [b2, n1]
    by_cases hi : i < v.num_bits
    · have hiN : i < N := by omega
      rw [if_pos hiN, b1, if_pos hi]
      simp [hi, hiN]
    · rw [h.bit_tail hW i (by omega)]
      split <;> simp [hi]
  have heq : r2 = v := eq_of_bits W r2 v w2 h n2 hbits
  unfold size
  refine ⟨r1, r2, e1, e2, ?_, heq⟩
  rw [heq]
  exact op_eq_self W hW v h

/-- C20, where the code departs from it: the round trip does not start for every `n`. With
64-bit words the 3-bit vector of the word `5` satisfies the class invariant and
`2147483647 ≥ 3`, but growing it to 2147483647 bits throws `std::bad_array_new_length`
and leaves the vector as it was: `words_needed(2147483647)` is `(2147483647 + 63) / 64` in
`int`, the sum wraps to `-2147483586`, and `new[]` is asked for `-33554431` words. -/
theorem round_trip_overflow :
    WF 64 ⟨[5], 3, 64⟩ ∧ (size ⟨[5], 3, 64⟩ : Int) ≤ 2147483647 ∧
    resize 64 ⟨[5], 3, 64⟩ 2147483647 true = .error .bad_array_new_length ∧
    resize 64 ⟨[5], 3, 64⟩ 2147483647 false = .error .bad_array_new_length ∧
    resize_call 64 ⟨[5], 3, 64⟩ 2147483647 true =
      ⟨⟨[5], 3, 64⟩, some .bad_array_new_length⟩ := by
  have hc : ∀ fill, resize_call 64 ⟨[5], 3, 64⟩ 2147483647 fill =
      ⟨⟨[5], 3, 64⟩, some .bad_array_new_length⟩ := fun fill =>
    resize_call_overflow 64 (by decide) (by decide) ⟨[5], 3, 64⟩ (by decide) 2147483647
      (by decide) (by decide) fill
  refine ⟨by decide, by decide, ?_, ?_, hc true⟩
  · unfold resize
    rw [hc true]
    rfl
  · unfold resize
    rw [hc false]
    rfl

/-! ## The kinds of error -/

/-- C19, as the claim states it, fails: the error `a &= b` raises on vectors of sizes 3
and 4 and the error `create(-1, 0)` raises are of the same kind, `std::invalid_argument`. -/
theorem error_kinds_counterexample :
    ∃ e1 e2, op_and_assign 64 ⟨[0], 3, 64⟩ ⟨[0], 4, 64⟩ = .error e1 ∧
      create 64 (-1) 0 = .error e2 ∧ e1.kind = e2.kind :=
  ⟨size_mismatch, negative_length, and_assign_error 64 _ _ (by decide),
    create_negative 64 (-1) 0 (by decide), rfl⟩

/-- C19, amended: the three errors are of two kinds. The error a binary bitwise operation
raises on vectors of different sizes and the error construction or `resize` raises on a
negative length are both of kind `std::invalid_argument` and differ in their message
only; the error an out-of-range index raises is of kind `std::out_of_range`, which
differs from the kind of the other two. -/
theorem error_kinds (W : Nat) (a b v : BitArray) (n index : Int) (seed : Nat)
    (fill val : Bool) (hs : size a ≠ size b) (hn : n < 0)
    (hi : index < 0 ∨ index ≥ (size v : Int)) :
    ∃ e1 e2 e3,
      (op_and_assign W a b = .error e1 ∧ op_or_assign W a b = .error e1 ∧
        op_xor_assign W a b = .error e1) ∧
      (create W n seed = .error e2 ∧ resize W v n fill = .error e2) ∧
      (op_index W v index = .error e3 ∧ set W v index val = .error e3 ∧
        reset W v index = .error e3) ∧
      e1.kind = ErrorKind.invalid_argument ∧ e2.kind = ErrorKind.invalid_argument ∧
      e3.kind = ErrorKind.out_of_range ∧
      e1.kind = e2.kind ∧ e1.message ≠ e2.message ∧
      e1.kind ≠ e3.kind ∧ e2.kind ≠ e3.kind := by
  unfold size at hs hi
  refine ⟨size_mismatch, negative_length, index_out_of_range,
    ⟨and_assign_error W a b hs, or_assign_error W a b hs, xor_assign_error W a b hs⟩,
    ⟨create_negative W n seed hn, resize_negative W v n fill hn⟩,
    ⟨(index_error W v index val hi).1, (index_error W v index val hi).2,
      (index_error W v index false hi).2⟩,
    rfl, rfl, rfl, rfl, by decide, by decide, by decide⟩

/-- Witness of `error_kinds` on the calls of the tests `BitwiseMismatchSizeThrows`,
`ConstructorNegativeThrows` and `OutOfRangeAccessThrows`. -/
theorem error_kinds_witness :
    (size ⟨[0], 3, 64⟩ ≠ size ⟨[0], 4, 64⟩ ∧ (-1 : Int) < 0 ∧
      ((3 : Int) < 0 ∨ (3 : Int) ≥ (size ⟨[0], 3, 64⟩ : Int))) ∧
    ∃ e1 e2 e3,
      (op_and_assign 64 ⟨[0], 3, 64⟩ ⟨[0], 4, 64⟩ = .error e1 ∧
        op_or_assign 64 ⟨[0], 3, 64⟩ ⟨[0], 4, 64⟩ = .error e1 ∧
        op_xor_assign 64 ⟨[0], 3, 64⟩ ⟨[0], 4, 64⟩ = .error e1) ∧
      (create 64 (-1) 0 = .error e2 ∧ resize 64 ⟨[0], 3, 64⟩ (-1) false = .error e2) ∧
      (op_index 64 ⟨[0], 3, 64⟩ 3 = .error e3 ∧ set 64 ⟨[0], 3, 64⟩ 3 true = .error e3 ∧
        reset 64 ⟨[0], 3, 64⟩ 3 = .error e3) ∧
      e1.kind = ErrorKind.invalid_argument ∧ e2.kind = ErrorKind.invalid_argument ∧
      e3.kind = ErrorKind.out_of_range ∧
      e1.kind = e2.kind ∧ e1.message ≠ e2.message ∧
      e1.kind ≠ e3.kind ∧ e2.kind ≠ e3.kind :=
  ⟨⟨by decide, by decide, by decide⟩,
    error_kinds 64 ⟨[0], 3, 64⟩ ⟨[0], 4, 64⟩ ⟨[0], 3, 64⟩ (-1) 3 0 false true (by decide)
      (by decide) (by decide)⟩

end BitArray
